import Mathlib

/-!
Verification development for the separation-node community-detection core
(`neighborhoodConnectivity.py`, `graphs.py`).

The Python code works on `networkx` graphs whose nodes are the contiguous
integers `0 .. n-1` with undirected, loop-free edges.  We embed such a graph
as a structure carrying the node count and a symmetric, irreflexive boolean
adjacency relation supported on `0 .. n-1`.
-/

namespace QCD

/-- An undirected simple graph on the nodes `0 .. n-1`, as used by every
function of the repository (`networkx.Graph` with integer node labels). -/
structure Graph where
  n : Nat
  adj : Nat → Nat → Bool
  symm : ∀ u v, adj u v = adj v u
  loopless : ∀ u, adj u u = false
  adj_lt : ∀ u v, adj u v = true → u < n ∧ v < n

/-- Membership test used to build concrete graphs from an edge list. -/
def edgeMem (es : List (Nat × Nat)) (u v : Nat) : Bool :=
  es.any (fun e => (e.1 = u && e.2 = v) || (e.1 = v && e.2 = u))

theorem edgeMem_symm (es : List (Nat × Nat)) (u v : Nat) :
    edgeMem es u v = edgeMem es v u := by
  induction es with
  | nil => rfl
  | cons e t ih =>
      simp only [edgeMem, List.any_cons] at *
      rw [ih]
      cases h1 : (e.1 = u && e.2 = v) <;> cases h2 : (e.1 = v && e.2 = u) <;>
        simp [h1, h2]

/-- Build the graph with node set `0 .. n-1` and the given undirected edges
(edges touching nodes outside the range or loops are ignored, mirroring the
fact that the Python code never constructs such edges). -/
def mkGraph (n : Nat) (es : List (Nat × Nat)) : Graph where
  n := n
  adj := fun u v => decide (u < n) && decide (v < n) && decide (u ≠ v) && edgeMem es u v
  symm := by
    intro u v
    show (decide (u < n) && decide (v < n) && decide (u ≠ v) && edgeMem es u v)
        = (decide (v < n) && decide (u < n) && decide (v ≠ u) && edgeMem es v u)
    rw [edgeMem_symm]
    cases hu : decide (u < n) <;> cases hv : decide (v < n) <;>
      cases huv : decide (u ≠ v) <;> cases hvu : decide (v ≠ u) <;>
        simp_all
  loopless := by intro u; simp
  adj_lt := by
    intro u v h
    simp only [Bool.and_eq_true, decide_eq_true_eq] at h
    exact ⟨h.1.1.1, h.1.1.2⟩

/-- The neighbours of `u`, i.e. `G.neighbors(u)` in networkx. -/
def nbrs (G : Graph) (u : Nat) : Finset Nat :=
  (Finset.range G.n).filter (fun v => G.adj u v)

/-- `G.degree[u]`. -/
def deg (G : Graph) (u : Nat) : Nat := (nbrs G u).card

/-- The neighbours of `u` as a list in ascending order (the embedding's
canonical iteration order for `G.neighbors(u)`). -/
def nbrsList (G : Graph) (u : Nat) : List Nat :=
  (List.range G.n).filter (fun x => G.adj u x)

theorem mem_nbrs (G : Graph) (u v : Nat) :
    v ∈ nbrs G u ↔ G.adj u v = true := by
  constructor
  · intro h
    exact (Finset.mem_filter.mp h).2
  · intro h
    exact Finset.mem_filter.mpr ⟨Finset.mem_range.mpr (G.adj_lt u v h).2, h⟩

theorem mem_nbrsList (G : Graph) (u v : Nat) :
    v ∈ nbrsList G u ↔ G.adj u v = true := by
  rw [nbrsList, List.mem_filter]
  constructor
  · intro h
    exact h.2
  · intro h
    exact ⟨List.mem_range.mpr (G.adj_lt u v h).2, h⟩

/-!
### Reachability and connected components

`networkx.connected_components` is used by `find_constraint_violations` and by
`greedy_separation_node_classification` (there on the subgraph induced by a
node predicate `keep`).  We realise the reachable set of a node as the
saturation of a one-step neighbour expansion, iterated `G.n` times, which is
enough to reach a fixpoint.
-/

/-- One expansion step: add every kept node adjacent to the current set. -/
def stepR (G : Graph) (keep : Nat → Bool) (s : Finset Nat) : Finset Nat :=
  s ∪ (Finset.range G.n).filter (fun x => keep x = true ∧ ∃ u ∈ s, G.adj u x = true)

theorem mem_stepR (G : Graph) (keep : Nat → Bool) (s : Finset Nat) (x : Nat) :
    x ∈ stepR G keep s ↔
      x ∈ s ∨ (x < G.n ∧ keep x = true ∧ ∃ u ∈ s, G.adj u x = true) := by
  simp [stepR, Finset.mem_union, Finset.mem_filter, Finset.mem_range, and_assoc]

/-- All kept nodes reachable from `v` inside the subgraph induced by `keep`. -/
def reachSet (G : Graph) (keep : Nat → Bool) (v : Nat) : Finset Nat :=
  (stepR G keep)^[G.n] {v}

theorem subset_stepR (G : Graph) (keep : Nat → Bool) (s : Finset Nat) :
    s ⊆ stepR G keep s :=
  Finset.subset_union_left

theorem stepR_mono (G : Graph) (keep : Nat → Bool) {s t : Finset Nat}
    (h : s ⊆ t) : stepR G keep s ⊆ stepR G keep t := by
  intro x hx
  rcases (mem_stepR G keep s x).mp hx with h1 | ⟨hr, hk, u, hu, hadj⟩
  · exact (mem_stepR G keep t x).mpr (Or.inl (h h1))
  · exact (mem_stepR G keep t x).mpr (Or.inr ⟨hr, hk, u, h hu, hadj⟩)

theorem iterate_stepR_mono (G : Graph) (keep : Nat → Bool) (s : Finset Nat) :
    ∀ k, (stepR G keep)^[k] s ⊆ (stepR G keep)^[k+1] s := by
  intro k
  induction k with
  | zero => exact subset_stepR G keep s
  | succ m ih =>
      rw [Function.iterate_succ_apply', Function.iterate_succ_apply']
      exact stepR_mono G keep ih

theorem iterate_stepR_le (G : Graph) (keep : Nat → Bool) (s : Finset Nat) :
    ∀ {j k}, j ≤ k → (stepR G keep)^[j] s ⊆ (stepR G keep)^[k] s := by
  intro j k h
  induction h with
  | refl => exact subset_rfl
  | step h ih => exact ih.trans (iterate_stepR_mono G keep s _)

theorem mem_self_reachSet (G : Graph) (keep : Nat → Bool) (v : Nat) :
    v ∈ reachSet G keep v := by
  have h0 : v ∈ (stepR G keep)^[0] ({v} : Finset Nat) := by simp
  exact iterate_stepR_le G keep {v} (Nat.zero_le _) h0

theorem iterate_stepR_subset_range (G : Graph) (keep : Nat → Bool) (v : Nat)
    (hv : v < G.n) : ∀ k, (stepR G keep)^[k] {v} ⊆ Finset.range G.n := by
  intro k
  induction k with
  | zero => simpa using Finset.singleton_subset_iff.mpr (Finset.mem_range.mpr hv)
  | succ m ih =>
      rw [Function.iterate_succ_apply']
      intro x hx
      rcases (mem_stepR G keep _ x).mp hx with h1 | ⟨hr, _, _⟩
      · exact ih h1
      · exact Finset.mem_range.mpr hr

theorem reachSet_subset_range (G : Graph) (keep : Nat → Bool) (v : Nat)
    (hv : v < G.n) : reachSet G keep v ⊆ Finset.range G.n :=
  iterate_stepR_subset_range G keep v hv G.n

theorem iterate_stepR_subset_range_of_subset (G : Graph) (keep : Nat → Bool)
    (s : Finset Nat) (hs : s ⊆ Finset.range G.n) :
    ∀ k, (stepR G keep)^[k] s ⊆ Finset.range G.n := by
  intro k
  induction k with
  | zero => exact hs
  | succ m ih =>
      rw [Function.iterate_succ_apply']
      intro x hx
      rcases (mem_stepR G keep _ x).mp hx with h1 | ⟨hr, _, _⟩
      · exact ih h1
      · exact Finset.mem_range.mpr hr

/-- Saturation: after `G.n` iterations the expansion has reached a fixpoint. -/
theorem stepR_reachSet (G : Graph) (keep : Nat → Bool) (v : Nat)
    (hv : v < G.n) : stepR G keep (reachSet G keep v) = reachSet G keep v := by
  by_contra hne
  -- if no two consecutive iterates agree, the cardinality grows each step
  have hstrict : ∀ k, k ≤ G.n →
      (stepR G keep)^[k] ({v} : Finset Nat) ≠ (stepR G keep)^[k+1] ({v} : Finset Nat) := by
    intro k hk heq
    have hfix : ∀ m, (stepR G keep)^[k+m] ({v} : Finset Nat) = (stepR G keep)^[k] ({v} : Finset Nat) := by
      intro m
      induction m with
      | zero => rfl
      | succ j ih =>
          have e1 : k + (j+1) = (k + j) + 1 := by omega
          have e2 : (stepR G keep)^[(k+j)+1] ({v} : Finset Nat)
              = stepR G keep ((stepR G keep)^[k+j] {v}) :=
            Function.iterate_succ_apply' _ _ _
          have e3 : (stepR G keep)^[k+1] ({v} : Finset Nat)
              = stepR G keep ((stepR G keep)^[k] {v}) :=
            Function.iterate_succ_apply' _ _ _
          rw [e1, e2, ih, ← e3, ← heq]
    have h1 : (stepR G keep)^[G.n] ({v} : Finset Nat) = (stepR G keep)^[k] ({v} : Finset Nat) := by
      have e : G.n = k + (G.n - k) := by omega
      rw [e, hfix]
    have h2 : (stepR G keep)^[G.n + 1] ({v} : Finset Nat) = (stepR G keep)^[k] ({v} : Finset Nat) := by
      have e : G.n + 1 = k + (G.n + 1 - k) := by omega
      rw [e, hfix]
    apply hne
    show stepR G keep ((stepR G keep)^[G.n] {v}) = (stepR G keep)^[G.n] {v}
    have e4 : (stepR G keep)^[G.n + 1] ({v} : Finset Nat)
        = stepR G keep ((stepR G keep)^[G.n] {v}) :=
      Function.iterate_succ_apply' _ _ _
    rw [← e4, h1, h2]
  have hcard : ∀ k, k ≤ G.n + 1 → k ≤ ((stepR G keep)^[k] ({v} : Finset Nat)).card := by
    intro k
    induction k with
    | zero => intro; exact Nat.zero_le _
    | succ m ih =>
        intro hm
        have hlt := Finset.card_lt_card (Finset.ssubset_iff_subset_ne.mpr
          ⟨iterate_stepR_mono G keep {v} m, hstrict m (by omega)⟩)
        have := ih (by omega)
        omega
  have hbound : ((stepR G keep)^[G.n + 1] ({v} : Finset Nat)).card ≤ G.n := by
    have := Finset.card_le_card (iterate_stepR_subset_range G keep v hv (G.n + 1))
    simpa [Finset.card_range] using this
  have := hcard (G.n + 1) le_rfl
  omega

theorem iterate_subset_reachSet (G : Graph) (keep : Nat → Bool) (v : Nat)
    (hv : v < G.n) : ∀ m, (stepR G keep)^[m] {v} ⊆ reachSet G keep v := by
  have hpast : ∀ j, (stepR G keep)^[G.n + j] ({v} : Finset Nat) = reachSet G keep v := by
    intro j
    induction j with
    | zero => rfl
    | succ i ih =>
        have : G.n + (i + 1) = (G.n + i) + 1 := by omega
        rw [this, Function.iterate_succ_apply', ih, stepR_reachSet G keep v hv]
  intro m
  rcases Nat.le_total m G.n with h | h
  · exact iterate_stepR_le G keep {v} h
  · have : m = G.n + (m - G.n) := by omega
    rw [this, hpast]

/-- A set closed under kept-neighbour expansion absorbs the whole reach set
of any of its members (least-fixpoint property). -/
theorem reachSet_subset_closed (G : Graph) (keep : Nat → Bool) (v : Nat)
    (T : Finset Nat)
    (hcl : ∀ u x, u ∈ T → keep x = true → x < G.n → G.adj u x = true → x ∈ T)
    (hv : v ∈ T) : reachSet G keep v ⊆ T := by
  have hstep : ∀ s, s ⊆ T → stepR G keep s ⊆ T := by
    intro s hs x hx
    rcases (mem_stepR G keep s x).mp hx with h1 | ⟨hr, hk, u, hu, hadj⟩
    · exact hs h1
    · exact hcl u x (hs hu) hk hr hadj
  have : ∀ k, (stepR G keep)^[k] ({v} : Finset Nat) ⊆ T := by
    intro k
    induction k with
    | zero => simpa using Finset.singleton_subset_iff.mpr hv
    | succ m ih =>
        rw [Function.iterate_succ_apply']
        exact hstep _ ih
  exact this G.n

theorem mem_reachSet_keep (G : Graph) (keep : Nat → Bool) (v u : Nat)
    (hkv : keep v = true) (hu : u ∈ reachSet G keep v) : keep u = true := by
  have : reachSet G keep v ⊆ (Finset.range (G.n + v + 1)).filter (fun x => keep x) := by
    apply reachSet_subset_closed
    · intro a x _ hk hx _
      exact Finset.mem_filter.mpr ⟨Finset.mem_range.mpr (by omega), hk⟩
    · exact Finset.mem_filter.mpr ⟨Finset.mem_range.mpr (by omega), hkv⟩
  exact (Finset.mem_filter.mp (this hu)).2

theorem reachSet_trans (G : Graph) (keep : Nat → Bool) {v w : Nat}
    (hv : v < G.n) (hw : w ∈ reachSet G keep v) :
    reachSet G keep w ⊆ reachSet G keep v := by
  apply reachSet_subset_closed
  · intro u x hu hk hx hadj
    have hfix := stepR_reachSet G keep v hv
    rw [← hfix]
    exact (mem_stepR G keep _ x).mpr (Or.inr ⟨hx, hk, u, hu, hadj⟩)
  · exact hw

theorem reachSet_symm (G : Graph) (keep : Nat → Bool) {v w : Nat}
    (hv : v < G.n) (hkv : keep v = true) (hw : w ∈ reachSet G keep v) :
    v ∈ reachSet G keep w := by
  suffices h : ∀ k, ∀ x, x ∈ (stepR G keep)^[k] ({v} : Finset Nat) → v ∈ reachSet G keep x by
    exact h G.n w hw
  intro k
  induction k with
  | zero =>
      intro x hx
      rw [Function.iterate_zero_apply, Finset.mem_singleton] at hx
      subst hx
      exact mem_self_reachSet G keep x
  | succ m ih =>
      intro x hx
      rw [Function.iterate_succ_apply'] at hx
      rcases (mem_stepR G keep _ x).mp hx with h1 | ⟨hr, _, u, hu, hadj⟩
      · exact ih x h1
      · have hvu : v ∈ reachSet G keep u := ih u hu
        have hun : u < G.n := (G.adj_lt u x hadj).1
        have hku : keep u = true :=
          mem_reachSet_keep G keep v u hkv (iterate_subset_reachSet G keep v hv m hu)
        -- u is adjacent to x, hence u lies in the reach set of x
        have hux : u ∈ reachSet G keep x := by
          have h1 : u ∈ stepR G keep {x} := by
            refine (mem_stepR G keep _ u).mpr (Or.inr ⟨hun, hku, x, ?_, ?_⟩)
            · exact Finset.mem_singleton_self x
            · rw [G.symm]; exact hadj
          have h2 : u ∈ (stepR G keep)^[1] ({x} : Finset Nat) := by simpa using h1
          exact iterate_subset_reachSet G keep x hr 1 h2
        exact reachSet_trans G keep hr hux hvu

/-- The connected components of the subgraph induced by `keep`
(`networkx.connected_components`).  The Python code materialises them as a
list of pairwise distinct node sets; since their order never matters to any
function under verification, we collect them as a finite set of node sets. -/
def components (G : Graph) (keep : Nat → Bool) : Finset (Finset Nat) :=
  ((Finset.range G.n).filter (fun v => keep v = true)).image (reachSet G keep)

theorem mem_components (G : Graph) (keep : Nat → Bool) (cc : Finset Nat) :
    cc ∈ components G keep ↔
      ∃ v, v < G.n ∧ keep v = true ∧ cc = reachSet G keep v := by
  simp only [components, Finset.mem_image, Finset.mem_filter, Finset.mem_range]
  constructor
  · rintro ⟨v, ⟨hv, hk⟩, rfl⟩; exact ⟨v, hv, hk, rfl⟩
  · rintro ⟨v, hv, hk, rfl⟩; exact ⟨v, ⟨hv, hk⟩, rfl⟩

theorem components_nonempty (G : Graph) (keep : Nat → Bool) {cc : Finset Nat}
    (h : cc ∈ components G keep) : cc.Nonempty := by
  rcases (mem_components G keep cc).mp h with ⟨v, _, _, rfl⟩
  exact ⟨v, mem_self_reachSet G keep v⟩

theorem components_subset (G : Graph) (keep : Nat → Bool) {cc : Finset Nat}
    (h : cc ∈ components G keep) :
    cc ⊆ (Finset.range G.n).filter (fun v => keep v = true) := by
  rcases (mem_components G keep cc).mp h with ⟨v, hv, hk, rfl⟩
  intro u hu
  exact Finset.mem_filter.mpr ⟨reachSet_subset_range G keep v hv hu,
    mem_reachSet_keep G keep v u hk hu⟩

/-- Any member of a residual component generates that very component. -/
theorem reachSet_eq_of_mem (G : Graph) (keep : Nat → Bool) {v u : Nat}
    (hv : v < G.n) (hk : keep v = true) (hu : u ∈ reachSet G keep v) :
    reachSet G keep u = reachSet G keep v := by
  have hun : u < G.n := Finset.mem_range.mp (reachSet_subset_range G keep v hv hu)
  apply Finset.Subset.antisymm
  · exact reachSet_trans G keep hv hu
  · exact reachSet_trans G keep hun (reachSet_symm G keep hv hk hu)

theorem components_disjoint (G : Graph) (keep : Nat → Bool) {c1 c2 : Finset Nat}
    (h1 : c1 ∈ components G keep) (h2 : c2 ∈ components G keep)
    (hne : c1 ≠ c2) {u : Nat} (hu1 : u ∈ c1) (hu2 : u ∈ c2) : False := by
  rcases (mem_components G keep c1).mp h1 with ⟨v1, hv1, hk1, rfl⟩
  rcases (mem_components G keep c2).mp h2 with ⟨v2, hv2, hk2, rfl⟩
  exact hne ((reachSet_eq_of_mem G keep hv1 hk1 hu1).symm.trans
    (reachSet_eq_of_mem G keep hv2 hk2 hu2))

theorem mem_components_cover (G : Graph) (keep : Nat → Bool) {v : Nat}
    (hv : v < G.n) (hk : keep v = true) :
    reachSet G keep v ∈ components G keep ∧ v ∈ reachSet G keep v :=
  ⟨(mem_components G keep _).mpr ⟨v, hv, hk, rfl⟩, mem_self_reachSet G keep v⟩

/-!
### `graphs.find_constraint_violations`

`find_constraint_violations(G, x)` (graphs.py, lines 404-469) takes the graph
with its ground-truth `"block"` node attribute and a 0/1 classification list
`x` (`x[i] == 0` ⇔ node `i` is a separation node).  It removes the separation
nodes, takes the connected components of the remainder, and compares them
against the ground-truth communities (one community per distinct block value).

The Python code collects, per comparison unit, a list of positive intersection
sizes (resp. component sizes), sorts it, pops the largest entry, and sums the
rest; for a duplicate-free collection of units that equals (total sum − max),
guarded by the list having more than one entry.  We express exactly that.
-/

/-- `x[i] == 0` means separator, so the residual subgraph keeps `x i ≠ 0`. -/
def keepOf (x : Nat → Nat) : Nat → Bool := fun i => decide (x i ≠ 0)

/-- Connected components of the graph with all separation nodes removed. -/
def residualComponents (G : Graph) (x : Nat → Nat) : Finset (Finset Nat) :=
  components G (keepOf x)

/-- One ground-truth community per distinct value of the `"block"` attribute
(the Python code iterates `set(nx.get_node_attributes(G, "block").values())`). -/
def gtCommunities (G : Graph) (block : Nat → Nat) : Finset (Finset Nat) :=
  ((Finset.range G.n).image block).image
    (fun b => (Finset.range G.n).filter (fun i => block i = b))

/-- Separation-set violations contributed by one residual component: the sum of
its positive community-intersection sizes minus the largest one, when more than
one community is hit (sort / pop / sum in the source). -/
def sepViolOfComponent (coms : Finset (Finset Nat)) (cc : Finset Nat) : Nat :=
  if 1 < (coms.filter (fun com => 0 < (cc ∩ com).card)).card then
    (coms.filter (fun com => 0 < (cc ∩ com).card)).sum (fun com => (cc ∩ com).card)
      - (coms.filter (fun com => 0 < (cc ∩ com).card)).sup (fun com => (cc ∩ com).card)
  else 0

/-- Injectivity violations contributed by one community: the sum of the sizes
of the residual components intersecting it minus the largest such size, when
more than one component intersects (the source appends `len(cc)` for each
intersecting component, sorts, pops, sums). -/
def injViolOfCommunity (ccs : Finset (Finset Nat)) (com : Finset Nat) : Nat :=
  if 1 < (ccs.filter (fun cc => 0 < (com ∩ cc).card)).card then
    (ccs.filter (fun cc => 0 < (com ∩ cc).card)).sum Finset.card
      - (ccs.filter (fun cc => 0 < (com ∩ cc).card)).sup Finset.card
  else 0

/-- Surjectivity violations contributed by one community: 1 when no residual
component intersects it, else 0. -/
def surViolOfCommunity (ccs : Finset (Finset Nat)) (com : Finset Nat) : Nat :=
  if (ccs.filter (fun cc => 0 < (com ∩ cc).card)).card = 0 then 1 else 0

/-- `graphs.find_constraint_violations`: returns
`(separation_set_constraint_violations, injectivity_violations,
surjectivity_violations)`. -/
def find_constraint_violations (G : Graph) (block : Nat → Nat) (x : Nat → Nat) :
    Nat × Nat × Nat :=
  let ccs := residualComponents G x
  let coms := gtCommunities G block
  (ccs.sum (sepViolOfComponent coms),
   coms.sum (injViolOfCommunity ccs),
   coms.sum (surViolOfCommunity ccs))

theorem mem_gtCommunities (G : Graph) (block : Nat → Nat) (com : Finset Nat) :
    com ∈ gtCommunities G block ↔
      ∃ b, (∃ v, v < G.n ∧ block v = b) ∧
        com = (Finset.range G.n).filter (fun i => block i = b) := by
  simp only [gtCommunities, Finset.mem_image, Finset.mem_range]
  constructor
  · rintro ⟨b, hb, rfl⟩
    rcases hb with ⟨v, hv, rfl⟩
    exact ⟨block v, ⟨v, hv, rfl⟩, rfl⟩
  · rintro ⟨b, ⟨v, hv, rfl⟩, rfl⟩
    exact ⟨block v, ⟨v, hv, rfl⟩, rfl⟩

theorem gtCommunities_cover (G : Graph) (block : Nat → Nat) {v : Nat}
    (hv : v < G.n) :
    ∃ com ∈ gtCommunities G block, v ∈ com := by
  refine ⟨(Finset.range G.n).filter (fun i => block i = block v), ?_, ?_⟩
  · exact (mem_gtCommunities G block _).mpr ⟨block v, ⟨v, hv, rfl⟩, rfl⟩
  · exact Finset.mem_filter.mpr ⟨Finset.mem_range.mpr hv, rfl⟩

theorem gtCommunities_disjoint (G : Graph) (block : Nat → Nat)
    {c1 c2 : Finset Nat} (h1 : c1 ∈ gtCommunities G block)
    (h2 : c2 ∈ gtCommunities G block) (hne : c1 ≠ c2) {u : Nat}
    (hu1 : u ∈ c1) (hu2 : u ∈ c2) : False := by
  rcases (mem_gtCommunities G block c1).mp h1 with ⟨b1, _, rfl⟩
  rcases (mem_gtCommunities G block c2).mp h2 with ⟨b2, _, rfl⟩
  have e1 := (Finset.mem_filter.mp hu1).2
  have e2 := (Finset.mem_filter.mp hu2).2
  exact hne (by rw [← e1, ← e2])

/-- A "sum minus max over more than one positive entry" is positive. -/
theorem sup_lt_sum_of_one_lt_card {α : Type} [DecidableEq α]
    (rel : Finset α) (f : α → Nat) (hpos : ∀ a ∈ rel, 0 < f a)
    (h2 : 1 < rel.card) : rel.sup f < rel.sum f := by
  have hne : rel.Nonempty := Finset.card_pos.mp (by omega)
  rcases Finset.exists_mem_eq_sup rel hne f with ⟨c, hc, hsup⟩
  have herase : (rel.erase c).Nonempty := by
    rw [← Finset.card_pos, Finset.card_erase_of_mem hc]
    omega
  rcases herase with ⟨d, hd⟩
  have hsum : rel.sum f = f c + (rel.erase c).sum f :=
    (Finset.add_sum_erase rel f hc).symm
  have hdsum : f d ≤ (rel.erase c).sum f :=
    Finset.single_le_sum (fun a _ => Nat.zero_le (f a)) hd
  have hdpos : 0 < f d := hpos d (Finset.mem_of_mem_erase hd)
  omega

theorem sepViolOfComponent_eq_zero (coms : Finset (Finset Nat)) (cc : Finset Nat) :
    sepViolOfComponent coms cc = 0 ↔
      (coms.filter (fun com => 0 < (cc ∩ com).card)).card ≤ 1 := by
  simp only [sepViolOfComponent]
  by_cases h : 1 < (coms.filter (fun com => 0 < (cc ∩ com).card)).card
  · rw [if_pos h]
    constructor
    · intro h0
      exfalso
      have := sup_lt_sum_of_one_lt_card
        (coms.filter (fun com => 0 < (cc ∩ com).card)) (fun com => (cc ∩ com).card)
        (fun a ha => (Finset.mem_filter.mp ha).2) h
      omega
    · intro h1
      omega
  · rw [if_neg h]
    constructor
    · intro _
      omega
    · intro _
      rfl

theorem injViolOfCommunity_eq_zero (ccs : Finset (Finset Nat)) (com : Finset Nat)
    (hne : ∀ cc ∈ ccs, cc.Nonempty) :
    injViolOfCommunity ccs com = 0 ↔
      (ccs.filter (fun cc => 0 < (com ∩ cc).card)).card ≤ 1 := by
  simp only [injViolOfCommunity]
  by_cases h : 1 < (ccs.filter (fun cc => 0 < (com ∩ cc).card)).card
  · rw [if_pos h]
    constructor
    · intro h0
      exfalso
      have := sup_lt_sum_of_one_lt_card
        (ccs.filter (fun cc => 0 < (com ∩ cc).card)) Finset.card
        (fun a ha => Finset.card_pos.mpr (hne a (Finset.mem_filter.mp ha).1)) h
      omega
    · intro h1
      omega
  · rw [if_neg h]
    constructor
    · intro _
      omega
    · intro _
      rfl

theorem surViolOfCommunity_eq_zero (ccs : Finset (Finset Nat)) (com : Finset Nat) :
    surViolOfCommunity ccs com = 0 ↔
      (ccs.filter (fun cc => 0 < (com ∩ cc).card)).card ≠ 0 := by
  simp only [surViolOfCommunity]
  by_cases h : (ccs.filter (fun cc => 0 < (com ∩ cc).card)).card = 0
  · rw [if_pos h]
    constructor
    · intro h10
      omega
    · intro hne
      exact absurd h hne
  · rw [if_neg h]
    constructor
    · intro _
      exact h
    · intro _
      rfl

/-- If a nonempty residual component is contained in a community, that
community is the only one the component intersects. -/
theorem filter_intersecting_eq_singleton (G : Graph) (block : Nat → Nat)
    {cc com : Finset Nat} (hcc : cc.Nonempty)
    (hcom : com ∈ gtCommunities G block) (hsub : cc ⊆ com) :
    (gtCommunities G block).filter (fun c => 0 < (cc ∩ c).card) = {com} := by
  apply Finset.eq_singleton_iff_unique_mem.mpr
  constructor
  · refine Finset.mem_filter.mpr ⟨hcom, ?_⟩
    rcases hcc with ⟨u, hu⟩
    exact Finset.card_pos.mpr ⟨u, Finset.mem_inter.mpr ⟨hu, hsub hu⟩⟩
  · intro c hc
    rcases Finset.mem_filter.mp hc with ⟨hcmem, hpos⟩
    rcases Finset.card_pos.mp hpos with ⟨u, hu⟩
    rcases Finset.mem_inter.mp hu with ⟨hucc, huc⟩
    by_contra hne
    exact gtCommunities_disjoint G block hcmem hcom hne huc (hsub hucc)

/-- **C1.** `find_constraint_violations` returns the zero triple exactly when
the residual connected components form an exact bijective refinement of the
ground-truth communities: every residual component lies inside exactly one
community, every community contains exactly one residual component, and no
community is missed. -/
theorem validator_zero_iff_bijective_refinement (G : Graph)
    (block x : Nat → Nat) :
    find_constraint_violations G block x = (0, 0, 0) ↔
      ((∀ cc ∈ residualComponents G x,
          ∃! com, com ∈ gtCommunities G block ∧ cc ⊆ com) ∧
       (∀ com ∈ gtCommunities G block,
          ∃! cc, cc ∈ residualComponents G x ∧ cc ⊆ com) ∧
       (∀ com ∈ gtCommunities G block,
          ∃ cc ∈ residualComponents G x, cc ⊆ com)) := by
  have hccne : ∀ cc ∈ residualComponents G x, cc.Nonempty :=
    fun cc h => components_nonempty G _ h
  have hcclt : ∀ cc ∈ residualComponents G x, ∀ u ∈ cc, u < G.n := by
    intro cc h u hu
    exact Finset.mem_range.mp (Finset.mem_filter.mp (components_subset G _ h hu)).1
  -- the three counters, characterised
  have hsplit : find_constraint_violations G block x = (0, 0, 0) ↔
      ((∀ cc ∈ residualComponents G x,
          ((gtCommunities G block).filter (fun com => 0 < (cc ∩ com).card)).card ≤ 1) ∧
       (∀ com ∈ gtCommunities G block,
          ((residualComponents G x).filter (fun cc => 0 < (com ∩ cc).card)).card ≤ 1) ∧
       (∀ com ∈ gtCommunities G block,
          ((residualComponents G x).filter (fun cc => 0 < (com ∩ cc).card)).card ≠ 0)) := by
    rw [find_constraint_violations]
    simp only [Prod.mk.injEq]
    rw [Finset.sum_eq_zero_iff, Finset.sum_eq_zero_iff, Finset.sum_eq_zero_iff]
    constructor
    · rintro ⟨h1, h2, h3⟩
      refine ⟨fun cc hc => (sepViolOfComponent_eq_zero _ cc).mp (h1 cc hc),
        fun com hc => (injViolOfCommunity_eq_zero _ com hccne).mp (h2 com hc),
        fun com hc => (surViolOfCommunity_eq_zero _ com).mp (h3 com hc)⟩
    · rintro ⟨h1, h2, h3⟩
      refine ⟨fun cc hc => (sepViolOfComponent_eq_zero _ cc).mpr (h1 cc hc),
        fun com hc => (injViolOfCommunity_eq_zero _ com hccne).mpr (h2 com hc),
        fun com hc => (surViolOfCommunity_eq_zero _ com).mpr (h3 com hc)⟩
  rw [hsplit]
  constructor
  · rintro ⟨hsep, hinj, hsur⟩
    -- every residual component is contained in exactly one community
    have hpart1 : ∀ cc ∈ residualComponents G x,
        ∃! com, com ∈ gtCommunities G block ∧ cc ⊆ com := by
      intro cc hcc
      rcases hccne cc hcc with ⟨u0, hu0⟩
      rcases gtCommunities_cover G block (hcclt cc hcc u0 hu0) with ⟨com0, hcom0, hu0c⟩
      have hmem0 : com0 ∈ (gtCommunities G block).filter
          (fun com => 0 < (cc ∩ com).card) :=
        Finset.mem_filter.mpr ⟨hcom0,
          Finset.card_pos.mpr ⟨u0, Finset.mem_inter.mpr ⟨hu0, hu0c⟩⟩⟩
      have huniq : ∀ c ∈ (gtCommunities G block).filter
          (fun com => 0 < (cc ∩ com).card), c = com0 :=
        fun c hc => Finset.card_le_one.mp (hsep cc hcc) c hc com0 hmem0
      have hsub : cc ⊆ com0 := by
        intro u hu
        rcases gtCommunities_cover G block (hcclt cc hcc u hu) with ⟨c, hcm, huc⟩
        have : c = com0 := huniq c (Finset.mem_filter.mpr ⟨hcm,
          Finset.card_pos.mpr ⟨u, Finset.mem_inter.mpr ⟨hu, huc⟩⟩⟩)
        rw [← this]
        exact huc
      refine ⟨com0, ⟨hcom0, hsub⟩, ?_⟩
      rintro c ⟨hcm, hcsub⟩
      exact huniq c (Finset.mem_filter.mpr ⟨hcm,
        Finset.card_pos.mpr ⟨u0, Finset.mem_inter.mpr ⟨hu0, hcsub hu0⟩⟩⟩)
    refine ⟨hpart1, ?_, ?_⟩
    · -- every community contains exactly one residual component
      intro com hcom
      have hcard : ((residualComponents G x).filter
          (fun cc => 0 < (com ∩ cc).card)).card = 1 := by
        have := hinj com hcom
        have := hsur com hcom
        omega
      rcases Finset.card_eq_one.mp hcard with ⟨cc0, hset⟩
      have hcc0 : cc0 ∈ (residualComponents G x).filter
          (fun cc => 0 < (com ∩ cc).card) := by
        rw [hset]
        exact Finset.mem_singleton_self cc0
      rcases Finset.mem_filter.mp hcc0 with ⟨hcc0m, hcc0pos⟩
      -- cc0 is contained in some community; a shared point forces it to be com
      rcases hpart1 cc0 hcc0m with ⟨com1, ⟨hcom1, hsub1⟩, _⟩
      rcases Finset.card_pos.mp hcc0pos with ⟨u, hu⟩
      rcases Finset.mem_inter.mp hu with ⟨hucom, hucc⟩
      have hceq : com = com1 := by
        by_contra hne
        exact gtCommunities_disjoint G block hcom hcom1 hne hucom (hsub1 hucc)
      refine ⟨cc0, ⟨hcc0m, hceq ▸ hsub1⟩, ?_⟩
      rintro cc' ⟨hcc'm, hcc'sub⟩
      have : cc' ∈ (residualComponents G x).filter
          (fun cc => 0 < (com ∩ cc).card) := by
        rcases hccne cc' hcc'm with ⟨w, hw⟩
        exact Finset.mem_filter.mpr ⟨hcc'm,
          Finset.card_pos.mpr ⟨w, Finset.mem_inter.mpr ⟨hcc'sub hw, hw⟩⟩⟩
      rw [hset] at this
      exact Finset.mem_singleton.mp this
    · -- no community is missed
      intro com hcom
      have hcard : ((residualComponents G x).filter
          (fun cc => 0 < (com ∩ cc).card)).card = 1 := by
        have := hinj com hcom
        have := hsur com hcom
        omega
      rcases Finset.card_eq_one.mp hcard with ⟨cc0, hset⟩
      have hcc0 : cc0 ∈ (residualComponents G x).filter
          (fun cc => 0 < (com ∩ cc).card) := by
        rw [hset]
        exact Finset.mem_singleton_self cc0
      rcases Finset.mem_filter.mp hcc0 with ⟨hcc0m, hcc0pos⟩
      rcases hpart1 cc0 hcc0m with ⟨com1, ⟨hcom1, hsub1⟩, _⟩
      rcases Finset.card_pos.mp hcc0pos with ⟨u, hu⟩
      rcases Finset.mem_inter.mp hu with ⟨hucom, hucc⟩
      have hceq : com = com1 := by
        by_contra hne
        exact gtCommunities_disjoint G block hcom hcom1 hne hucom (hsub1 hucc)
      exact ⟨cc0, hcc0m, hceq ▸ hsub1⟩
  · rintro ⟨hpart1, hpart2, _⟩
    refine ⟨?_, ?_, ?_⟩
    · -- separation-set counter vanishes
      intro cc hcc
      rcases hpart1 cc hcc with ⟨com0, ⟨hcom0, hsub0⟩, _⟩
      rw [filter_intersecting_eq_singleton G block (hccne cc hcc) hcom0 hsub0]
      simp
    · -- injectivity counter vanishes
      intro com hcom
      rcases hpart2 com hcom with ⟨cc0, ⟨hcc0m, hcc0sub⟩, huniq⟩
      apply Finset.card_le_one.mpr
      intro a ha b hb
      have key : ∀ c ∈ (residualComponents G x).filter
          (fun cc => 0 < (com ∩ cc).card), c = cc0 := by
        intro c hc
        rcases Finset.mem_filter.mp hc with ⟨hcm, hcpos⟩
        rcases Finset.card_pos.mp hcpos with ⟨u, hu⟩
        rcases Finset.mem_inter.mp hu with ⟨hucom, hucc⟩
        -- c is contained in some community, forced to be com by the shared point
        rcases hpart1 c hcm with ⟨com1, ⟨hcom1, hsub1⟩, _⟩
        have hceq : com = com1 := by
          by_contra hne
          exact gtCommunities_disjoint G block hcom hcom1 hne hucom (hsub1 hucc)
        exact huniq c ⟨hcm, hceq ▸ hsub1⟩
      rw [key a ha, key b hb]
    · -- surjectivity counter vanishes
      intro com hcom
      rcases hpart2 com hcom with ⟨cc0, ⟨hcc0m, hcc0sub⟩, _⟩
      rcases hccne cc0 hcc0m with ⟨u, hu⟩
      apply Finset.card_ne_zero_of_mem (a := cc0)
      exact Finset.mem_filter.mpr ⟨hcc0m,
        Finset.card_pos.mpr ⟨u, Finset.mem_inter.mpr ⟨hcc0sub hu, hu⟩⟩⟩

/-!
### `neighborhoodConnectivity.bfs`

`bfs(G, v, w, d)` (neighborhoodConnectivity.py, lines 10-88) removes the edge
`(v, w)`, runs a layered breadth-first exploration from the two roots `v, w`,
and re-adds the edge before returning.  Layer dictionaries are embedded as
total functions; `edges_in_layers` is keyed by twice the (half-integer) layer
depth, so Python key `k` becomes `2k : Nat`.  The returned `edge_layer_depth`
dictionary duplicates `edges_in_layers` for plotting only and no claim
mentions it, so it is not carried.  Iteration over a Python set is embedded
as iteration over the ascending list of its elements.
-/

theorem pair_symm (a b v w : Nat) :
    ((decide (a = v) && decide (b = w)) || (decide (a = w) && decide (b = v)))
      = ((decide (b = v) && decide (a = w)) || (decide (b = w) && decide (a = v))) := by
  cases h1 : decide (a = v) <;> cases h2 : decide (b = w) <;>
    cases h3 : decide (a = w) <;> cases h4 : decide (b = v) <;> rfl

/-- `G.remove_edge(v, w)` (on a graph that contains the edge). -/
def removeEdge (G : Graph) (v w : Nat) : Graph where
  n := G.n
  adj := fun a b => G.adj a b && !((a = v && b = w) || (a = w && b = v))
  symm := by
    intro a b
    beta_reduce
    rw [G.symm a b, pair_symm]
  loopless := by
    intro a
    beta_reduce
    rw [G.loopless a]
    rfl
  adj_lt := by
    intro a b h
    beta_reduce at h
    rcases Bool.and_eq_true _ _ |>.mp h with ⟨h1, _⟩
    exact G.adj_lt a b h1

/-- `G.add_edge(v, w)`.  The guard keeps the structure invariants; it is
satisfied whenever the edge being re-added was previously removed from `G`. -/
def addEdge (G : Graph) (v w : Nat) : Graph where
  n := G.n
  adj := fun a b => G.adj a b ||
    (decide (v ≠ w) && decide (v < G.n) && decide (w < G.n) &&
      ((a = v && b = w) || (a = w && b = v)))
  symm := by
    intro a b
    beta_reduce
    rw [G.symm a b, pair_symm]
  loopless := by
    intro a
    beta_reduce
    rw [G.loopless a]
    by_cases hvw : v = w <;> by_cases hav : a = v <;> by_cases haw : a = w <;>
      simp_all
  adj_lt := by
    intro a b h
    beta_reduce at h
    rcases Bool.or_eq_true _ _ |>.mp h with h1 | h1
    · exact G.adj_lt a b h1
    · simp only [Bool.and_eq_true, Bool.or_eq_true, decide_eq_true_eq] at h1
      rcases h1 with ⟨⟨⟨_, hv⟩, hw⟩, ⟨ha, hb⟩ | ⟨ha, hb⟩⟩ <;> subst ha <;> subst hb
      · exact ⟨hv, hw⟩
      · exact ⟨hw, hv⟩

theorem Graph.ext' {G H : Graph} (hn : G.n = H.n) (ha : G.adj = H.adj) :
    G = H := by
  cases G
  cases H
  cases hn
  cases ha
  rfl

/-- Removing a present edge and adding it back restores the original graph. -/
theorem addEdge_removeEdge (G : Graph) (v w : Nat) (h : G.adj v w = true) :
    addEdge (removeEdge G v w) v w = G := by
  have hvw : v ≠ w := by
    intro e
    subst e
    rw [G.loopless v] at h
    cases h
  have hv : v < G.n := (G.adj_lt v w h).1
  have hw : w < G.n := (G.adj_lt v w h).2
  refine Graph.ext' rfl ?_
  funext a b
  show ((G.adj a b && !((a = v && b = w) || (a = w && b = v))) ||
      (decide (v ≠ w) && decide (v < G.n) && decide (w < G.n) &&
        ((a = v && b = w) || (a = w && b = v)))) = G.adj a b
  by_cases h1 : a = v ∧ b = w
  · rcases h1 with ⟨rfl, rfl⟩
    simp [hvw, hv, hw, h]
  · by_cases h2 : a = w ∧ b = v
    · rcases h2 with ⟨rfl, rfl⟩
      have : G.adj a b = true := by rw [G.symm]; exact h
      simp [hvw, hv, hw, this]
    · have e1 : (decide (a = v) && decide (b = w)) = false := by
        rcases Decidable.not_and_iff_or_not.mp h1 with hx | hx <;> simp [hx]
      have e2 : (decide (a = w) && decide (b = v)) = false := by
        rcases Decidable.not_and_iff_or_not.mp h2 with hx | hx <;> simp [hx]
      rw [e1, e2]
      cases G.adj a b <;> simp

/-- The three-valued subtree-root tag: the Python code stores `v`, `w` or the
set `{v, w}` (and `None` for unexplored nodes, embedded as `Option`). -/
inductive SubTreeRoot where
  | rv : SubTreeRoot
  | rw : SubTreeRoot
  | rboth : SubTreeRoot
deriving DecidableEq

/-- The mutable state of `bfs`: `node_layer_depth`, `nodes_in_layers`,
`edges_in_layers` (keyed by twice the layer depth) and `sub_tree_root`. -/
structure BfsState where
  depth : Nat → Int
  layers : Nat → Finset Nat
  elayers : Nat → Finset (Nat × Nat)
  root : Nat → Option SubTreeRoot

/-- The body of the innermost loop of `bfs` (lines 63-84): process one
`(node, neighbor)` pair while exploring layer `i`. -/
def visit (i : Nat) (st : BfsState) (node neighbor : Nat) : BfsState :=
  if st.depth neighbor = -1 then
    { depth := Function.update st.depth neighbor ((i : Int) + 1)
      layers := Function.update st.layers (i + 1)
        (insert neighbor (st.layers (i + 1)))
      elayers := Function.update st.elayers (2 * i + 1)
        (insert (node, neighbor) (st.elayers (2 * i + 1)))
      root := Function.update st.root neighbor (st.root node) }
  else if st.depth neighbor = st.depth node then
    if (neighbor, node) ∈ st.elayers (2 * i) then st
    else { st with
      elayers := Function.update st.elayers (2 * i)
        (insert (node, neighbor) (st.elayers (2 * i))) }
  else if st.depth neighbor = st.depth node + 1 then
    { st with
      elayers := Function.update st.elayers (2 * i + 1)
        (insert (node, neighbor) (st.elayers (2 * i + 1)))
      root := if st.root neighbor ≠ st.root node then
          Function.update st.root neighbor (some SubTreeRoot.rboth)
        else st.root }
  else st

/-- Process all neighbours of one node of layer `i` (line 62). -/
def processNode (Gm : Graph) (i : Nat) (st : BfsState) (node : Nat) : BfsState :=
  (nbrsList Gm node).foldl (fun s nb => visit i s node nb) st

/-- Process one whole layer (line 61): iterate in ascending node order over
the snapshot of `nodes_in_layers[i]`, which the body never mutates (during a
real run every layer lives inside `0 .. n-1`; the claims proved about the
exploration are iteration-order independent). -/
def processLayer (Gm : Graph) (st : BfsState) (i : Nat) : BfsState :=
  ((List.range Gm.n).filter (fun u => u ∈ st.layers i)).foldl
    (processNode Gm i) st

/-- The state set up in lines 43-58 of the source. -/
def bfsInit (v w : Nat) : BfsState where
  depth := fun u => if u = v ∨ u = w then 0 else -1
  layers := fun i => if i = 0 then {v, w} else ∅
  elayers := fun _ => ∅
  root := fun u =>
    if u = w then some SubTreeRoot.rw
    else if u = v then some SubTreeRoot.rv else none

/-- The exploration part of `bfs` (lines 43-84), run on the graph with the
edge `(v, w)` removed. -/
def bfs (G : Graph) (v w : Nat) (d : Nat) : BfsState :=
  (List.range d).foldl (processLayer (removeEdge G v w)) (bfsInit v w)

/-- The full call `bfs(G, v, w, d)` including its effect on the graph:
`G.remove_edge(v, w)` raises networkx's invalid-edge error when the pair is
not adjacent (modelled as `none`); otherwise the exploration runs to
completion (for in-range simple-graph inputs no statement of the loop body
can raise) and the edge is re-added.  The returned graph is the state of the
caller's graph after the call. -/
def bfsRun (G : Graph) (v w : Nat) (d : Nat) : Option (Graph × BfsState) :=
  if G.adj v w = true then
    some (addEdge (removeEdge G v w) v w, bfs G v w d)
  else none

/-- **C7.** For every graph and adjacent pair, the explorer's temporary edge
removal is undone before returning: the caller's graph after `bfs` has
exactly the edge set it had before the call.  (For well-formed input the
exploration body has no failing path; the only raising path, a non-adjacent
pair, mutates nothing — see `bfsRun`.) -/
theorem bfs_restores_graph (G : Graph) (v w : Nat) (d : Nat)
    (h : G.adj v w = true) : bfsRun G v w d = some (G, bfs G v w d) := by
  rw [bfsRun, if_pos h, addEdge_removeEdge G v w h]

theorem bfs_restores_graph_witness :
    (mkGraph 2 [(0, 1)]).adj 0 1 = true ∧
      bfsRun (mkGraph 2 [(0, 1)]) 0 1 2
        = some (mkGraph 2 [(0, 1)], bfs (mkGraph 2 [(0, 1)]) 0 1 2) :=
  ⟨by decide, bfs_restores_graph (mkGraph 2 [(0, 1)]) 0 1 2 (by decide)⟩

/-- **C9 (amended).** `bfs` fails fast exactly on a non-adjacent requested
pair (which covers every pair of an empty graph); a requested depth `d < 1`
is not validated and the call returns a (trivial) exploration result. -/
theorem bfs_error_iff_not_adjacent (G : Graph) (v w : Nat) (d : Nat) :
    bfsRun G v w d = none ↔ G.adj v w = false := by
  rw [bfsRun]
  by_cases h : G.adj v w = true
  · rw [if_pos h]
    constructor
    · intro hx
      cases hx
    · intro hx
      rw [h] at hx
      cases hx
  · rw [if_neg h]
    simp only [Bool.not_eq_true] at h
    exact ⟨fun _ => h, fun _ => rfl⟩

/-- **C9, counterexample to the original claim.** A requested depth `d = 0 < 1`
with a perfectly valid adjacent pair does not raise: the call succeeds
(returning the depth-0-only exploration), contradicting "depth < 1 fails fast
with an InvalidArgument-class error". -/
theorem bfs_depth_zero_returns :
    (bfsRun (mkGraph 2 [(0, 1)]) 0 1 0).isSome = true := by decide

/-!
### Behaviour of the exploration loop

The proofs below characterise how `visit`, `processNode` and `processLayer`
transform the depth map and the layer sets, and show that `bfs` computes
exactly the breadth-first spheres around `{v, w}` in the graph with the edge
`(v, w)` removed.
-/

theorem visit_depth (i : Nat) (st : BfsState) (node nb : Nat) :
    (visit i st node nb).depth =
      if st.depth nb = -1 then Function.update st.depth nb ((i : Int) + 1)
      else st.depth := by
  unfold visit
  split_ifs <;> rfl

theorem visit_layers (i : Nat) (st : BfsState) (node nb : Nat) :
    (visit i st node nb).layers =
      if st.depth nb = -1 then
        Function.update st.layers (i + 1) (insert nb (st.layers (i + 1)))
      else st.layers := by
  unfold visit
  split_ifs <;> rfl

theorem visit_depth_persist (i : Nat) (st : BfsState) (node nb u : Nat)
    (h : st.depth u ≠ -1) : (visit i st node nb).depth u = st.depth u := by
  rw [visit_depth]
  split_ifs with h1
  · rcases eq_or_ne u nb with rfl | hne
    · exact absurd h1 h
    · exact Function.update_noteq hne _ _
  · rfl

/-- Effect of the innermost fold on the depth map: exactly the listed fresh
nodes receive depth `i+1`. -/
theorem foldl_visit_depth (i node : Nat) :
    ∀ (L : List Nat) (st : BfsState) (u : Nat),
      (L.foldl (fun s nb => visit i s node nb) st).depth u =
        if u ∈ L ∧ st.depth u = -1 then ((i : Int) + 1) else st.depth u := by
  intro L
  induction L with
  | nil =>
      intro st u
      rw [List.foldl_nil, if_neg]
      rintro ⟨h1, _⟩
      exact List.not_mem_nil u h1
  | cons nb L ih =>
      intro st u
      rw [List.foldl_cons, ih, visit_depth]
      by_cases hnb : st.depth nb = -1
      · rw [if_pos hnb]
        by_cases hu : u = nb
        · subst hu
          rw [Function.update_same]
          rw [if_neg (by rintro ⟨_, hc⟩; omega), if_pos ⟨List.mem_cons_self u L, hnb⟩]
        · rw [Function.update_noteq hu]
          by_cases hmem : u ∈ L ∧ st.depth u = -1
          · rw [if_pos hmem, if_pos ⟨List.mem_cons_of_mem nb hmem.1, hmem.2⟩]
          · rw [if_neg hmem, if_neg]
            rintro ⟨hin, hd⟩
            rcases List.mem_cons.mp hin with rfl | hin
            · exact hu rfl
            · exact hmem ⟨hin, hd⟩
      · rw [if_neg hnb]
        by_cases hmem : u ∈ L ∧ st.depth u = -1
        · rw [if_pos hmem, if_pos ⟨List.mem_cons_of_mem nb hmem.1, hmem.2⟩]
        · rw [if_neg hmem, if_neg]
          rintro ⟨hin, hd⟩
          rcases List.mem_cons.mp hin with rfl | hin
          · exact hnb hd
          · exact hmem ⟨hin, hd⟩

/-- The innermost fold leaves every layer other than `i+1` unchanged. -/
theorem foldl_visit_layers_ne (i node : Nat) :
    ∀ (L : List Nat) (st : BfsState) (j : Nat), j ≠ i + 1 →
      (L.foldl (fun s nb => visit i s node nb) st).layers j = st.layers j := by
  intro L
  induction L with
  | nil => intro st j _; rfl
  | cons nb L ih =>
      intro st j hj
      rw [List.foldl_cons, ih _ _ hj, visit_layers]
      split_ifs with h1
      · exact Function.update_noteq hj _ _
      · rfl

/-- Membership in layer `i+1` after the innermost fold. -/
theorem foldl_visit_layers_mem (i node : Nat) :
    ∀ (L : List Nat) (st : BfsState) (u : Nat),
      (u ∈ (L.foldl (fun s nb => visit i s node nb) st).layers (i + 1) ↔
        u ∈ st.layers (i + 1) ∨ (u ∈ L ∧ st.depth u = -1)) := by
  intro L
  induction L with
  | nil =>
      intro st u
      rw [List.foldl_nil]
      constructor
      · exact Or.inl
      · rintro (h | ⟨h, _⟩)
        · exact h
        · exact absurd h (List.not_mem_nil u)
  | cons nb L ih =>
      intro st u
      rw [List.foldl_cons, ih, visit_layers]
      by_cases hnb : st.depth nb = -1
      · rw [if_pos hnb, Function.update_same, visit_depth, if_pos hnb]
        constructor
        · rintro (h | ⟨hL, hd⟩)
          · rcases Finset.mem_insert.mp h with rfl | h
            · exact Or.inr ⟨List.mem_cons_self u L, hnb⟩
            · exact Or.inl h
          · refine Or.inr ⟨List.mem_cons_of_mem nb hL, ?_⟩
            rcases eq_or_ne u nb with rfl | hne
            · exact hnb
            · rwa [Function.update_noteq hne] at hd
        · rintro (h | ⟨hL, hd⟩)
          · exact Or.inl (Finset.mem_insert_of_mem h)
          · rcases List.mem_cons.mp hL with rfl | hL
            · exact Or.inl (Finset.mem_insert_self u _)
            · rcases eq_or_ne u nb with rfl | hne
              · exact Or.inl (Finset.mem_insert_self u _)
              · exact Or.inr ⟨hL, by rwa [Function.update_noteq hne]⟩
      · rw [if_neg hnb, visit_depth, if_neg hnb]
        constructor
        · rintro (h | ⟨hL, hd⟩)
          · exact Or.inl h
          · exact Or.inr ⟨List.mem_cons_of_mem nb hL, hd⟩
        · rintro (h | ⟨hL, hd⟩)
          · exact Or.inl h
          · rcases List.mem_cons.mp hL with rfl | hL
            · exact absurd hd hnb
            · exact Or.inr ⟨hL, hd⟩

theorem processNode_depth (Gm : Graph) (i : Nat) (st : BfsState) (node u : Nat) :
    (processNode Gm i st node).depth u =
      if Gm.adj node u = true ∧ st.depth u = -1 then ((i : Int) + 1)
      else st.depth u := by
  rw [processNode, foldl_visit_depth]
  by_cases h : Gm.adj node u = true ∧ st.depth u = -1
  · rw [if_pos h, if_pos ⟨(mem_nbrsList Gm node u).mpr h.1, h.2⟩]
  · rw [if_neg h, if_neg]
    rintro ⟨hin, hd⟩
    exact h ⟨(mem_nbrsList Gm node u).mp hin, hd⟩

theorem processNode_layers_ne (Gm : Graph) (i : Nat) (st : BfsState)
    (node j : Nat) (hj : j ≠ i + 1) :
    (processNode Gm i st node).layers j = st.layers j :=
  foldl_visit_layers_ne i node _ st j hj

theorem processNode_layers_mem (Gm : Graph) (i : Nat) (st : BfsState)
    (node u : Nat) :
    u ∈ (processNode Gm i st node).layers (i + 1) ↔
      u ∈ st.layers (i + 1) ∨ (Gm.adj node u = true ∧ st.depth u = -1) := by
  rw [processNode, foldl_visit_layers_mem]
  constructor
  · rintro (h | ⟨hin, hd⟩)
    · exact Or.inl h
    · exact Or.inr ⟨(mem_nbrsList Gm node u).mp hin, hd⟩
  · rintro (h | ⟨ha, hd⟩)
    · exact Or.inl h
    · exact Or.inr ⟨(mem_nbrsList Gm node u).mpr ha, hd⟩

/-- Effect of processing a list of layer-`i` nodes on the depth map. -/
theorem foldl_processNode_depth (Gm : Graph) (i : Nat) :
    ∀ (M : List Nat) (st : BfsState) (u : Nat),
      (M.foldl (processNode Gm i) st).depth u =
        if (∃ nd ∈ M, Gm.adj nd u = true) ∧ st.depth u = -1 then ((i : Int) + 1)
        else st.depth u := by
  intro M
  induction M with
  | nil =>
      intro st u
      rw [List.foldl_nil, if_neg]
      rintro ⟨⟨nd, hnd, _⟩, _⟩
      exact List.not_mem_nil nd hnd
  | cons nd M ih =>
      intro st u
      rw [List.foldl_cons, ih, processNode_depth]
      by_cases h1 : Gm.adj nd u = true ∧ st.depth u = -1
      · rw [if_pos h1, if_neg (by rintro ⟨_, hc⟩; omega),
          if_pos ⟨⟨nd, List.mem_cons_self nd M, h1.1⟩, h1.2⟩]
      · rw [if_neg h1]
        by_cases h2 : (∃ x ∈ M, Gm.adj x u = true) ∧ st.depth u = -1
        · rw [if_pos h2, if_pos ⟨⟨h2.1.choose, List.mem_cons_of_mem nd h2.1.choose_spec.1,
            h2.1.choose_spec.2⟩, h2.2⟩]
        · rw [if_neg h2, if_neg]
          rintro ⟨⟨x, hx, hax⟩, hd⟩
          rcases List.mem_cons.mp hx with rfl | hx
          · exact h1 ⟨hax, hd⟩
          · exact h2 ⟨⟨x, hx, hax⟩, hd⟩

theorem foldl_processNode_layers_ne (Gm : Graph) (i : Nat) :
    ∀ (M : List Nat) (st : BfsState) (j : Nat), j ≠ i + 1 →
      (M.foldl (processNode Gm i) st).layers j = st.layers j := by
  intro M
  induction M with
  | nil => intro st j _; rfl
  | cons nd M ih =>
      intro st j hj
      rw [List.foldl_cons, ih _ _ hj, processNode_layers_ne Gm i st nd j hj]

theorem foldl_processNode_layers_mem (Gm : Graph) (i : Nat) :
    ∀ (M : List Nat) (st : BfsState) (u : Nat),
      (u ∈ (M.foldl (processNode Gm i) st).layers (i + 1) ↔
        u ∈ st.layers (i + 1) ∨
          ((∃ nd ∈ M, Gm.adj nd u = true) ∧ st.depth u = -1)) := by
  intro M
  induction M with
  | nil =>
      intro st u
      rw [List.foldl_nil]
      constructor
      · exact Or.inl
      · rintro (h | ⟨⟨nd, hnd, _⟩, _⟩)
        · exact h
        · exact absurd hnd (List.not_mem_nil nd)
  | cons nd M ih =>
      intro st u
      rw [List.foldl_cons, ih, processNode_layers_mem, processNode_depth]
      constructor
      · rintro ((h | ⟨ha, hd⟩) | ⟨⟨x, hx, hax⟩, hd⟩)
        · exact Or.inl h
        · exact Or.inr ⟨⟨nd, List.mem_cons_self nd M, ha⟩, hd⟩
        · by_cases h1 : Gm.adj nd u = true ∧ st.depth u = -1
          · rw [if_pos h1] at hd
            omega
          · rw [if_neg h1] at hd
            exact Or.inr ⟨⟨x, List.mem_cons_of_mem nd hx, hax⟩, hd⟩
      · rintro (h | ⟨⟨x, hx, hax⟩, hd⟩)
        · exact Or.inl (Or.inl h)
        · rcases List.mem_cons.mp hx with rfl | hx
          · exact Or.inl (Or.inr ⟨hax, hd⟩)
          · by_cases h1 : Gm.adj nd u = true ∧ st.depth u = -1
            · exact Or.inl (Or.inr h1)
            · refine Or.inr ⟨⟨x, hx, hax⟩, ?_⟩
              rw [if_neg h1]
              exact hd

/-- Edge-layer bookkeeping invariant: every pair recorded in
`edges_in_layers` is an edge of the explored graph joining nodes whose
depths match the (doubled) key. -/
def EdgeInv (Gm : Graph) (st : BfsState) : Prop :=
  (∀ j : Nat, ∀ p : Nat × Nat, p ∈ st.elayers (2 * j + 1) →
     Gm.adj p.1 p.2 = true ∧ st.depth p.1 = (j : Int) ∧
       st.depth p.2 = (j : Int) + 1) ∧
  (∀ j : Nat, ∀ p : Nat × Nat, p ∈ st.elayers (2 * j) →
     Gm.adj p.1 p.2 = true ∧ st.depth p.1 = (j : Int) ∧
       st.depth p.2 = (j : Int))

theorem visit_elayers (i : Nat) (st : BfsState) (node nb : Nat) :
    (visit i st node nb).elayers =
      if st.depth nb = -1 then
        Function.update st.elayers (2 * i + 1)
          (insert (node, nb) (st.elayers (2 * i + 1)))
      else if st.depth nb = st.depth node then
        (if (nb, node) ∈ st.elayers (2 * i) then st.elayers
         else Function.update st.elayers (2 * i)
           (insert (node, nb) (st.elayers (2 * i))))
      else if st.depth nb = st.depth node + 1 then
        Function.update st.elayers (2 * i + 1)
          (insert (node, nb) (st.elayers (2 * i + 1)))
      else st.elayers := by
  unfold visit
  split_ifs <;> rfl

theorem visit_EdgeInv (Gm : Graph) (i : Nat) (st : BfsState) (node nb : Nat)
    (hadj : Gm.adj node nb = true) (hdn : st.depth node = (i : Int))
    (hE : EdgeInv Gm st) : EdgeInv Gm (visit i st node nb) := by
  have hnn : node ≠ nb := by
    intro e
    subst e
    rw [Gm.loopless] at hadj
    cases hadj
  rcases hE with ⟨hodd, heven⟩
  -- the depth map after the visit, applied to a previously explored node
  have hdepth_old : ∀ (u : Nat) (c : Int), st.depth u = c → c ≠ -1 →
      (visit i st node nb).depth u = c := by
    intro u c hc hne
    rw [visit_depth]
    split_ifs with h1
    · rcases eq_or_ne u nb with rfl | hu
      · exact absurd (hc.symm.trans h1) hne
      · rw [Function.update_noteq hu]
        exact hc
    · exact hc
  constructor
  · intro j p hp
    rw [visit_elayers] at hp
    split_ifs at hp with h1 h2 h3 h4
    -- fresh neighbour: insertion at key 2i+1
    · rcases eq_or_ne j i with rfl | hj
      · rw [Function.update_same] at hp
        rcases Finset.mem_insert.mp hp with rfl | hp
        · refine ⟨hadj, hdepth_old node (j : Int) hdn (by omega), ?_⟩
          rw [visit_depth, if_pos h1, Function.update_same]
        · rcases hodd j p hp with ⟨ha, hb, hc⟩
          exact ⟨ha, hdepth_old p.1 _ hb (by omega), hdepth_old p.2 _ hc (by omega)⟩
      · rw [Function.update_noteq (by omega)] at hp
        rcases hodd j p hp with ⟨ha, hb, hc⟩
        exact ⟨ha, hdepth_old p.1 _ hb (by omega), hdepth_old p.2 _ hc (by omega)⟩
    -- same-depth edge already recorded: no change
    · rcases hodd j p hp with ⟨ha, hb, hc⟩
      exact ⟨ha, hdepth_old p.1 _ hb (by omega), hdepth_old p.2 _ hc (by omega)⟩
    -- same-depth edge recorded at key 2i: odd keys unchanged
    · rw [Function.update_noteq (by omega)] at hp
      rcases hodd j p hp with ⟨ha, hb, hc⟩
      exact ⟨ha, hdepth_old p.1 _ hb (by omega), hdepth_old p.2 _ hc (by omega)⟩
    -- cross-depth edge: insertion at key 2i+1
    · rcases eq_or_ne j i with rfl | hj
      · rw [Function.update_same] at hp
        rcases Finset.mem_insert.mp hp with rfl | hp
        · refine ⟨hadj, hdepth_old node (j : Int) hdn (by omega), ?_⟩
          have : st.depth nb = (j : Int) + 1 := by rw [h4, hdn]
          exact hdepth_old nb _ this (by omega)
        · rcases hodd j p hp with ⟨ha, hb, hc⟩
          exact ⟨ha, hdepth_old p.1 _ hb (by omega), hdepth_old p.2 _ hc (by omega)⟩
      · rw [Function.update_noteq (by omega)] at hp
        rcases hodd j p hp with ⟨ha, hb, hc⟩
        exact ⟨ha, hdepth_old p.1 _ hb (by omega), hdepth_old p.2 _ hc (by omega)⟩
    -- nothing recorded
    · rcases hodd j p hp with ⟨ha, hb, hc⟩
      exact ⟨ha, hdepth_old p.1 _ hb (by omega), hdepth_old p.2 _ hc (by omega)⟩
  · intro j p hp
    rw [visit_elayers] at hp
    split_ifs at hp with h1 h2 h3 h4
    · rw [Function.update_noteq (by omega)] at hp
      rcases heven j p hp with ⟨ha, hb, hc⟩
      exact ⟨ha, hdepth_old p.1 _ hb (by omega), hdepth_old p.2 _ hc (by omega)⟩
    · rcases heven j p hp with ⟨ha, hb, hc⟩
      exact ⟨ha, hdepth_old p.1 _ hb (by omega), hdepth_old p.2 _ hc (by omega)⟩
    · rcases eq_or_ne j i with rfl | hj
      · rw [Function.update_same] at hp
        rcases Finset.mem_insert.mp hp with rfl | hp
        · refine ⟨hadj, hdepth_old node (j : Int) hdn (by omega), ?_⟩
          have : st.depth nb = (j : Int) := by rw [h2, hdn]
          exact hdepth_old nb _ this (by omega)
        · rcases heven j p hp with ⟨ha, hb, hc⟩
          exact ⟨ha, hdepth_old p.1 _ hb (by omega), hdepth_old p.2 _ hc (by omega)⟩
      · rw [Function.update_noteq (by omega)] at hp
        rcases heven j p hp with ⟨ha, hb, hc⟩
        exact ⟨ha, hdepth_old p.1 _ hb (by omega), hdepth_old p.2 _ hc (by omega)⟩
    · rw [Function.update_noteq (by omega)] at hp
      rcases heven j p hp with ⟨ha, hb, hc⟩
      exact ⟨ha, hdepth_old p.1 _ hb (by omega), hdepth_old p.2 _ hc (by omega)⟩
    · rcases heven j p hp with ⟨ha, hb, hc⟩
      exact ⟨ha, hdepth_old p.1 _ hb (by omega), hdepth_old p.2 _ hc (by omega)⟩

theorem foldl_visit_EdgeInv (Gm : Graph) (i node : Nat) :
    ∀ (L : List Nat) (st : BfsState), (∀ nb ∈ L, Gm.adj node nb = true) →
      st.depth node = (i : Int) → EdgeInv Gm st →
      EdgeInv Gm (L.foldl (fun s nb => visit i s node nb) st) := by
  intro L
  induction L with
  | nil => intro st _ _ hE; exact hE
  | cons nb L ih =>
      intro st hadj hdn hE
      rw [List.foldl_cons]
      have hne : st.depth node ≠ -1 := by rw [hdn]; omega
      refine ih _ (fun x hx => hadj x (List.mem_cons_of_mem nb hx)) ?_
        (visit_EdgeInv Gm i st node nb (hadj nb (List.mem_cons_self nb L)) hdn hE)
      rw [visit_depth_persist i st node nb node hne]
      exact hdn

theorem processNode_EdgeInv (Gm : Graph) (i : Nat) (st : BfsState) (node : Nat)
    (hdn : st.depth node = (i : Int)) (hE : EdgeInv Gm st) :
    EdgeInv Gm (processNode Gm i st node) :=
  foldl_visit_EdgeInv Gm i node _ st
    (fun nb hnb => (mem_nbrsList Gm node nb).mp hnb) hdn hE

theorem foldl_processNode_EdgeInv (Gm : Graph) (i : Nat) :
    ∀ (M : List Nat) (st : BfsState), (∀ nd ∈ M, st.depth nd = (i : Int)) →
      EdgeInv Gm st → EdgeInv Gm (M.foldl (processNode Gm i) st) := by
  intro M
  induction M with
  | nil => intro st _ hE; exact hE
  | cons nd M ih =>
      intro st hdepth hE
      rw [List.foldl_cons]
      refine ih _ ?_ (processNode_EdgeInv Gm i st nd
        (hdepth nd (List.mem_cons_self nd M)) hE)
      intro x hx
      rw [processNode_depth]
      have hxd := hdepth x (List.mem_cons_of_mem nd hx)
      rw [if_neg]
      · exact hxd
      · rintro ⟨_, hc⟩
        rw [hxd] at hc
        omega

/-- The breadth-first ball of radius `k` around the two roots: all nodes the
expansion reaches within `k` steps in the explored graph. -/
def ball (Gm : Graph) (v w : Nat) (k : Nat) : Finset Nat :=
  (stepR Gm (fun _ => true))^[k] {v, w}

/-- The breadth-first sphere: nodes first reached after exactly `k` steps. -/
def sphere (Gm : Graph) (v w : Nat) : Nat → Finset Nat
  | 0 => ball Gm v w 0
  | k + 1 => ball Gm v w (k + 1) \ ball Gm v w k

theorem ball_succ (Gm : Graph) (v w k : Nat) :
    ball Gm v w (k + 1) = stepR Gm (fun _ => true) (ball Gm v w k) :=
  Function.iterate_succ_apply' _ _ _

theorem mem_ball_succ (Gm : Graph) (v w k : Nat) (u : Nat) :
    u ∈ ball Gm v w (k + 1) ↔
      u ∈ ball Gm v w k ∨
        (u < Gm.n ∧ ∃ nd ∈ ball Gm v w k, Gm.adj nd u = true) := by
  rw [ball_succ, mem_stepR]
  constructor
  · rintro (h | ⟨h1, _, h3⟩)
    · exact Or.inl h
    · exact Or.inr ⟨h1, h3⟩
  · rintro (h | ⟨h1, h3⟩)
    · exact Or.inl h
    · exact Or.inr ⟨h1, rfl, h3⟩

theorem ball_mono_le (Gm : Graph) (v w : Nat) {j k : Nat} (h : j ≤ k) :
    ball Gm v w j ⊆ ball Gm v w k :=
  iterate_stepR_le Gm (fun _ => true) {v, w} h

theorem ball_subset_range (Gm : Graph) (v w : Nat) (hv : v < Gm.n)
    (hw : w < Gm.n) (k : Nat) : ball Gm v w k ⊆ Finset.range Gm.n := by
  apply iterate_stepR_subset_range_of_subset
  intro x hx
  rcases Finset.mem_insert.mp hx with rfl | hx
  · exact Finset.mem_range.mpr hv
  · rw [Finset.mem_singleton] at hx
    subst hx
    exact Finset.mem_range.mpr hw

theorem sphere_subset_ball (Gm : Graph) (v w k : Nat) :
    sphere Gm v w k ⊆ ball Gm v w k := by
  cases k with
  | zero => exact subset_rfl
  | succ m => exact Finset.sdiff_subset

theorem mem_ball_iff_sphere (Gm : Graph) (v w : Nat) :
    ∀ (k : Nat) (u : Nat), u ∈ ball Gm v w k ↔ ∃ j ≤ k, u ∈ sphere Gm v w j := by
  intro k
  induction k with
  | zero =>
      intro u
      constructor
      · intro h
        exact ⟨0, le_rfl, h⟩
      · rintro ⟨j, hj, hu⟩
        rw [Nat.le_zero] at hj
        subst hj
        exact hu
  | succ m ih =>
      intro u
      constructor
      · intro h
        by_cases hm : u ∈ ball Gm v w m
        · rcases (ih u).mp hm with ⟨j, hj, hu⟩
          exact ⟨j, by omega, hu⟩
        · exact ⟨m + 1, le_rfl, Finset.mem_sdiff.mpr ⟨h, hm⟩⟩
      · rintro ⟨j, hj, hu⟩
        rcases Nat.lt_or_ge j (m + 1) with hlt | hge
        · exact ball_mono_le Gm v w (by omega)
            ((ih u).mpr ⟨j, by omega, hu⟩)
        · have : j = m + 1 := by omega
          subst this
          exact (Finset.mem_sdiff.mp hu).1

/-- The spheres are pairwise disjoint. -/
theorem sphere_disjoint (Gm : Graph) (v w : Nat) {j k : Nat} (h : j < k)
    {u : Nat} (hj : u ∈ sphere Gm v w j) (hk : u ∈ sphere Gm v w k) : False := by
  cases k with
  | zero => omega
  | succ m =>
      have h1 : u ∈ ball Gm v w m :=
        ball_mono_le Gm v w (by omega) (sphere_subset_ball Gm v w j hj)
      exact absurd h1 (Finset.mem_sdiff.mp hk).2

/-- The full invariant maintained by the exploration: before layer `i` is
processed, the layer sets below `i` are exactly the breadth-first spheres,
the depth map records exactly the balls explored so far, and the edge layers
are coherent. -/
structure BfsInv (Gm : Graph) (v w : Nat) (i : Nat) (st : BfsState) : Prop where
  layers_lo : ∀ j, j ≤ i → st.layers j = sphere Gm v w j
  layers_hi : ∀ j, i < j → st.layers j = ∅
  depth_in : ∀ j, j ≤ i → ∀ u ∈ sphere Gm v w j, st.depth u = (j : Int)
  depth_out : ∀ u, u ∉ ball Gm v w i → st.depth u = -1
  edges : EdgeInv Gm st

theorem bfsInv_init (Gm : Graph) (v w : Nat) :
    BfsInv Gm v w 0 (bfsInit v w) := by
  have hball0 : ball Gm v w 0 = {v, w} := rfl
  constructor
  · intro j hj
    rw [Nat.le_zero] at hj
    subst hj
    show (if 0 = 0 then ({v, w} : Finset Nat) else ∅) = sphere Gm v w 0
    rw [if_pos rfl]
    rfl
  · intro j hj
    show (if j = 0 then ({v, w} : Finset Nat) else ∅) = ∅
    rw [if_neg (by omega)]
  · intro j hj u hu
    rw [Nat.le_zero] at hj
    subst hj
    have : u = v ∨ u = w := by
      have : u ∈ ({v, w} : Finset Nat) := hu
      simpa using this
    show (if u = v ∨ u = w then (0 : Int) else -1) = (0 : Nat)
    rw [if_pos this]
    rfl
  · intro u hu
    rw [hball0] at hu
    have : ¬(u = v ∨ u = w) := by
      intro h
      apply hu
      simpa using h
    show (if u = v ∨ u = w then (0 : Int) else -1) = -1
    rw [if_neg this]
  · constructor
    · intro j p hp
      exact absurd hp (Finset.not_mem_empty p)
    · intro j p hp
      exact absurd hp (Finset.not_mem_empty p)

theorem bfsInv_step (Gm : Graph) (v w : Nat) (hv : v < Gm.n) (hw : w < Gm.n)
    (i : Nat) (st : BfsState) (h : BfsInv Gm v w i st) :
    BfsInv Gm v w (i + 1) (processLayer Gm st i) := by
  have hM : ∀ nd, nd ∈ (List.range Gm.n).filter (fun u => u ∈ st.layers i)
      ↔ nd ∈ sphere Gm v w i := by
    intro nd
    rw [List.mem_filter, List.mem_range, h.layers_lo i le_rfl]
    constructor
    · intro hx
      exact of_decide_eq_true hx.2
    · intro hx
      refine ⟨Finset.mem_range.mp (ball_subset_range Gm v w hv hw i
        (sphere_subset_ball Gm v w i hx)), decide_eq_true hx⟩
  -- the depth map tells exactly membership in the current ball
  have hdepth_ball : ∀ u, st.depth u = -1 ↔ u ∉ ball Gm v w i := by
    intro u
    constructor
    · intro hd hball
      rcases (mem_ball_iff_sphere Gm v w i u).mp hball with ⟨j, hj, hu⟩
      have := h.depth_in j hj u hu
      rw [hd] at this
      omega
    · exact h.depth_out u
  -- the scan condition describes exactly the next sphere
  have hcond : ∀ u,
      ((∃ nd ∈ (List.range Gm.n).filter (fun u => u ∈ st.layers i),
          Gm.adj nd u = true) ∧
        st.depth u = -1) ↔ u ∈ sphere Gm v w (i + 1) := by
    intro u
    constructor
    · rintro ⟨⟨nd, hnd, hadj⟩, hd⟩
      have hub : u ∉ ball Gm v w i := (hdepth_ball u).mp hd
      refine Finset.mem_sdiff.mpr ⟨?_, hub⟩
      refine (mem_ball_succ Gm v w i u).mpr (Or.inr ⟨(Gm.adj_lt nd u hadj).2,
        nd, sphere_subset_ball Gm v w i ((hM nd).mp hnd), hadj⟩)
    · intro hu
      rcases Finset.mem_sdiff.mp hu with ⟨hin, hout⟩
      refine ⟨?_, (hdepth_ball u).mpr hout⟩
      rcases (mem_ball_succ Gm v w i u).mp hin with hc | ⟨_, nd, hnd, hadj⟩
      · exact absurd hc hout
      · -- nd lies in the current ball; it must lie in the outermost sphere,
        -- else u would already have been reached
        rcases (mem_ball_iff_sphere Gm v w i nd).mp hnd with ⟨j, hj, hndj⟩
      -- if j < i then u ∈ ball (j+1) ⊆ ball i, contradiction
        rcases Nat.lt_or_ge j i with hlt | hge
        · exfalso
          apply hout
          refine ball_mono_le Gm v w (show j + 1 ≤ i by omega) ?_
          exact (mem_ball_succ Gm v w j u).mpr (Or.inr ⟨(Gm.adj_lt nd u hadj).2,
            nd, sphere_subset_ball Gm v w j hndj, hadj⟩)
        · have : j = i := by omega
          subst this
          exact ⟨nd, (hM nd).mpr hndj, hadj⟩
  constructor
  · -- layers_lo
    intro j hj
    rcases Nat.lt_or_ge j (i + 1) with hlt | hge
    · rw [processLayer, foldl_processNode_layers_ne Gm i _ st j (by omega)]
      exact h.layers_lo j (by omega)
    · have : j = i + 1 := by omega
      subst this
      apply Finset.ext
      intro u
      rw [processLayer, foldl_processNode_layers_mem Gm i]
      rw [h.layers_hi (i + 1) (by omega)]
      constructor
      · rintro (hc | hc)
        · exact absurd hc (Finset.not_mem_empty u)
        · exact (hcond u).mp hc
      · intro hu
        exact Or.inr ((hcond u).mpr hu)
  · -- layers_hi
    intro j hj
    rw [processLayer, foldl_processNode_layers_ne Gm i _ st j (by omega)]
    exact h.layers_hi j (by omega)
  · -- depth_in
    intro j hj u hu
    rw [processLayer, foldl_processNode_depth Gm i]
    rcases Nat.lt_or_ge j (i + 1) with hlt | hge
    · rw [if_neg]
      · exact h.depth_in j (by omega) u hu
      · rintro ⟨_, hd⟩
        have := h.depth_in j (by omega) u hu
        rw [hd] at this
        omega
    · have : j = i + 1 := by omega
      subst this
      rw [if_pos ((hcond u).mpr hu)]
      push_cast
      ring
  · -- depth_out
    intro u hu
    rw [processLayer, foldl_processNode_depth Gm i]
    have hui : u ∉ ball Gm v w i := fun hc =>
      hu (ball_mono_le Gm v w (by omega) hc)
    rw [if_neg]
    · exact (hdepth_ball u).mpr hui
    · rintro ⟨hex, hd⟩
      exact hu (Finset.mem_sdiff.mp ((hcond u).mp ⟨hex, hd⟩)).1
  · -- edges
    rw [processLayer]
    apply foldl_processNode_EdgeInv Gm i _ st
    · intro nd hnd
      exact h.depth_in i le_rfl nd ((hM nd).mp hnd)
    · exact h.edges

/-- The exploration satisfies the invariant at its full depth. -/
theorem bfs_inv (G : Graph) (v w : Nat) (hv : v < G.n) (hw : w < G.n)
    (d : Nat) : BfsInv (removeEdge G v w) v w d (bfs G v w d) := by
  induction d with
  | zero => exact bfsInv_init (removeEdge G v w) v w
  | succ m ih =>
      have : bfs G v w (m + 1)
          = processLayer (removeEdge G v w) (bfs G v w m) m := by
        rw [bfs, bfs, List.range_succ, List.foldl_append, List.foldl_cons,
          List.foldl_nil]
      rw [this]
      exact bfsInv_step (removeEdge G v w) v w hv hw m (bfs G v w m) ih

/-- A walk of the given length between two nodes of a graph. -/
inductive Walk (G : Graph) : Nat → Nat → Nat → Prop where
  | refl (u : Nat) : Walk G u u 0
  | step {a x y : Nat} {k : Nat} :
      Walk G a x k → G.adj x y = true → Walk G a y (k + 1)

/-- A walk of length `j` from one of the two exploration roots to `u`. -/
def walkFromRoots (Gm : Graph) (v w u j : Nat) : Prop :=
  ∃ r, (r = v ∨ r = w) ∧ Walk Gm r u j

theorem mem_ball_iff_walk (Gm : Graph) (v w : Nat) :
    ∀ (k u : Nat),
      u ∈ ball Gm v w k ↔ ∃ j ≤ k, walkFromRoots Gm v w u j := by
  intro k
  induction k with
  | zero =>
      intro u
      constructor
      · intro h
        have hu : u = v ∨ u = w := by
          have : u ∈ ({v, w} : Finset Nat) := h
          simpa using this
        exact ⟨0, le_rfl, u, hu, Walk.refl u⟩
      · rintro ⟨j, hj, r, hr, hwalk⟩
        rw [Nat.le_zero] at hj
        subst hj
        cases hwalk
        have hb : ball Gm v w 0 = ({v, w} : Finset Nat) := rfl
        rw [hb]
        simpa using hr
  | succ m ih =>
      intro u
      constructor
      · intro h
        rcases (mem_ball_succ Gm v w m u).mp h with h1 | ⟨_, nd, hnd, hadj⟩
        · rcases (ih u).mp h1 with ⟨j, hj, hwalk⟩
          exact ⟨j, by omega, hwalk⟩
        · rcases (ih nd).mp hnd with ⟨j, hj, r, hr, hwalk⟩
          exact ⟨j + 1, by omega, r, hr, Walk.step hwalk hadj⟩
      · rintro ⟨j, hj, r, hr, hwalk⟩
        cases hwalk with
        | refl =>
            refine ball_mono_le Gm v w (Nat.zero_le _) ?_
            have hb : ball Gm v w 0 = ({v, w} : Finset Nat) := rfl
            rw [hb]
            simpa using hr
        | step hprev hstep =>
            rename_i x k'
            have hx : x ∈ ball Gm v w m :=
              (ih x).mpr ⟨k', by omega, r, hr, hprev⟩
            exact (mem_ball_succ Gm v w m u).mpr
              (Or.inr ⟨(Gm.adj_lt x u hstep).2, x, hx, hstep⟩)

/-- **C8.** For an adjacent pair `(v, w)` and depth `d ≥ 1`: the depth-0 set
is exactly `{v, w}`; every discovered node's depth equals the length of a
shortest walk from `v` or `w` (whichever is smaller) in the graph with the
edge `(v, w)` excluded; and a node is undiscovered (depth `-1`) exactly when
it admits no such walk of length at most `d`. -/
theorem bfs_depth_eq_shortest_path (G : Graph) (v w : Nat) (d : Nat)
    (hadj : G.adj v w = true) (hd : 1 ≤ d) :
    (bfs G v w d).layers 0 = {v, w} ∧
    (∀ u, (bfs G v w d).depth u ≠ -1 →
      ∃ k : Nat, (bfs G v w d).depth u = (k : Int) ∧
        walkFromRoots (removeEdge G v w) v w u k ∧
        ∀ j, j < k → ¬ walkFromRoots (removeEdge G v w) v w u j) ∧
    (∀ u, (bfs G v w d).depth u = -1 ↔
      ∀ j, j ≤ d → ¬ walkFromRoots (removeEdge G v w) v w u j) := by
  have inv := bfs_inv G v w (G.adj_lt v w hadj).1 (G.adj_lt v w hadj).2 d
  set Gm := removeEdge G v w with hGm
  refine ⟨?_, ?_, ?_⟩
  · rw [inv.layers_lo 0 (Nat.zero_le d)]
    rfl
  · intro u hu
    have hball : u ∈ ball Gm v w d := by
      by_contra hc
      exact hu (inv.depth_out u hc)
    rcases (mem_ball_iff_sphere Gm v w d u).mp hball with ⟨j, hj, huj⟩
    refine ⟨j, inv.depth_in j hj u huj, ?_, ?_⟩
    · -- u admits a walk of length exactly j
      have h1 : u ∈ ball Gm v w j := sphere_subset_ball Gm v w j huj
      rcases (mem_ball_iff_walk Gm v w j u).mp h1 with ⟨j', hj', hwalk⟩
      rcases Nat.lt_or_ge j' j with hlt | hge
      · exfalso
        cases j with
        | zero => omega
        | succ m =>
            have : u ∈ ball Gm v w m :=
              (mem_ball_iff_walk Gm v w m u).mpr ⟨j', by omega, hwalk⟩
            exact (Finset.mem_sdiff.mp huj).2 this
      · have : j' = j := by omega
        subst this
        exact hwalk
    · -- no strictly shorter walk exists
      intro j2 hj2 hwalk
      cases j with
      | zero => omega
      | succ m =>
          have : u ∈ ball Gm v w m :=
            (mem_ball_iff_walk Gm v w m u).mpr ⟨j2, by omega, hwalk⟩
          exact (Finset.mem_sdiff.mp huj).2 this
  · intro u
    constructor
    · intro hu j hj hwalk
      have : u ∈ ball Gm v w d :=
        (mem_ball_iff_walk Gm v w d u).mpr ⟨j, hj, hwalk⟩
      rcases (mem_ball_iff_sphere Gm v w d u).mp this with ⟨j', hj', huj⟩
      have := inv.depth_in j' hj' u huj
      rw [hu] at this
      omega
    · intro hnone
      apply inv.depth_out u
      intro hc
      rcases (mem_ball_iff_walk Gm v w d u).mp hc with ⟨j, hj, hwalk⟩
      exact hnone j hj hwalk

theorem bfs_depth_eq_shortest_path_witness :
    (mkGraph 3 [(0, 1), (1, 2)]).adj 0 1 = true ∧ 1 ≤ 2 ∧
    ((bfs (mkGraph 3 [(0, 1), (1, 2)]) 0 1 2).layers 0 = {0, 1} ∧
    (∀ u, (bfs (mkGraph 3 [(0, 1), (1, 2)]) 0 1 2).depth u ≠ -1 →
      ∃ k : Nat, (bfs (mkGraph 3 [(0, 1), (1, 2)]) 0 1 2).depth u = (k : Int) ∧
        walkFromRoots (removeEdge (mkGraph 3 [(0, 1), (1, 2)]) 0 1) 0 1 u k ∧
        ∀ j, j < k →
          ¬ walkFromRoots (removeEdge (mkGraph 3 [(0, 1), (1, 2)]) 0 1) 0 1 u j) ∧
    (∀ u, (bfs (mkGraph 3 [(0, 1), (1, 2)]) 0 1 2).depth u = -1 ↔
      ∀ j, j ≤ 2 →
        ¬ walkFromRoots (removeEdge (mkGraph 3 [(0, 1), (1, 2)]) 0 1) 0 1 u j)) :=
  ⟨by decide, by omega,
    bfs_depth_eq_shortest_path (mkGraph 3 [(0, 1), (1, 2)]) 0 1 2 (by decide)
      (by omega)⟩

/-!
### `neighborhoodConnectivity.neighborhood_connectivity`

`neighborhood_connectivity(G, v, w, edges_in_layers, sub_tree_root,
nodes_in_layers, a)` (lines 91-167) turns the exploration result into the
connectivity score `nc`.  The embedding takes the whole `BfsState` plus the
exploration depth `d0`; the Python local `d = len(edges_in_layers)` equals
`2*d0 - 1` (the number of keys `0.5, 1, ..., d0 - 0.5`), and `math.ceil(d/2)`
equals `d0`, so the two relevant score terms live at doubled keys `1` and `2`.
The returned `edge_nc` dictionary exists for plotting only and is not
carried.  Real arithmetic is embedded as exact rationals.
-/

/-- The set of undirected edges, each counted once (`G.number_of_edges()`). -/
def edgeFinset (G : Graph) : Finset (Nat × Nat) :=
  ((Finset.range G.n) ×ˢ (Finset.range G.n)).filter
    (fun p => G.adj p.1 p.2 = true ∧ p.1 < p.2)

/-- `G.number_of_edges()`. -/
def numEdges (G : Graph) : Nat := (edgeFinset G).card

/-- `fun(x, y) = x * y / (2 * G.number_of_edges())` (line 142).  Division by
zero only arises for an edgeless graph, excluded by every caller. -/
def funNC (G : Graph) (x y : ℚ) : ℚ := x * y / (2 * (numEdges G : ℚ))

/-- `free_stubs` of one side at one layer (lines 144-156): at layer 0 the
hard-coded values `deg(v) - 1`, `deg(w) - 1`, `0`; at layer `i ≥ 1` the sum,
over that layer's nodes carrying the side's subtree-root tag, of the node's
degree minus the number of recorded layer-crossing edges incident to it. -/
def freeStubs (G : Graph) (st : BfsState) (v w : Nat) (tag : SubTreeRoot) :
    Nat → ℚ
  | 0 =>
      match tag with
      | SubTreeRoot.rv => (deg G v : ℚ) - 1
      | SubTreeRoot.rw => (deg G w : ℚ) - 1
      | SubTreeRoot.rboth => 0
  | i + 1 =>
      ((st.layers (i + 1)).filter
        (fun nd => st.root nd = some tag)).sum
        (fun nd => (deg G nd : ℚ) -
          (((st.elayers (2 * (i + 1) - 1)).filter
            (fun p => p.1 = nd ∨ p.2 = nd)).card : ℚ))

/-- `nc_edges[k]` (lines 128-139): the recorded edges of layer `k` that count
towards the score — at integer depths those whose endpoints carry different
root tags (or the merged tag), at half-integer depths those with a merged
endpoint. -/
def ncEdgesAt (st : BfsState) (t : Nat) : Finset (Nat × Nat) :=
  (st.elayers t).filter (fun p =>
    if t % 2 = 0 then
      st.root p.1 ≠ st.root p.2 ∨ st.root p.1 = some SubTreeRoot.rboth
    else
      st.root p.1 = some SubTreeRoot.rboth ∨
        st.root p.2 = some SubTreeRoot.rboth)

/-- `estimated_connections[k]` (lines 157-158), at doubled key `t`. -/
def estConn (G : Graph) (st : BfsState) (v w : Nat) (t : Nat) : ℚ :=
  if t % 2 = 0 then
    funNC G (freeStubs G st v w SubTreeRoot.rv (t / 2))
        (freeStubs G st v w SubTreeRoot.rw (t / 2))
      + funNC G (freeStubs G st v w SubTreeRoot.rboth (t / 2))
          (freeStubs G st v w SubTreeRoot.rv (t / 2)
            + freeStubs G st v w SubTreeRoot.rw (t / 2)
            + freeStubs G st v w SubTreeRoot.rboth (t / 2))
  else
    funNC G (freeStubs G st v w SubTreeRoot.rv ((t - 1) / 2)
        + freeStubs G st v w SubTreeRoot.rw ((t - 1) / 2)
        + freeStubs G st v w SubTreeRoot.rboth ((t - 1) / 2))
      ((st.layers ((t + 1) / 2)).sum (fun nd => (deg G nd : ℚ)))

/-- The score computation (lines 160-167): the damped combination of the two
layer terms, rescaled to `(nc + 1) / 2`. -/
def neighborhood_connectivity (G : Graph) (v w : Nat) (st : BfsState)
    (d0 : Nat) (a : ℚ) : ℚ :=
  let dl := 2 * d0 - 1
  let nc0 : ℚ :=
    if 1 < dl ∧ (st.elayers 2).card ≠ 0 then
      a * (((ncEdgesAt st 1).card : ℚ) - estConn G st v w 1)
          / ((st.elayers 1).card : ℚ)
        + (1 - a) * (((ncEdgesAt st 2).card : ℚ) - estConn G st v w 2)
          / ((st.elayers 2).card : ℚ)
    else if (st.elayers 1).card ≠ 0 then
      (((ncEdgesAt st 1).card : ℚ) - estConn G st v w 1)
        / ((st.elayers 1).card : ℚ)
    else 0
  (nc0 + 1) / 2

/-- The graph refuting the claimed lower bound: `0-1` is the analysed edge,
`2` and `3` are the sides' layer-1 nodes, and nodes `4..11` are shared
degree-padding neighbours of `2` and `3`. -/
def gnnCounter : Graph :=
  mkGraph 12 [(0, 1), (0, 2), (1, 3), (2, 3),
    (2, 4), (3, 4), (2, 5), (3, 5), (2, 6), (3, 6), (2, 7), (3, 7),
    (2, 8), (3, 8), (2, 9), (3, 9), (2, 10), (3, 10), (2, 11), (3, 11)]

/-- **C2, counterexample.** On `gnnCounter` with the adjacent pair `(0, 1)`,
depth 2 and damping `a = 0` the estimator returns a negative score
(`-1/80`), so the score does not always lie in `[0, 1]`. -/
theorem neighborhood_connectivity_not_nonneg :
    neighborhood_connectivity gnnCounter 0 1 (bfs gnnCounter 0 1 2) 2 0
      < 0 := by
  -- combinatorial facts about the exploration, evaluated by the kernel
  have hnum : numEdges gnnCounter = 20 := by decide
  have he1card : ((bfs gnnCounter 0 1 2).elayers 1).card = 2 := by decide
  have he2card : ((bfs gnnCounter 0 1 2).elayers 2).card = 1 := by decide
  have hnc2 : (ncEdgesAt (bfs gnnCounter 0 1 2) 2).card = 1 := by decide
  have hfiltv : ((bfs gnnCounter 0 1 2).layers 1).filter
      (fun nd => (bfs gnnCounter 0 1 2).root nd = some SubTreeRoot.rv)
        = {2} := by decide
  have hfiltw : ((bfs gnnCounter 0 1 2).layers 1).filter
      (fun nd => (bfs gnnCounter 0 1 2).root nd = some SubTreeRoot.rw)
        = {3} := by decide
  have hfiltb : ((bfs gnnCounter 0 1 2).layers 1).filter
      (fun nd => (bfs gnnCounter 0 1 2).root nd = some SubTreeRoot.rboth)
        = ∅ := by decide
  have hcons2 : (((bfs gnnCounter 0 1 2).elayers 1).filter
      (fun p => p.1 = 2 ∨ p.2 = 2)).card = 1 := by decide
  have hcons3 : (((bfs gnnCounter 0 1 2).elayers 1).filter
      (fun p => p.1 = 3 ∨ p.2 = 3)).card = 1 := by decide
  have hdeg2 : deg gnnCounter 2 = 10 := by decide
  have hdeg3 : deg gnnCounter 3 = 10 := by decide
  -- the layer-1 free stubs
  have hfsv : freeStubs gnnCounter (bfs gnnCounter 0 1 2) 0 1
      SubTreeRoot.rv 1 = 9 := by
    show (((bfs gnnCounter 0 1 2).layers 1).filter
        (fun nd => (bfs gnnCounter 0 1 2).root nd = some SubTreeRoot.rv)).sum
          (fun nd => (deg gnnCounter nd : ℚ) -
            ((((bfs gnnCounter 0 1 2).elayers 1).filter
              (fun p => p.1 = nd ∨ p.2 = nd)).card : ℚ)) = 9
    rw [hfiltv, Finset.sum_singleton, hdeg2, hcons2]
    norm_num
  have hfsw : freeStubs gnnCounter (bfs gnnCounter 0 1 2) 0 1
      SubTreeRoot.rw 1 = 9 := by
    show (((bfs gnnCounter 0 1 2).layers 1).filter
        (fun nd => (bfs gnnCounter 0 1 2).root nd = some SubTreeRoot.rw)).sum
          (fun nd => (deg gnnCounter nd : ℚ) -
            ((((bfs gnnCounter 0 1 2).elayers 1).filter
              (fun p => p.1 = nd ∨ p.2 = nd)).card : ℚ)) = 9
    rw [hfiltw, Finset.sum_singleton, hdeg3, hcons3]
    norm_num
  have hfsb : freeStubs gnnCounter (bfs gnnCounter 0 1 2) 0 1
      SubTreeRoot.rboth 1 = 0 := by
    show (((bfs gnnCounter 0 1 2).layers 1).filter
        (fun nd => (bfs gnnCounter 0 1 2).root nd = some SubTreeRoot.rboth)).sum
          (fun nd => (deg gnnCounter nd : ℚ) -
            ((((bfs gnnCounter 0 1 2).elayers 1).filter
              (fun p => p.1 = nd ∨ p.2 = nd)).card : ℚ)) = 0
    rw [hfiltb, Finset.sum_empty]
  have hest : estConn gnnCounter (bfs gnnCounter 0 1 2) 0 1 2 = 81 / 40 := by
    rw [estConn]
    norm_num [hfsv, hfsw, hfsb, funNC, hnum]
  rw [neighborhood_connectivity]
  rw [if_pos ⟨by norm_num, by rw [he2card]; norm_num⟩]
  rw [hest, he1card, he2card, hnc2]
  norm_num

theorem removeEdge_adj (G : Graph) (v w a b : Nat)
    (h : (removeEdge G v w).adj a b = true) : G.adj a b = true := by
  have h' : (G.adj a b && !((a = v && b = w) || (a = w && b = v))) = true := h
  exact (Bool.and_eq_true _ _ |>.mp h').1

theorem funNC_nonneg (G : Graph) {x y : ℚ} (hx : 0 ≤ x) (hy : 0 ≤ y) :
    0 ≤ funNC G x y := by
  apply div_nonneg (mul_nonneg hx hy)
  positivity

/-- Layer-0 free stubs are nonnegative for an adjacent analysed pair. -/
theorem freeStubs_zero_nonneg (G : Graph) (st : BfsState) (v w : Nat)
    (hadj : G.adj v w = true) (tag : SubTreeRoot) :
    0 ≤ freeStubs G st v w tag 0 := by
  have hv : 1 ≤ deg G v :=
    Finset.card_pos.mpr ⟨w, (mem_nbrs G v w).mpr hadj⟩
  have hw : 1 ≤ deg G w := by
    apply Finset.card_pos.mpr ⟨v, (mem_nbrs G w v).mpr ?_⟩
    rw [G.symm]
    exact hadj
  cases tag with
  | rv =>
      show 0 ≤ (deg G v : ℚ) - 1
      have : (1 : ℚ) ≤ (deg G v : ℚ) := by exact_mod_cast hv
      linarith
  | rw =>
      show 0 ≤ (deg G w : ℚ) - 1
      have : (1 : ℚ) ≤ (deg G w : ℚ) := by exact_mod_cast hw
      linarith
  | rboth => exact le_refl 0

/-- During a real exploration, the edges consumed by a node of layer `i+1`
are distinct edges incident to it, so the layer's free stubs are
nonnegative. -/
theorem freeStubs_succ_nonneg (G : Graph) (v w d0 : Nat)
    (hv : v < G.n) (hw : w < G.n) (i : Nat) (hi : i + 1 ≤ d0)
    (tag : SubTreeRoot) :
    0 ≤ freeStubs G (bfs G v w d0) v w tag (i + 1) := by
  have inv := bfs_inv G v w hv hw d0
  apply Finset.sum_nonneg
  intro nd hnd
  have hndl : nd ∈ (bfs G v w d0).layers (i + 1) :=
    (Finset.mem_filter.mp hnd).1
  have hsphere : nd ∈ sphere (removeEdge G v w) v w (i + 1) := by
    rw [← inv.layers_lo (i + 1) hi]
    exact hndl
  have hdnd : (bfs G v w d0).depth nd = ((i + 1 : Nat) : Int) :=
    inv.depth_in (i + 1) hi nd hsphere
  have hkey : 2 * (i + 1) - 1 = 2 * i + 1 := by omega
  rw [hkey]
  have hcard : (((bfs G v w d0).elayers (2 * i + 1)).filter
      (fun p => p.1 = nd ∨ p.2 = nd)).card ≤ deg G nd := by
    apply Finset.card_le_card_of_injOn (fun p => p.1)
    · intro p hp
      rcases Finset.mem_filter.mp hp with ⟨hpe, hcase⟩
      rcases inv.edges.1 i p hpe with ⟨hadjp, hd1, hd2⟩
      have hp2 : p.2 = nd := by
        rcases hcase with h | h
        · exfalso
          rw [h, hdnd] at hd1
          push_cast at hd1
          omega
        · exact h
      rw [mem_nbrs, G.symm]
      apply removeEdge_adj G v w
      rw [← hp2]
      exact hadjp
    · intro p hp q hq hpq
      rcases Finset.mem_filter.mp hp with ⟨hpe, hcasep⟩
      rcases Finset.mem_filter.mp hq with ⟨hqe, hcaseq⟩
      rcases inv.edges.1 i p hpe with ⟨_, hd1p, _⟩
      rcases inv.edges.1 i q hqe with ⟨_, hd1q, _⟩
      have hp2 : p.2 = nd := by
        rcases hcasep with h | h
        · exfalso
          rw [h, hdnd] at hd1p
          push_cast at hd1p
          omega
        · exact h
      have hq2 : q.2 = nd := by
        rcases hcaseq with h | h
        · exfalso
          rw [h, hdnd] at hd1q
          push_cast at hd1q
          omega
        · exact h
      exact Prod.ext hpq (hp2.trans hq2.symm)
  have : ((((bfs G v w d0).elayers (2 * i + 1)).filter
      (fun p => p.1 = nd ∨ p.2 = nd)).card : ℚ) ≤ (deg G nd : ℚ) := by
    exact_mod_cast hcard
  linarith

/-- One score term `(observed - estimated) / total` is at most 1 when the
estimate is nonnegative and the observed edges are a subset of the layer. -/
theorem score_term_le_one {obs tot : Nat} {e : ℚ} (he : 0 ≤ e)
    (hsub : obs ≤ tot) : ((obs : ℚ) - e) / (tot : ℚ) ≤ 1 := by
  rcases Nat.eq_zero_or_pos tot with h0 | hpos
  · subst h0
    norm_num
  · rw [div_le_one (by exact_mod_cast hpos)]
    have : (obs : ℚ) ≤ (tot : ℚ) := by exact_mod_cast hsub
    linarith

/-- **C2 (amended).** For an adjacent analysed pair and a damping parameter
`a ∈ [0, 1]`, at the exploration depths for which the estimator completes
(`d0 = 1` or `d0 = 2`; for other depths the source raises `KeyError`), the
returned score is at most 1.  The claimed lower bound 0 does not hold, see
`neighborhood_connectivity_not_nonneg`. -/
theorem neighborhood_connectivity_le_one (G : Graph) (v w : Nat) (d0 : Nat)
    (hadj : G.adj v w = true) (a : ℚ) (ha0 : 0 ≤ a) (ha1 : a ≤ 1)
    (hd0 : d0 = 1 ∨ d0 = 2) :
    neighborhood_connectivity G v w (bfs G v w d0) d0 a ≤ 1 := by
  have hv : v < G.n := (G.adj_lt v w hadj).1
  have hw : w < G.n := (G.adj_lt v w hadj).2
  have hobs : ∀ t, (ncEdgesAt (bfs G v w d0) t).card
      ≤ ((bfs G v w d0).elayers t).card := fun t => Finset.card_filter_le _ _
  have hsum_deg : (0 : ℚ) ≤ ((bfs G v w d0).layers 1).sum
      (fun nd => (deg G nd : ℚ)) := by
    apply Finset.sum_nonneg
    intro nd _
    positivity
  have hest1 : 0 ≤ estConn G (bfs G v w d0) v w 1 := by
    show 0 ≤ if (1 : Nat) % 2 = 0 then _ else _
    rw [if_neg (by omega)]
    apply funNC_nonneg
    · have h1 := freeStubs_zero_nonneg G (bfs G v w d0) v w hadj SubTreeRoot.rv
      have h2 := freeStubs_zero_nonneg G (bfs G v w d0) v w hadj SubTreeRoot.rw
      have h3 := freeStubs_zero_nonneg G (bfs G v w d0) v w hadj SubTreeRoot.rboth
      linarith
    · exact hsum_deg
  have hterm1 : (((ncEdgesAt (bfs G v w d0) 1).card : ℚ)
      - estConn G (bfs G v w d0) v w 1)
        / (((bfs G v w d0).elayers 1).card : ℚ) ≤ 1 :=
    score_term_le_one hest1 (hobs 1)
  simp only [neighborhood_connectivity]
  split_ifs with h1 h2
  · -- both layer terms are available
    have hd01 : 1 ≤ d0 := by omega
    have hest2 : 0 ≤ estConn G (bfs G v w d0) v w 2 := by
      show 0 ≤ if (2 : Nat) % 2 = 0 then _ else _
      rw [if_pos (by omega)]
      have h1v := freeStubs_succ_nonneg G v w d0 hv hw 0 hd01 SubTreeRoot.rv
      have h1w := freeStubs_succ_nonneg G v w d0 hv hw 0 hd01 SubTreeRoot.rw
      have h1b := freeStubs_succ_nonneg G v w d0 hv hw 0 hd01 SubTreeRoot.rboth
      have e1 : (2 : Nat) / 2 = 1 := by omega
      rw [e1]
      have := funNC_nonneg G h1v h1w
      have := funNC_nonneg G h1b (by linarith : (0:ℚ) ≤
        freeStubs G (bfs G v w d0) v w SubTreeRoot.rv 1
          + freeStubs G (bfs G v w d0) v w SubTreeRoot.rw 1
          + freeStubs G (bfs G v w d0) v w SubTreeRoot.rboth 1)
      linarith
    have hterm2 : (((ncEdgesAt (bfs G v w d0) 2).card : ℚ)
        - estConn G (bfs G v w d0) v w 2)
          / (((bfs G v w d0).elayers 2).card : ℚ) ≤ 1 :=
      score_term_le_one hest2 (hobs 2)
    have hb1 : a * ((((ncEdgesAt (bfs G v w d0) 1).card : ℚ)
        - estConn G (bfs G v w d0) v w 1))
          / (((bfs G v w d0).elayers 1).card : ℚ) ≤ a := by
      rw [mul_div_assoc]
      calc a * ((((ncEdgesAt (bfs G v w d0) 1).card : ℚ)
          - estConn G (bfs G v w d0) v w 1)
            / (((bfs G v w d0).elayers 1).card : ℚ))
          ≤ a * 1 := mul_le_mul_of_nonneg_left hterm1 ha0
        _ = a := mul_one a
    have hb2 : (1 - a) * ((((ncEdgesAt (bfs G v w d0) 2).card : ℚ)
        - estConn G (bfs G v w d0) v w 2))
          / (((bfs G v w d0).elayers 2).card : ℚ) ≤ 1 - a := by
      rw [mul_div_assoc]
      calc (1 - a) * ((((ncEdgesAt (bfs G v w d0) 2).card : ℚ)
          - estConn G (bfs G v w d0) v w 2)
            / (((bfs G v w d0).elayers 2).card : ℚ))
          ≤ (1 - a) * 1 := mul_le_mul_of_nonneg_left hterm2 (by linarith)
        _ = 1 - a := mul_one _
    linarith
  · linarith
  · linarith

theorem neighborhood_connectivity_le_one_witness :
    (mkGraph 2 [(0, 1)]).adj 0 1 = true ∧ (0 : ℚ) ≤ 1/2 ∧ (1/2 : ℚ) ≤ 1 ∧
      ((2 : Nat) = 1 ∨ (2 : Nat) = 2) ∧
      neighborhood_connectivity (mkGraph 2 [(0, 1)]) 0 1
        (bfs (mkGraph 2 [(0, 1)]) 0 1 2) 2 (1/2) ≤ 1 :=
  ⟨by decide, by norm_num, by norm_num, by omega,
    neighborhood_connectivity_le_one (mkGraph 2 [(0, 1)]) 0 1 2 (by decide)
      (1/2) (by norm_num) (by norm_num) (by omega)⟩

/-!
### `neighborhoodConnectivity.simulated_annealing`

`simulated_annealing(G, warmstart, n_iterations, temp)` (lines 333-414)
searches over boolean states with single-bit-flip proposals.  The ambient
randomness is embedded explicitly: `flips i` is the bit index drawn by
`randrange(n)` at iteration `i`, and `orc i arg` is the outcome of the
comparison `rand() < math.exp(arg)` at iteration `i` — any realisation of
the random stream and of floating-point `exp` is some such function.  Note
that the source applies `math.exp` to `arg = -diff/t` unconditionally (line
396) with no clamping; `math.exp` raises `OverflowError` for arguments above
`log(sys.float_info.max) ≈ 709.78`.
-/

/-- The simplified QUBO of lines 355-359: diagonal bias `-1`, entry `+2` at
the reported direction of every edge crossing two ground-truth blocks
(networkx yields each undirected edge once; the direction does not affect
the quadratic form). -/
def saQ (G : Graph) (block : Nat → Nat) (i j : Nat) : ℤ :=
  if i = j ∧ i < G.n then -1
  else if i < j ∧ G.adj i j = true ∧ block i ≠ block j then 2 else 0

/-- `f(solution) = solution @ Q @ solution` (line 361). -/
def saObjective (G : Graph) (block : Nat → Nat) (x : Nat → Bool) : ℤ :=
  (Finset.range G.n).sum (fun i => (Finset.range G.n).sum (fun j =>
    (if x i then 1 else 0) * saQ G block i j * (if x j then 1 else 0)))

/-- `find_constraint_violations(G, list(x))` with a boolean state vector:
Python's `x[i] == 0` holds exactly for the `False` entries. -/
def violationsB (G : Graph) (block : Nat → Nat) (x : Nat → Bool) :
    Nat × Nat × Nat :=
  find_constraint_violations G block (fun i => if x i then 1 else 0)

/-- The mutable state of the annealing loop. -/
structure SAState where
  curr : Nat → Bool
  curr_eval : ℤ
  curr_sep : Nat
  curr_inj : Nat
  curr_sur : Nat
  best : Nat → Bool
  best_eval : ℤ
  best_sep : Nat
  best_inj : Nat
  best_sur : Nat

/-- Lines 363-372: the warmstart (or all-zero) state and its metrics; `best`
starts as a copy of `curr`. -/
def saInit (G : Graph) (block : Nat → Nat) (x0 : Nat → Bool) : SAState :=
  { curr := x0
    curr_eval := saObjective G block x0
    curr_sep := (violationsB G block x0).1
    curr_inj := (violationsB G block x0).2.1
    curr_sur := (violationsB G block x0).2.2
    best := x0
    best_eval := saObjective G block x0
    best_sep := (violationsB G block x0).1
    best_inj := (violationsB G block x0).2.1
    best_sur := (violationsB G block x0).2.2 }

/-- The candidate at one iteration: flip the drawn bit of the current state
(lines 377-379). -/
def saCand (flips : Nat → Nat) (i : Nat) (st : SAState) : Nat → Bool :=
  Function.update st.curr (flips i) (!(st.curr (flips i)))

/-- The best-ever replacement test of lines 384-385: candidate objective ≤
best objective and component-wise dominance of all three violation counts. -/
def saDominates (G : Graph) (block : Nat → Nat) (flips : Nat → Nat) (i : Nat)
    (st : SAState) : Prop :=
  saObjective G block (saCand flips i st) ≤ st.best_eval ∧
  (violationsB G block (saCand flips i st)).1 ≤ st.best_sep ∧
  (violationsB G block (saCand flips i st)).2.2 ≤ st.best_sur ∧
  (violationsB G block (saCand flips i st)).2.1 ≤ st.best_inj

instance (G : Graph) (block : Nat → Nat) (flips : Nat → Nat) (i : Nat)
    (st : SAState) : Decidable (saDominates G block flips i st) := by
  unfold saDominates
  infer_instance

/-- The current-state acceptance test of lines 397-402: the total violation
count must not increase, and then either the objective does not increase or
the Metropolis draw succeeds. -/
def saAccepts (G : Graph) (block : Nat → Nat) (temp : ℚ) (flips : Nat → Nat)
    (orc : Nat → ℚ → Bool) (i : Nat) (st : SAState) : Prop :=
  ((((violationsB G block (saCand flips i st)).1
      + (violationsB G block (saCand flips i st)).2.2
      + (violationsB G block (saCand flips i st)).2.1 : Nat) : ℤ)
    - ((st.curr_sep + st.curr_inj + st.curr_sur : Nat) : ℤ) ≤ 0) ∧
  (saObjective G block (saCand flips i st) - st.curr_eval ≤ 0 ∨
    orc i (-(((saObjective G block (saCand flips i st) - st.curr_eval : ℤ)) : ℚ)
      / (temp / ((i : ℚ) + 1))) = true)

instance (G : Graph) (block : Nat → Nat) (temp : ℚ) (flips : Nat → Nat)
    (orc : Nat → ℚ → Bool) (i : Nat) (st : SAState) :
    Decidable (saAccepts G block temp flips orc i st) := by
  unfold saAccepts
  infer_instance

/-- One iteration of the annealing loop (lines 374-405). -/
def saStep (G : Graph) (block : Nat → Nat) (temp : ℚ) (flips : Nat → Nat)
    (orc : Nat → ℚ → Bool) (i : Nat) (st : SAState) : SAState :=
  let st1 :=
    if saDominates G block flips i st then
      { st with
        best := saCand flips i st
        best_eval := saObjective G block (saCand flips i st)
        best_sep := (violationsB G block (saCand flips i st)).1
        best_sur := (violationsB G block (saCand flips i st)).2.2
        best_inj := (violationsB G block (saCand flips i st)).2.1 }
    else st
  if saAccepts G block temp flips orc i st then
    { st1 with
      curr := saCand flips i st
      curr_eval := saObjective G block (saCand flips i st)
      curr_sep := (violationsB G block (saCand flips i st)).1
      curr_inj := (violationsB G block (saCand flips i st)).2.1
      curr_sur := (violationsB G block (saCand flips i st)).2.2 }
  else st1

/-- The state of the annealing loop before iteration `k`. -/
def saRun (G : Graph) (block : Nat → Nat) (temp : ℚ) (x0 : Nat → Bool)
    (flips : Nat → Nat) (orc : Nat → ℚ → Bool) : Nat → SAState
  | 0 => saInit G block x0
  | k + 1 => saStep G block temp flips orc k
      (saRun G block temp x0 flips orc k)

/-- The argument handed to `math.exp` at iteration `i` (line 396):
`-diff / t` with `t = temp / (i + 1)`.  The source computes
`math.exp(-diff / t)` unconditionally, before any acceptance test. -/
def saExpArg (G : Graph) (block : Nat → Nat) (temp : ℚ) (x0 : Nat → Bool)
    (flips : Nat → Nat) (orc : Nat → ℚ → Bool) (i : Nat) : ℚ :=
  -(((saObjective G block
      (saCand flips i (saRun G block temp x0 flips orc i))
    - (saRun G block temp x0 flips orc i).curr_eval : ℤ)) : ℚ)
    / (temp / ((i : ℚ) + 1))

theorem saStep_best_fields (G : Graph) (block : Nat → Nat) (temp : ℚ)
    (flips : Nat → Nat) (orc : Nat → ℚ → Bool) (i : Nat) (st : SAState) :
    (saStep G block temp flips orc i st).best_eval =
        (if saDominates G block flips i st then
          saObjective G block (saCand flips i st) else st.best_eval) ∧
      (saStep G block temp flips orc i st).best_sep =
        (if saDominates G block flips i st then
          (violationsB G block (saCand flips i st)).1 else st.best_sep) ∧
      (saStep G block temp flips orc i st).best_sur =
        (if saDominates G block flips i st then
          (violationsB G block (saCand flips i st)).2.2 else st.best_sur) ∧
      (saStep G block temp flips orc i st).best_inj =
        (if saDominates G block flips i st then
          (violationsB G block (saCand flips i st)).2.1 else st.best_inj) ∧
      (saStep G block temp flips orc i st).best =
        (if saDominates G block flips i st then
          saCand flips i st else st.best) := by
  simp only [saStep]
  split_ifs with h1 h2 <;> exact ⟨rfl, rfl, rfl, rfl, rfl⟩

/-- If neither the best-ever test nor the acceptance test fires, the
iteration leaves the state unchanged. -/
theorem saStep_of_reject (G : Graph) (block : Nat → Nat) (temp : ℚ)
    (flips : Nat → Nat) (orc : Nat → ℚ → Bool) (i : Nat) (st : SAState)
    (hdom : ¬ saDominates G block flips i st)
    (hacc : ¬ saAccepts G block temp flips orc i st) :
    saStep G block temp flips orc i st = st := by
  simp only [saStep]
  rw [if_neg hdom, if_neg hacc]

/-- **C4.** The best-ever record changes only when the candidate dominates
it (objective ≤ best objective and all three violation counts component-wise
≤), and consequently along any run — whatever the graph, warmstart, random
bit choices and Metropolis draws — the best objective and all three best
violation counts are non-increasing. -/
theorem simulated_annealing_best_dominant_monotone (G : Graph)
    (block : Nat → Nat) (temp : ℚ) (x0 : Nat → Bool) (flips : Nat → Nat)
    (orc : Nat → ℚ → Bool) :
    (∀ i : Nat,
      ((saRun G block temp x0 flips orc (i + 1)).best
          = (saRun G block temp x0 flips orc i).best ∧
        (saRun G block temp x0 flips orc (i + 1)).best_eval
          = (saRun G block temp x0 flips orc i).best_eval ∧
        (saRun G block temp x0 flips orc (i + 1)).best_sep
          = (saRun G block temp x0 flips orc i).best_sep ∧
        (saRun G block temp x0 flips orc (i + 1)).best_inj
          = (saRun G block temp x0 flips orc i).best_inj ∧
        (saRun G block temp x0 flips orc (i + 1)).best_sur
          = (saRun G block temp x0 flips orc i).best_sur) ∨
      (saDominates G block flips i (saRun G block temp x0 flips orc i) ∧
        (saRun G block temp x0 flips orc (i + 1)).best_eval
          = saObjective G block
              (saCand flips i (saRun G block temp x0 flips orc i)) ∧
        (saRun G block temp x0 flips orc (i + 1)).best_sep
          = (violationsB G block
              (saCand flips i (saRun G block temp x0 flips orc i))).1 ∧
        (saRun G block temp x0 flips orc (i + 1)).best_inj
          = (violationsB G block
              (saCand flips i (saRun G block temp x0 flips orc i))).2.1 ∧
        (saRun G block temp x0 flips orc (i + 1)).best_sur
          = (violationsB G block
              (saCand flips i (saRun G block temp x0 flips orc i))).2.2)) ∧
    (∀ i j : Nat, i ≤ j →
      (saRun G block temp x0 flips orc j).best_eval
          ≤ (saRun G block temp x0 flips orc i).best_eval ∧
      (saRun G block temp x0 flips orc j).best_sep
          ≤ (saRun G block temp x0 flips orc i).best_sep ∧
      (saRun G block temp x0 flips orc j).best_inj
          ≤ (saRun G block temp x0 flips orc i).best_inj ∧
      (saRun G block temp x0 flips orc j).best_sur
          ≤ (saRun G block temp x0 flips orc i).best_sur) := by
  have hrun : ∀ i, saRun G block temp x0 flips orc (i + 1)
      = saStep G block temp flips orc i (saRun G block temp x0 flips orc i) :=
    fun i => rfl
  have hstep : ∀ i : Nat,
      (saRun G block temp x0 flips orc (i + 1)).best_eval
          ≤ (saRun G block temp x0 flips orc i).best_eval ∧
      (saRun G block temp x0 flips orc (i + 1)).best_sep
          ≤ (saRun G block temp x0 flips orc i).best_sep ∧
      (saRun G block temp x0 flips orc (i + 1)).best_inj
          ≤ (saRun G block temp x0 flips orc i).best_inj ∧
      (saRun G block temp x0 flips orc (i + 1)).best_sur
          ≤ (saRun G block temp x0 flips orc i).best_sur := by
    intro i
    rcases saStep_best_fields G block temp flips orc i
      (saRun G block temp x0 flips orc i) with ⟨he, hs, hu, hj, _⟩
    rw [hrun i]
    rw [he, hs, hu, hj]
    by_cases hdom : saDominates G block flips i (saRun G block temp x0 flips orc i)
    · rw [if_pos hdom, if_pos hdom, if_pos hdom, if_pos hdom]
      exact ⟨hdom.1, hdom.2.1, hdom.2.2.2, hdom.2.2.1⟩
    · rw [if_neg hdom, if_neg hdom, if_neg hdom, if_neg hdom]
      exact ⟨le_rfl, le_rfl, le_rfl, le_rfl⟩
  constructor
  · intro i
    rcases saStep_best_fields G block temp flips orc i
      (saRun G block temp x0 flips orc i) with ⟨he, hs, hu, hj, hb⟩
    by_cases hdom : saDominates G block flips i (saRun G block temp x0 flips orc i)
    · right
      refine ⟨hdom, ?_, ?_, ?_, ?_⟩ <;> rw [hrun i]
      · rw [he, if_pos hdom]
      · rw [hs, if_pos hdom]
      · rw [hj, if_pos hdom]
      · rw [hu, if_pos hdom]
    · left
      refine ⟨?_, ?_, ?_, ?_, ?_⟩ <;> rw [hrun i]
      · rw [hb, if_neg hdom]
      · rw [he, if_neg hdom]
      · rw [hs, if_neg hdom]
      · rw [hj, if_neg hdom]
      · rw [hu, if_neg hdom]
  · intro i j hij
    induction j with
    | zero =>
        have : i = 0 := by omega
        subst this
        exact ⟨le_rfl, le_rfl, le_rfl, le_rfl⟩
    | succ m ih =>
        rcases Nat.lt_or_ge i (m + 1) with hlt | hge
        · have hm := ih (by omega)
          have hs := hstep m
          exact ⟨hs.1.trans hm.1, hs.2.1.trans hm.2.1,
            hs.2.2.1.trans hm.2.2.1, hs.2.2.2.trans hm.2.2.2⟩
        · have : i = m + 1 := by omega
          subst this
          exact ⟨le_rfl, le_rfl, le_rfl, le_rfl⟩

/-- A two-node graph (one edge, both nodes in ground-truth block 0) on which
the annealing loop's Metropolis argument exceeds the `math.exp` overflow
threshold. -/
def saOverflowGraph : Graph := mkGraph 2 [(0, 1)]

def saOverflowBlock : Nat → Nat := fun _ => 0

/-- Warmstart `[False, True]`: node 0 a separator, node 1 kept. -/
def saOverflowStart : Nat → Bool := fun n => decide (n = 1)

/-- The random bit indices: propose bit 1 until iteration 709, then bit 0. -/
def saOverflowFlips : Nat → Nat := fun i => if i = 709 then 0 else 1

/-- Metropolis draws that never accept (any draws work: on this run the
comparison is never reached before iteration 709). -/
def saOverflowOrc : Nat → ℚ → Bool := fun _ _ => false

theorem simulated_annealing_best_dominant_monotone_witness :
    (0 : Nat) ≤ 1 ∧
    ((saRun saOverflowGraph saOverflowBlock 1 saOverflowStart saOverflowFlips
        saOverflowOrc 1).best_eval
      ≤ (saRun saOverflowGraph saOverflowBlock 1 saOverflowStart
          saOverflowFlips saOverflowOrc 0).best_eval ∧
    (saRun saOverflowGraph saOverflowBlock 1 saOverflowStart saOverflowFlips
        saOverflowOrc 1).best_sep
      ≤ (saRun saOverflowGraph saOverflowBlock 1 saOverflowStart
          saOverflowFlips saOverflowOrc 0).best_sep ∧
    (saRun saOverflowGraph saOverflowBlock 1 saOverflowStart saOverflowFlips
        saOverflowOrc 1).best_inj
      ≤ (saRun saOverflowGraph saOverflowBlock 1 saOverflowStart
          saOverflowFlips saOverflowOrc 0).best_inj ∧
    (saRun saOverflowGraph saOverflowBlock 1 saOverflowStart saOverflowFlips
        saOverflowOrc 1).best_sur
      ≤ (saRun saOverflowGraph saOverflowBlock 1 saOverflowStart
          saOverflowFlips saOverflowOrc 0).best_sur) :=
  ⟨by omega,
    (simulated_annealing_best_dominant_monotone saOverflowGraph
      saOverflowBlock 1 saOverflowStart saOverflowFlips saOverflowOrc).2
        0 1 (by omega)⟩

/-- On the overflow run, the chain never leaves the warmstart state during
the first 709 iterations: every proposal there flips bit 1, which raises the
total violation count, so both the best-ever test and the acceptance gate
reject it (independently of the Metropolis draws). -/
theorem saOverflow_stationary : ∀ i, i ≤ 709 →
    saRun saOverflowGraph saOverflowBlock 1 saOverflowStart saOverflowFlips
        saOverflowOrc i
      = saInit saOverflowGraph saOverflowBlock saOverflowStart := by
  intro i
  induction i with
  | zero => intro _; rfl
  | succ m ih =>
      intro hm
      have hrun : saRun saOverflowGraph saOverflowBlock 1 saOverflowStart
          saOverflowFlips saOverflowOrc (m + 1)
          = saStep saOverflowGraph saOverflowBlock 1 saOverflowFlips
              saOverflowOrc m
              (saRun saOverflowGraph saOverflowBlock 1 saOverflowStart
                saOverflowFlips saOverflowOrc m) := rfl
      rw [hrun, ih (by omega)]
      have hflip : saOverflowFlips m = 1 := by
        unfold saOverflowFlips
        rw [if_neg (by omega)]
      have hcand : saCand saOverflowFlips m
          (saInit saOverflowGraph saOverflowBlock saOverflowStart)
          = Function.update
              (saInit saOverflowGraph saOverflowBlock saOverflowStart).curr 1
              (!((saInit saOverflowGraph saOverflowBlock
                saOverflowStart).curr 1)) := by
        unfold saCand
        rw [hflip]
      apply saStep_of_reject
      · unfold saDominates
        rw [hcand]
        decide
      · unfold saAccepts
        rw [hcand]
        intro hc
        exact absurd hc.1 (by decide)

/-- **C3.** The Metropolis computation is not clamped: at iteration 709 of
the run started from `[False, True]` on `saOverflowGraph` with `temp = 1`
(and any Metropolis draws realising the rejections), the source evaluates
`math.exp(-diff / t)` at argument `710`, which exceeds the IEEE-double
overflow threshold `log(sys.float_info.max) ≈ 709.78`, so the call raises
`OverflowError` instead of treating the acceptance probability as the spec
requires. -/
theorem metropolis_overflow_argument :
    saExpArg saOverflowGraph saOverflowBlock 1 saOverflowStart
      saOverflowFlips saOverflowOrc 709 = 710 := by
  unfold saExpArg
  rw [saOverflow_stationary 709 le_rfl]
  have hflip : saOverflowFlips 709 = 0 := by
    unfold saOverflowFlips
    rw [if_pos rfl]
  have hcand : saCand saOverflowFlips 709
      (saInit saOverflowGraph saOverflowBlock saOverflowStart)
      = Function.update
          (saInit saOverflowGraph saOverflowBlock saOverflowStart).curr 0
          (!((saInit saOverflowGraph saOverflowBlock
            saOverflowStart).curr 0)) := by
    unfold saCand
    rw [hflip]
  rw [hcand]
  have hdiff : saObjective saOverflowGraph saOverflowBlock
      (Function.update
        (saInit saOverflowGraph saOverflowBlock saOverflowStart).curr 0
        (!((saInit saOverflowGraph saOverflowBlock saOverflowStart).curr 0)))
      - (saInit saOverflowGraph saOverflowBlock saOverflowStart).curr_eval
      = -1 := by decide
  rw [hdiff]
  norm_num

/-!
### `neighborhoodConnectivity.greedy_separation_node_classification`

`greedy_separation_node_classification(H, classification)` (lines 266-330)
first reclassifies isolated non-separator nodes as separators — mutating the
caller's classification in place — then grows the connected components of
the residual subgraph by repeatedly assigning the separator node with the
globally highest `connection_summary` count.  The dictionaries are embedded
as total functions, Python list iteration as list folds in `H.nodes()`
(ascending) order, and the `KeyError` (`communities[k]` on a missing index)
and `ValueError` (`list.remove` of an absent element) exits as `none`.
-/

/-- The nodes isolated in the subgraph induced by the non-separator nodes
(lines 285-287): classified 1 with no classified-1 neighbour. -/
def isolatedNodes (H : Graph) (x : Nat → Nat) : Finset Nat :=
  (Finset.range H.n).filter (fun i => x i = 1 ∧
    ((nbrs H i).filter (fun j => x j = 1)).card = 0)

/-- The classification after the in-place mutation of lines 290-291: every
isolated non-separator node is relabelled 0. -/
def greedyReclassified (H : Graph) (x : Nat → Nat) : Nat → Nat :=
  fun i => if i ∈ isolatedNodes H x then 0 else x i

/-- `separation_node_set` (line 293), in `H.nodes()` order, read from the
already-mutated classification. -/
def sepList (H : Graph) (x : Nat → Nat) : List Nat :=
  (List.range H.n).filter (fun i => greedyReclassified H x i = 0)

/-- The kept nodes of the residual subgraph `G` (lines 285-289): classified
1 and not isolated. -/
def keepG (H : Graph) (x : Nat → Nat) : Nat → Bool :=
  fun i => decide (greedyReclassified H x i = 1)

/-- `communities` (line 297): the connected components of the residual
subgraph, listed in networkx enumeration order (each node in ascending
order contributes its component unless already listed). -/
def communitiesList (H : Graph) (x : Nat → Nat) : List (Finset Nat) :=
  (List.range H.n).foldl (fun acc v =>
    if keepG H x v = true then
      (if reachSet H (keepG H x) v ∈ acc then acc
       else acc ++ [reachSet H (keepG H x) v])
    else acc) []

/-- The scan state: `connection_summary` and the tracked
`(most_certain_node_connectedness, most_certain_node,
most_certain_community)` triple.  The connectedness starts from and is reset
to `-1`, hence lives in `ℤ`. -/
structure ScanState where
  cs : Nat → Nat → Nat
  mcc : ℤ
  mcn : Nat
  mck : Nat

/-- Lines 309-313 / 324-328: bump `connection_summary[i][k]` and update the
tracked best on a strict improvement. -/
def scanBump (st : ScanState) (i k : Nat) : ScanState :=
  let cs1 := Function.update st.cs i
    (Function.update (st.cs i) k (st.cs i k + 1))
  if ((st.cs i k + 1 : Nat) : ℤ) > st.mcc then
    { cs := cs1, mcc := ((st.cs i k + 1 : Nat) : ℤ), mcn := i, mck := k }
  else { st with cs := cs1 }

/-- One separator node's scan pass: for each neighbour, for each community
(in index order), bump if the neighbour lies in the community. -/
def scanNode (H : Graph) (coms : List (Finset Nat)) (st : ScanState)
    (i : Nat) : ScanState :=
  (nbrsList H i).foldl (fun st j =>
    (List.range coms.length).foldl (fun st k =>
      if j ∈ coms.getD k ∅ then scanBump st i k else st) st) st

/-- A full scan over the current separator list (lines 305-313 and
320-328). -/
def scan (H : Graph) (coms : List (Finset Nat)) (sep : List Nat)
    (st : ScanState) : ScanState :=
  sep.foldl (scanNode H coms) st

/-- One iteration of the assignment loop (lines 315-328): add the tracked
node to the tracked community and drop it from the separator list — Python
raises `KeyError` for an invalid community index and `ValueError` when the
node is no longer in the list (both embedded as `none`) — then reset the
connectedness to `-1` and rescan. -/
def greedyIter (H : Graph)
    (state : List (Finset Nat) × List Nat × ScanState) :
    Option (List (Finset Nat) × List Nat × ScanState) :=
  if state.2.2.mck < state.1.length ∧ state.2.2.mcn ∈ state.2.1 then
    let coms1 := state.1.set state.2.2.mck
      (insert state.2.2.mcn (state.1.getD state.2.2.mck ∅))
    let sep1 := state.2.1.erase state.2.2.mcn
    some (coms1, sep1, scan H coms1 sep1 { state.2.2 with mcc := -1 })
  else none

def greedyLoop (H : Graph) :
    Nat → (List (Finset Nat) × List Nat × ScanState) →
      Option (List (Finset Nat) × List Nat × ScanState)
  | 0, state => some state
  | fuel + 1, state =>
      match greedyIter H state with
      | none => none
      | some s => greedyLoop H fuel s

/-- The triple `(most_certain_node_connectedness, most_certain_node,
most_certain_community)` starts as `(-1, 0, 0)` (lines 299-301). -/
def greedyInitState : ScanState :=
  { cs := fun _ _ => 0, mcc := -1, mcn := 0, mck := 0 }

/-- The whole of `greedy_separation_node_classification`: initial scan, then
`len(initial_separation_node_set)` assignment iterations; the returned value
is the final `communities`, or `none` when the Python code raises. -/
def greedy_separation_node_classification (H : Graph) (x : Nat → Nat) :
    Option (List (Finset Nat)) :=
  match greedyLoop H (sepList H x).length
      (communitiesList H x, sepList H x,
        scan H (communitiesList H x) (sepList H x) greedyInitState) with
  | none => none
  | some s => some s.1

/-- **C5, counterexample.** On the 2-node path with the all-separator
classification (a classification with full domain and values in `{0, 1}`),
the Python code raises `KeyError: 0` at `communities[0].add(...)` — there
are no communities — so no partition is returned. -/
theorem greedy_all_separators_raises :
    greedy_separation_node_classification (mkGraph 2 [(0, 1)]) (fun _ => 0)
      = none := by decide

/-- **C10.** When some non-separator node is isolated in the induced
non-separator subgraph, the greedy assigner rewrites the caller-supplied
classification in place: that node's label becomes 0, so the classification
object is not left unchanged by the call. -/
theorem greedy_mutates_classification (H : Graph) (x : Nat → Nat) (i : Nat)
    (hi : i ∈ isolatedNodes H x) :
    greedyReclassified H x i = 0 ∧ greedyReclassified H x ≠ x := by
  have hx1 : x i = 1 := (Finset.mem_filter.mp hi).2.1
  constructor
  · rw [greedyReclassified]
    rw [if_pos hi]
  · intro h
    have := congrFun h i
    rw [greedyReclassified] at this
    rw [if_pos hi, hx1] at this
    cases this

theorem greedy_mutates_classification_witness :
    0 ∈ isolatedNodes (mkGraph 2 [(0, 1)]) (fun n => if n = 0 then 1 else 0) ∧
    (greedyReclassified (mkGraph 2 [(0, 1)])
        (fun n => if n = 0 then 1 else 0) 0 = 0 ∧
      greedyReclassified (mkGraph 2 [(0, 1)]) (fun n => if n = 0 then 1 else 0)
        ≠ (fun n => if n = 0 then 1 else 0)) :=
  ⟨by decide,
    greedy_mutates_classification (mkGraph 2 [(0, 1)])
      (fun n => if n = 0 then 1 else 0) 0 (by decide)⟩

/-!
### Correctness of the greedy assignment loop

The lemmas below establish the facts behind the amended partition claim:
the initial communities partition the kept nodes, every scan over a
nonempty separator list of a connected graph finds a positive connection
count, and each loop iteration moves exactly one node from the separator
list into one community.
-/

theorem mem_foldr_union (l : List (Finset Nat)) (u : Nat) :
    u ∈ l.foldr (· ∪ ·) ∅ ↔ ∃ c ∈ l, u ∈ c := by
  induction l with
  | nil => simp
  | cons c l ih =>
      simp only [List.foldr_cons, Finset.mem_union, List.mem_cons, ih]
      constructor
      · rintro (h | ⟨d, hd, hu⟩)
        · exact ⟨c, Or.inl rfl, h⟩
        · exact ⟨d, Or.inr hd, hu⟩
      · rintro ⟨d, rfl | hd, hu⟩
        · exact Or.inl hu
        · exact Or.inr ⟨d, hd, hu⟩

theorem mem_communitiesList (H : Graph) (x : Nat → Nat) (c : Finset Nat) :
    c ∈ communitiesList H x ↔
      ∃ v, v < H.n ∧ keepG H x v = true ∧
        c = reachSet H (keepG H x) v := by
  have key : ∀ (L : List Nat) (acc : List (Finset Nat)),
      c ∈ L.foldl (fun acc v =>
        if keepG H x v = true then
          (if reachSet H (keepG H x) v ∈ acc then acc
           else acc ++ [reachSet H (keepG H x) v])
        else acc) acc ↔
      c ∈ acc ∨ ∃ v ∈ L, keepG H x v = true ∧
        c = reachSet H (keepG H x) v := by
    intro L
    induction L with
    | nil => simp
    | cons v L ih =>
        intro acc
        rw [List.foldl_cons, ih]
        by_cases hk : keepG H x v = true
        · rw [if_pos hk]
          by_cases hmem : reachSet H (keepG H x) v ∈ acc
          · rw [if_pos hmem]
            constructor
            · rintro (h | h)
              · exact Or.inl h
              · rcases h with ⟨u, hu, hku, rfl⟩
                exact Or.inr ⟨u, List.mem_cons_of_mem v hu, hku, rfl⟩
            · rintro (h | ⟨u, hu, hku, rfl⟩)
              · exact Or.inl h
              · rcases List.mem_cons.mp hu with rfl | hu
                · exact Or.inl hmem
                · exact Or.inr ⟨u, hu, hku, rfl⟩
          · rw [if_neg hmem]
            constructor
            · rintro (h | h)
              · rcases List.mem_append.mp h with h | h
                · exact Or.inl h
                · rw [List.mem_singleton] at h
                  exact Or.inr ⟨v, List.mem_cons_self v L, hk, h⟩
              · rcases h with ⟨u, hu, hku, rfl⟩
                exact Or.inr ⟨u, List.mem_cons_of_mem v hu, hku, rfl⟩
            · rintro (h | ⟨u, hu, hku, rfl⟩)
              · exact Or.inl (List.mem_append.mpr (Or.inl h))
              · rcases List.mem_cons.mp hu with rfl | hu
                · exact Or.inl (List.mem_append.mpr
                    (Or.inr (List.mem_singleton.mpr rfl)))
                · exact Or.inr ⟨u, hu, hku, rfl⟩
        · rw [if_neg hk]
          constructor
          · rintro (h | h)
            · exact Or.inl h
            · rcases h with ⟨u, hu, hku, rfl⟩
              exact Or.inr ⟨u, List.mem_cons_of_mem v hu, hku, rfl⟩
          · rintro (h | ⟨u, hu, hku, rfl⟩)
            · exact Or.inl h
            · rcases List.mem_cons.mp hu with rfl | hu
              · exact absurd hku hk
              · exact Or.inr ⟨u, hu, hku, rfl⟩
  rw [communitiesList, key]
  constructor
  · rintro (h | ⟨v, hv, hk, rfl⟩)
    · exact absurd h (List.not_mem_nil c)
    · exact ⟨v, List.mem_range.mp hv, hk, rfl⟩
  · rintro ⟨v, hv, hk, rfl⟩
    exact Or.inr ⟨v, List.mem_range.mpr hv, hk, rfl⟩

theorem communitiesList_nodup (H : Graph) (x : Nat → Nat) :
    (communitiesList H x).Nodup := by
  have key : ∀ (L : List Nat) (acc : List (Finset Nat)), acc.Nodup →
      (L.foldl (fun acc v =>
        if keepG H x v = true then
          (if reachSet H (keepG H x) v ∈ acc then acc
           else acc ++ [reachSet H (keepG H x) v])
        else acc) acc).Nodup := by
    intro L
    induction L with
    | nil => intro acc h; exact h
    | cons v L ih =>
        intro acc hacc
        rw [List.foldl_cons]
        apply ih
        by_cases hk : keepG H x v = true
        · rw [if_pos hk]
          by_cases hmem : reachSet H (keepG H x) v ∈ acc
          · rw [if_pos hmem]
            exact hacc
          · rw [if_neg hmem]
            rw [List.nodup_append]
            exact ⟨hacc, List.nodup_singleton _, by
              intro a ha hb
              rw [List.mem_singleton] at hb
              subst hb
              exact hmem ha⟩
        · rw [if_neg hk]
          exact hacc
  exact key (List.range H.n) [] List.nodup_nil

theorem communitiesList_mem_nonempty (H : Graph) (x : Nat → Nat)
    {c : Finset Nat} (hc : c ∈ communitiesList H x) : c.Nonempty := by
  rcases (mem_communitiesList H x c).mp hc with ⟨v, _, _, rfl⟩
  exact ⟨v, mem_self_reachSet H (keepG H x) v⟩

theorem communitiesList_mem_subset (H : Graph) (x : Nat → Nat)
    {c : Finset Nat} (hc : c ∈ communitiesList H x) {u : Nat} (hu : u ∈ c) :
    u < H.n ∧ keepG H x u = true := by
  rcases (mem_communitiesList H x c).mp hc with ⟨v, hv, hk, rfl⟩
  exact ⟨Finset.mem_range.mp (reachSet_subset_range H (keepG H x) v hv hu),
    mem_reachSet_keep H (keepG H x) v u hk hu⟩

theorem communitiesList_disjoint (H : Graph) (x : Nat → Nat)
    {c1 c2 : Finset Nat} (h1 : c1 ∈ communitiesList H x)
    (h2 : c2 ∈ communitiesList H x) (hne : c1 ≠ c2) : Disjoint c1 c2 := by
  rcases (mem_communitiesList H x c1).mp h1 with ⟨v1, hv1, hk1, rfl⟩
  rcases (mem_communitiesList H x c2).mp h2 with ⟨v2, hv2, hk2, rfl⟩
  rw [Finset.disjoint_left]
  intro u hu1 hu2
  exact hne ((reachSet_eq_of_mem H (keepG H x) hv1 hk1 hu1).symm.trans
    (reachSet_eq_of_mem H (keepG H x) hv2 hk2 hu2))

theorem communitiesList_union (H : Graph) (x : Nat → Nat) :
    (communitiesList H x).foldr (· ∪ ·) ∅ =
      (Finset.range H.n).filter (fun i => keepG H x i = true) := by
  apply Finset.ext
  intro u
  rw [mem_foldr_union, Finset.mem_filter, Finset.mem_range]
  constructor
  · rintro ⟨c, hc, hu⟩
    exact communitiesList_mem_subset H x hc hu
  · rintro ⟨hu, hk⟩
    exact ⟨reachSet H (keepG H x) u,
      (mem_communitiesList H x _).mpr ⟨u, hu, hk, rfl⟩,
      mem_self_reachSet H (keepG H x) u⟩

/-- Connectivity of a graph, as used by the greedy assignment analysis. -/
def ConnectedGraph (H : Graph) : Prop :=
  ∀ u ∈ Finset.range H.n, ∀ v ∈ Finset.range H.n,
    v ∈ reachSet H (fun _ => true) u

instance (H : Graph) : Decidable (ConnectedGraph H) := by
  unfold ConnectedGraph
  infer_instance

/-- In a connected graph, any nonempty partition block has an edge to its
nonempty complement. -/
theorem exists_boundary_edge (H : Graph) (hconn : ConnectedGraph H)
    (A B : Finset Nat) (hpart : A ∪ B = Finset.range H.n)
    (hdisj : ∀ u, u ∈ A → u ∉ B) (hA : A.Nonempty) (hB : B.Nonempty) :
    ∃ s ∈ B, ∃ c ∈ A, H.adj c s = true := by
  by_contra hno
  push_neg at hno
  rcases hA with ⟨a, ha⟩
  rcases hB with ⟨b, hb⟩
  have han : a < H.n := by
    have : a ∈ A ∪ B := Finset.mem_union_left B ha
    rw [hpart] at this
    exact Finset.mem_range.mp this
  have hbn : b < H.n := by
    have : b ∈ A ∪ B := Finset.mem_union_right A hb
    rw [hpart] at this
    exact Finset.mem_range.mp this
  have hsub : reachSet H (fun _ => true) a ⊆ A := by
    apply reachSet_subset_closed
    · intro u y hu _ hy hadj
      have hyr : y ∈ A ∪ B := by
        rw [hpart]
        exact Finset.mem_range.mpr hy
      rcases Finset.mem_union.mp hyr with h | h
      · exact h
      · exact absurd hadj (hno y h u hu)
    · exact ha
  exact hdisj b
    (hsub (hconn a (Finset.mem_range.mpr han) b (Finset.mem_range.mpr hbn)))
    hb

/-- Validity of a tracked scan triple relative to the current separator list
and community count: either untouched (`-1`) or pointing at a listed
separator node and an existing community. -/
def ScanValid (sep : List Nat) (m : Nat) (st : ScanState) : Prop :=
  st.mcc = -1 ∨ (0 ≤ st.mcc ∧ st.mcn ∈ sep ∧ st.mck < m)

theorem scanBump_mcc_le (st : ScanState) (i k : Nat) :
    st.mcc ≤ (scanBump st i k).mcc := by
  unfold scanBump
  split_ifs with h
  · exact le_of_lt h
  · exact le_rfl

theorem scanBump_mcc_nonneg (st : ScanState) (i k : Nat) :
    0 ≤ (scanBump st i k).mcc := by
  unfold scanBump
  split_ifs with h
  · positivity
  · push_neg at h
    show 0 ≤ st.mcc
    have : (0 : ℤ) ≤ ((st.cs i k + 1 : Nat) : ℤ) := by positivity
    omega

theorem scanBump_valid (sep : List Nat) (m : Nat) (st : ScanState)
    (i k : Nat) (hi : i ∈ sep) (hk : k < m) (h : ScanValid sep m st) :
    ScanValid sep m (scanBump st i k) := by
  unfold scanBump
  split_ifs with hlt
  · exact Or.inr ⟨by positivity, hi, hk⟩
  · exact h

theorem foldl_mcc_le {α : Type} (g : ScanState → α → ScanState)
    (hg : ∀ st a, st.mcc ≤ (g st a).mcc) :
    ∀ (L : List α) (st : ScanState), st.mcc ≤ (L.foldl g st).mcc := by
  intro L
  induction L with
  | nil => intro st; exact le_rfl
  | cons a L ih =>
      intro st
      rw [List.foldl_cons]
      exact (hg st a).trans (ih (g st a))

theorem foldl_pres_mem {α : Type} (P : ScanState → Prop)
    (g : ScanState → α → ScanState) :
    ∀ (L : List α), (∀ st a, a ∈ L → P st → P (g st a)) →
      ∀ st, P st → P (L.foldl g st) := by
  intro L
  induction L with
  | nil => intro _ st h; exact h
  | cons a L ih =>
      intro hg st h
      rw [List.foldl_cons]
      exact ih (fun st b hb hP => hg st b (List.mem_cons_of_mem a hb) hP)
        (g st a) (hg st a (List.mem_cons_self a L) h)

theorem scanK_mono (coms : List (Finset Nat)) (i j : Nat) (st : ScanState) :
    st.mcc ≤ ((List.range coms.length).foldl
      (fun st k => if j ∈ coms.getD k ∅ then scanBump st i k else st)
        st).mcc := by
  apply foldl_mcc_le
  intro st k
  split_ifs with h
  · exact scanBump_mcc_le st i k
  · exact le_rfl

theorem scanNode_mono (H : Graph) (coms : List (Finset Nat)) (i : Nat)
    (st : ScanState) : st.mcc ≤ (scanNode H coms st i).mcc := by
  unfold scanNode
  apply foldl_mcc_le
  intro st j
  exact scanK_mono coms i j st

theorem scan_mono (H : Graph) (coms : List (Finset Nat)) (sep : List Nat)
    (st : ScanState) : st.mcc ≤ (scan H coms sep st).mcc := by
  unfold scan
  apply foldl_mcc_le
  intro st i
  exact scanNode_mono H coms i st

theorem scanK_valid (coms : List (Finset Nat)) (sep : List Nat) (i j : Nat)
    (hi : i ∈ sep) (st : ScanState)
    (h : ScanValid sep coms.length st) :
    ScanValid sep coms.length ((List.range coms.length).foldl
      (fun st k => if j ∈ coms.getD k ∅ then scanBump st i k else st) st) := by
  refine foldl_pres_mem (ScanValid sep coms.length) _ _ ?_ st h
  intro st k hk hP
  split_ifs with hc
  · exact scanBump_valid sep coms.length st i k hi (List.mem_range.mp hk) hP
  · exact hP

theorem scanNode_valid (H : Graph) (coms : List (Finset Nat))
    (sep : List Nat) (i : Nat) (hi : i ∈ sep) (st : ScanState)
    (h : ScanValid sep coms.length st) :
    ScanValid sep coms.length (scanNode H coms st i) := by
  unfold scanNode
  refine foldl_pres_mem (ScanValid sep coms.length) _ _ ?_ st h
  intro st j _ hP
  exact scanK_valid coms sep i j hi st hP

theorem scan_valid (H : Graph) (coms : List (Finset Nat)) (sep : List Nat)
    (st : ScanState) (h : ScanValid sep coms.length st) :
    ScanValid sep coms.length (scan H coms sep st) := by
  unfold scan
  refine foldl_pres_mem (ScanValid sep coms.length) _ _ ?_ st h
  intro st i hi hP
  exact scanNode_valid H coms sep i hi st hP

theorem foldl_progress {α : Type} (g : ScanState → α → ScanState)
    (cond : α → Prop)
    (hg_pos : ∀ st a, cond a → 0 ≤ (g st a).mcc)
    (hg_mono : ∀ st a, st.mcc ≤ (g st a).mcc) :
    ∀ (L : List α) (st : ScanState), (∃ a ∈ L, cond a) →
      0 ≤ (L.foldl g st).mcc := by
  intro L
  induction L with
  | nil =>
      rintro st ⟨a, ha, _⟩
      exact absurd ha (List.not_mem_nil a)
  | cons a L ih =>
      rintro st ⟨b, hb, hcb⟩
      rw [List.foldl_cons]
      by_cases hca : cond a
      · exact (hg_pos st a hca).trans (foldl_mcc_le g hg_mono L (g st a))
      · rcases List.mem_cons.mp hb with rfl | hb
        · exact absurd hcb hca
        · exact ih (g st a) ⟨b, hb, hcb⟩

theorem scanK_progress (coms : List (Finset Nat)) (i j : Nat)
    (st : ScanState) (h : ∃ k, k < coms.length ∧ j ∈ coms.getD k ∅) :
    0 ≤ ((List.range coms.length).foldl
      (fun st k => if j ∈ coms.getD k ∅ then scanBump st i k else st)
        st).mcc := by
  refine foldl_progress _ (fun k => j ∈ coms.getD k ∅) ?_ ?_ _ st ?_
  · intro st k hc
    rw [if_pos hc]
    exact scanBump_mcc_nonneg st i k
  · intro st k
    split_ifs with hc
    · exact scanBump_mcc_le st i k
    · exact le_rfl
  · rcases h with ⟨k, hk, hc⟩
    exact ⟨k, List.mem_range.mpr hk, hc⟩

theorem scanNode_progress (H : Graph) (coms : List (Finset Nat))
    (st : ScanState) (i : Nat)
    (h : ∃ j ∈ nbrsList H i, ∃ k, k < coms.length ∧ j ∈ coms.getD k ∅) :
    0 ≤ (scanNode H coms st i).mcc := by
  unfold scanNode
  refine foldl_progress _
    (fun j => ∃ k, k < coms.length ∧ j ∈ coms.getD k ∅) ?_ ?_ _ st h
  · intro st j hc
    exact scanK_progress coms i j st hc
  · intro st j
    exact scanK_mono coms i j st

theorem scan_progress (H : Graph) (coms : List (Finset Nat)) (sep : List Nat)
    (st : ScanState)
    (h : ∃ i ∈ sep, ∃ j ∈ nbrsList H i,
      ∃ k, k < coms.length ∧ j ∈ coms.getD k ∅) :
    0 ≤ (scan H coms sep st).mcc := by
  unfold scan
  refine foldl_progress _
    (fun i => ∃ j ∈ nbrsList H i, ∃ k, k < coms.length ∧ j ∈ coms.getD k ∅)
    ?_ ?_ _ st h
  · intro st i hc
    exact scanNode_progress H coms st i hc
  · intro st i
    exact scanNode_mono H coms i st

theorem mem_union_iff_idx (coms : List (Finset Nat)) (u : Nat) :
    u ∈ coms.foldr (· ∪ ·) ∅ ↔
      ∃ k, k < coms.length ∧ u ∈ coms.getD k ∅ := by
  rw [mem_foldr_union]
  constructor
  · rintro ⟨c, hc, hu⟩
    rcases List.mem_iff_getElem.mp hc with ⟨k, hk, he⟩
    refine ⟨k, hk, ?_⟩
    rw [List.getD_eq_getElem coms ∅ hk, he]
    exact hu
  · rintro ⟨k, hk, hu⟩
    refine ⟨coms.getD k ∅, ?_, hu⟩
    rw [List.getD_eq_getElem coms ∅ hk]
    exact List.getElem_mem hk

/-- The loop invariant of the greedy assignment: the communities together
with the remaining separator nodes partition the node set. -/
structure GInv (H : Graph) (m : Nat) (coms : List (Finset Nat))
    (sep : List Nat) : Prop where
  union_eq : coms.foldr (· ∪ ·) ∅ ∪ sep.toFinset = Finset.range H.n
  idx_disj : ∀ k1 k2, k1 < coms.length → k2 < coms.length → k1 ≠ k2 →
    Disjoint (coms.getD k1 ∅) (coms.getD k2 ∅)
  sep_com : ∀ c ∈ coms, ∀ i ∈ sep, i ∉ c
  sep_nodup : sep.Nodup
  coms_ne : ∀ c ∈ coms, c.Nonempty
  len_eq : coms.length = m

/-- The separator-side progress trigger exists whenever the separator list is
nonempty: connectivity yields a boundary edge from the separator block into
some community. -/
theorem greedy_trigger (H : Graph) (hconn : ConnectedGraph H) (m : Nat)
    (coms : List (Finset Nat)) (sep : List Nat) (hinv : GInv H m coms sep)
    (hA : (coms.foldr (· ∪ ·) ∅).Nonempty) (hne : sep ≠ []) :
    ∃ i ∈ sep, ∃ j ∈ nbrsList H i,
      ∃ k, k < coms.length ∧ j ∈ coms.getD k ∅ := by
  have hdisjAB : ∀ u, u ∈ coms.foldr (· ∪ ·) ∅ → u ∉ sep.toFinset := by
    intro u hu hus
    rcases (mem_foldr_union coms u).mp hu with ⟨c, hc, huc⟩
    exact hinv.sep_com c hc u (List.mem_toFinset.mp hus) huc
  have hBne : sep.toFinset.Nonempty := by
    rcases List.exists_mem_of_ne_nil sep hne with ⟨b, hb⟩
    exact ⟨b, List.mem_toFinset.mpr hb⟩
  rcases exists_boundary_edge H hconn _ _ hinv.union_eq hdisjAB hA hBne
    with ⟨s, hsB, c, hcA, hadj⟩
  refine ⟨s, List.mem_toFinset.mp hsB, c, ?_, ?_⟩
  · rw [mem_nbrsList, H.symm]
    exact hadj
  · exact (mem_union_iff_idx coms c).mp hcA

/-- One successful iteration: the invariant is transported, the separator
list shrinks by one, and — when separators remain — the rescan produces a
valid tracked triple. -/
theorem greedyIter_spec (H : Graph) (hconn : ConnectedGraph H) (m : Nat)
    (coms : List (Finset Nat)) (sep : List Nat) (st : ScanState)
    (hinv : GInv H m coms sep) (hmem : st.mcn ∈ sep)
    (hk : st.mck < coms.length) :
    greedyIter H (coms, sep, st)
      = some (coms.set st.mck (insert st.mcn (coms.getD st.mck ∅)),
          sep.erase st.mcn,
          scan H (coms.set st.mck (insert st.mcn (coms.getD st.mck ∅)))
            (sep.erase st.mcn) { st with mcc := -1 }) ∧
    GInv H m (coms.set st.mck (insert st.mcn (coms.getD st.mck ∅)))
      (sep.erase st.mcn) ∧
    (sep.erase st.mcn).length + 1 = sep.length ∧
    ((sep.erase st.mcn) ≠ [] →
      0 ≤ (scan H (coms.set st.mck (insert st.mcn (coms.getD st.mck ∅)))
            (sep.erase st.mcn) { st with mcc := -1 }).mcc ∧
      (scan H (coms.set st.mck (insert st.mcn (coms.getD st.mck ∅)))
            (sep.erase st.mcn) { st with mcc := -1 }).mcn
          ∈ sep.erase st.mcn ∧
      (scan H (coms.set st.mck (insert st.mcn (coms.getD st.mck ∅)))
            (sep.erase st.mcn) { st with mcc := -1 }).mck
          < (coms.set st.mck (insert st.mcn (coms.getD st.mck ∅))).length) := by
  set ck := coms.getD st.mck ∅ with hck
  set coms1 := coms.set st.mck (insert st.mcn ck) with hcoms1
  set sep1 := sep.erase st.mcn with hsep1
  have hlen1 : coms1.length = coms.length := List.length_set coms _ _
  have hgetD1 : ∀ k, k < coms.length →
      coms1.getD k ∅ = if st.mck = k then insert st.mcn ck
        else coms.getD k ∅ := by
    intro k hkl
    have hkl1 : k < coms1.length := by rw [hlen1]; exact hkl
    rw [List.getD_eq_getElem coms1 ∅ hkl1]
    by_cases h : st.mck = k
    · rw [if_pos h]
      subst h
      simp [hcoms1, List.getElem_set]
    · rw [if_neg h]
      rw [List.getD_eq_getElem coms ∅ hkl]
      simp [hcoms1, List.getElem_set, h]
  have hmem_coms1 : ∀ c, c ∈ coms1 → c = insert st.mcn ck ∨ c ∈ coms := by
    intro c hc
    rcases List.mem_or_eq_of_mem_set hc with h | h
    · exact Or.inr h
    · exact Or.inl h
  have hmcn_notin : ∀ c ∈ coms, st.mcn ∉ c :=
    fun c hc => hinv.sep_com c hc st.mcn hmem
  have hck_mem : ck ∈ coms := by
    rw [hck, List.getD_eq_getElem coms ∅ hk]
    exact List.getElem_mem hk
  have hsep1_mem : ∀ i, i ∈ sep1 ↔ i ≠ st.mcn ∧ i ∈ sep := by
    intro i
    rw [hsep1]
    exact List.Nodup.mem_erase_iff hinv.sep_nodup
  have hins_mem : insert st.mcn ck ∈ coms1 := by
    have h1 : coms1.getD st.mck ∅ = insert st.mcn ck := by
      rw [hgetD1 st.mck hk, if_pos rfl]
    rw [← h1, List.getD_eq_getElem coms1 ∅ (by rw [hlen1]; exact hk)]
    exact List.getElem_mem _
  -- the transported invariant
  have hinv1 : GInv H m coms1 sep1 := by
    constructor
    · -- union
      apply Finset.ext
      intro u
      rw [Finset.mem_union, mem_union_iff_idx, List.mem_toFinset, hsep1_mem,
        ← hinv.union_eq, Finset.mem_union, mem_union_iff_idx,
        List.mem_toFinset]
      constructor
      · rintro (⟨k, hkl, hu⟩ | ⟨hne, hs⟩)
        · rw [hlen1] at hkl
          rw [hgetD1 k hkl] at hu
          by_cases hkk : st.mck = k
          · rw [if_pos hkk] at hu
            rcases Finset.mem_insert.mp hu with rfl | hu
            · exact Or.inr hmem
            · exact Or.inl ⟨k, hkl, by rw [← hkk, ← hck]; exact hu⟩
          · rw [if_neg hkk] at hu
            exact Or.inl ⟨k, hkl, hu⟩
        · exact Or.inr hs
      · rintro (⟨k, hkl, hu⟩ | hs)
        · refine Or.inl ⟨k, by rw [hlen1]; exact hkl, ?_⟩
          rw [hgetD1 k hkl]
          split_ifs with hkk
          · refine Finset.mem_insert_of_mem ?_
            rw [hck, hkk]
            exact hu
          · exact hu
        · by_cases hu : u = st.mcn
          · subst hu
            refine Or.inl ⟨st.mck, by rw [hlen1]; exact hk, ?_⟩
            rw [hgetD1 st.mck hk, if_pos rfl]
            exact Finset.mem_insert_self _ _
          · exact Or.inr ⟨hu, hs⟩
    · -- index disjointness
      intro k1 k2 hk1 hk2 hne12
      rw [hlen1] at hk1 hk2
      rw [hgetD1 k1 hk1, hgetD1 k2 hk2]
      have hd := hinv.idx_disj k1 k2 hk1 hk2 hne12
      split_ifs with h1 h2 h2
      · exact absurd (h1.symm.trans h2) hne12
      · -- k1 is the modified index
        rw [Finset.disjoint_insert_left]
        refine ⟨?_, by rw [hck, h1]; exact hd⟩
        apply hmcn_notin
        rw [List.getD_eq_getElem coms ∅ hk2]
        exact List.getElem_mem hk2
      · rw [Finset.disjoint_insert_right]
        refine ⟨?_, by rw [hck, h2]; exact hd⟩
        apply hmcn_notin
        rw [List.getD_eq_getElem coms ∅ hk1]
        exact List.getElem_mem hk1
      · exact hd
    · -- separators avoid communities
      intro c hc i hi
      rcases (hsep1_mem i).mp hi with ⟨hine, his⟩
      rcases hmem_coms1 c hc with rfl | hcold
      · intro hin
        rcases Finset.mem_insert.mp hin with rfl | hin
        · exact hine rfl
        · exact hinv.sep_com ck hck_mem i his hin
      · exact hinv.sep_com c hcold i his
    · exact List.Nodup.erase st.mcn hinv.sep_nodup
    · intro c hc
      rcases hmem_coms1 c hc with rfl | hcold
      · exact Finset.insert_nonempty _ _
      · exact hinv.coms_ne c hcold
    · rw [hlen1]
      exact hinv.len_eq
  refine ⟨?_, hinv1, ?_, ?_⟩
  · rw [greedyIter, if_pos ⟨hk, hmem⟩]
  · rw [hsep1, List.length_erase_of_mem hmem]
    have : sep.length ≠ 0 := by
      intro h
      rw [List.length_eq_zero] at h
      rw [h] at hmem
      exact List.not_mem_nil _ hmem
    omega
  · intro hne1
    have hA : (coms1.foldr (· ∪ ·) ∅).Nonempty := by
      refine ⟨st.mcn, (mem_foldr_union coms1 st.mcn).mpr
        ⟨insert st.mcn ck, hins_mem, Finset.mem_insert_self _ _⟩⟩
    have htrig := greedy_trigger H hconn m coms1 sep1 hinv1 hA hne1
    have hprog := scan_progress H coms1 sep1 { st with mcc := -1 } htrig
    have hval := scan_valid H coms1 sep1 { st with mcc := -1 } (Or.inl rfl)
    rcases hval with hval | hval
    · rw [hval] at hprog
      omega
    · exact ⟨hprog, hval.2.1, hval.2.2⟩

theorem greedyLoop_spec (H : Graph) (hconn : ConnectedGraph H) (m : Nat) :
    ∀ (fuel : Nat) (coms : List (Finset Nat)) (sep : List Nat)
      (st : ScanState), GInv H m coms sep → sep.length = fuel →
      (sep ≠ [] → 0 ≤ st.mcc ∧ st.mcn ∈ sep ∧ st.mck < coms.length) →
      ∃ coms1 st1,
        greedyLoop H fuel (coms, sep, st) = some (coms1, [], st1) ∧
        GInv H m coms1 [] := by
  intro fuel
  induction fuel with
  | zero =>
      intro coms sep st hinv hlen _
      have hsep : sep = [] := List.length_eq_zero.mp hlen
      subst hsep
      exact ⟨coms, st, rfl, hinv⟩
  | succ f ih =>
      intro coms sep st hinv hlen hvalid
      have hne : sep ≠ [] := by
        intro h
        rw [h] at hlen
        cases hlen
      obtain ⟨_, hmem, hk⟩ := hvalid hne
      obtain ⟨hiter, hinv1, hlen1, hval1⟩ :=
        greedyIter_spec H hconn m coms sep st hinv hmem hk
      have hstep : greedyLoop H (f + 1) (coms, sep, st)
          = greedyLoop H f
            (coms.set st.mck (insert st.mcn (coms.getD st.mck ∅)),
              sep.erase st.mcn,
              scan H (coms.set st.mck (insert st.mcn (coms.getD st.mck ∅)))
                (sep.erase st.mcn) { st with mcc := -1 }) := by
      -- one unfolding of the loop
        show (match greedyIter H (coms, sep, st) with
          | none => none
          | some s => greedyLoop H f s) = _
        rw [hiter]
      rw [hstep]
      exact ih _ _ _ hinv1 (by omega) hval1

theorem sepList_nodup (H : Graph) (x : Nat → Nat) : (sepList H x).Nodup :=
  List.Nodup.filter _ (List.nodup_range H.n)

theorem greedy_init_inv (H : Graph) (x : Nat → Nat)
    (hbin : ∀ i, i < H.n → x i ≤ 1) :
    GInv H (communitiesList H x).length (communitiesList H x)
      (sepList H x) := by
  constructor
  · rw [communitiesList_union]
    apply Finset.ext
    intro u
    simp only [Finset.mem_union, Finset.mem_filter, Finset.mem_range,
      List.mem_toFinset, sepList, List.mem_filter, List.mem_range,
      decide_eq_true_eq]
    constructor
    · rintro (⟨h, _⟩ | ⟨h, _⟩) <;> exact h
    · intro hu
      by_cases hkeep : keepG H x u = true
      · exact Or.inl ⟨hu, hkeep⟩
      · refine Or.inr ⟨hu, ?_⟩
        unfold keepG at hkeep
        rw [decide_eq_true_eq] at hkeep
        unfold greedyReclassified at hkeep ⊢
        split_ifs at hkeep ⊢ with hiso
        · rfl
        · have := hbin u hu
          omega
  · intro k1 k2 hk1 hk2 hne12
    rw [List.getD_eq_getElem _ ∅ hk1, List.getD_eq_getElem _ ∅ hk2]
    apply communitiesList_disjoint H x (List.getElem_mem hk1)
      (List.getElem_mem hk2)
    intro heq
    exact hne12 (((communitiesList_nodup H x).getElem_inj_iff).mp heq)
  · intro c hc i hi hic
    have hk := (communitiesList_mem_subset H x hc hic).2
    unfold keepG at hk
    rw [decide_eq_true_eq] at hk
    rw [sepList, List.mem_filter, decide_eq_true_eq] at hi
    rw [hi.2] at hk
    cases hk
  · exact sepList_nodup H x
  · intro c hc
    exact communitiesList_mem_nonempty H x hc
  · rfl

/-- **C5, amended.**  On a connected graph with a 0/1 classification that
leaves at least one edge inside the classified-1 block, the greedy
classifier terminates normally and its returned community list is a
partition of the node set: the communities cover every node and are
pairwise disjoint. -/
theorem greedy_partition (H : Graph) (x : Nat → Nat)
    (hconn : ConnectedGraph H)
    (hbin : ∀ i, i < H.n → x i ≤ 1)
    (hedge : ∃ u v, H.adj u v = true ∧ x u = 1 ∧ x v = 1) :
    ∃ coms, greedy_separation_node_classification H x = some coms ∧
      coms.foldr (· ∪ ·) ∅ = Finset.range H.n ∧
      List.Pairwise Disjoint coms := by
  have hinv0 := greedy_init_inv H x hbin
  have hA : ((communitiesList H x).foldr (· ∪ ·) ∅).Nonempty := by
    obtain ⟨u, v, hadj, hu, hv⟩ := hedge
    refine ⟨u, ?_⟩
    rw [communitiesList_union]
    refine Finset.mem_filter.mpr
      ⟨Finset.mem_range.mpr (H.adj_lt u v hadj).1, ?_⟩
    have hiso : u ∉ isolatedNodes H x := by
      intro hmem
      rw [isolatedNodes, Finset.mem_filter] at hmem
      have hvmem : v ∈ (nbrs H u).filter (fun j => x j = 1) :=
        Finset.mem_filter.mpr ⟨(mem_nbrs H u v).mpr hadj, hv⟩
      have : ((nbrs H u).filter (fun j => x j = 1)).card ≠ 0 :=
        Finset.card_ne_zero_of_mem hvmem
      exact this hmem.2.2
    unfold keepG greedyReclassified
    rw [if_neg hiso, hu]
    rfl
  have hvalid0 : sepList H x ≠ [] →
      0 ≤ (scan H (communitiesList H x) (sepList H x)
            greedyInitState).mcc ∧
      (scan H (communitiesList H x) (sepList H x) greedyInitState).mcn
        ∈ sepList H x ∧
      (scan H (communitiesList H x) (sepList H x) greedyInitState).mck
        < (communitiesList H x).length := by
    intro hne
    have htrig := greedy_trigger H hconn _ (communitiesList H x)
      (sepList H x) hinv0 hA hne
    have hprog := scan_progress H (communitiesList H x) (sepList H x)
      greedyInitState htrig
    have hst := scan_valid H (communitiesList H x) (sepList H x)
      greedyInitState (Or.inl rfl)
    rcases hst with h | h
    · rw [h] at hprog
      omega
    · exact ⟨hprog, h.2.1, h.2.2⟩
  obtain ⟨coms1, st1, hloop, hinv1⟩ :=
    greedyLoop_spec H hconn (communitiesList H x).length
      (sepList H x).length (communitiesList H x) (sepList H x)
      (scan H (communitiesList H x) (sepList H x) greedyInitState)
      hinv0 rfl hvalid0
  refine ⟨coms1, ?_, ?_, ?_⟩
  · unfold greedy_separation_node_classification
    rw [hloop]
  · have h := hinv1.union_eq
    simpa using h
  · rw [List.pairwise_iff_getElem]
    intro i j hi hj hij
    have hd := hinv1.idx_disj i j hi hj (by omega)
    rwa [List.getD_eq_getElem _ ∅ hi, List.getD_eq_getElem _ ∅ hj] at hd

/-- The path `0 — 1 — 2` used to instantiate the greedy partition theorem. -/
def greedyPathGraph : Graph := mkGraph 3 [(0, 1), (1, 2)]

theorem greedy_partition_witness :
    ∃ coms, greedy_separation_node_classification greedyPathGraph
        (fun i => if i < 2 then 1 else 0) = some coms ∧
      coms.foldr (· ∪ ·) ∅ = Finset.range greedyPathGraph.n ∧
      List.Pairwise Disjoint coms :=
  greedy_partition greedyPathGraph (fun i => if i < 2 then 1 else 0)
    (by decide) (fun i _ => by beta_reduce; split_ifs <;> decide)
    ⟨0, 1, by decide, rfl, rfl⟩

/-- `len(set(G.neighbors(node)) & community)` (line 307 / 322): the number of
`i`'s full-graph neighbours currently inside community `c`. -/
def curCount (H : Graph) (coms : List (Finset Nat)) (i c : Nat) : Nat :=
  ((nbrsList H i).filter (fun j => decide (j ∈ coms.getD c ∅))).length

/-- The trajectory of the `while` loop (lines 303-328): the
`(communities, separation_node_set, summary)` state after `k` completed
assignment iterations, each iteration being `greedyIter`; `none` once the
Python code has raised. -/
def greedyStates (H : Graph) (x : Nat → Nat) :
    Nat → Option (List (Finset Nat) × List Nat × ScanState)
  | 0 => some (communitiesList H x, sepList H x,
      scan H (communitiesList H x) (sepList H x) greedyInitState)
  | k + 1 =>
      match greedyStates H x k with
      | none => none
      | some s => greedyIter H s

/-- The 6-node instance of the accumulated-count anomaly: community block
`{0, 1}`, separator nodes `2, 3, 4, 5`; node `5` touches only the
late-assigned separators `2` and `3`. -/
def cumGraph : Graph :=
  mkGraph 6 [(0, 1), (2, 0), (2, 1), (3, 0), (3, 1), (4, 0), (5, 2), (5, 3)]

theorem scanBump_cs (st : ScanState) (i k : Nat) :
    (scanBump st i k).cs = Function.update st.cs i
      (Function.update (st.cs i) k (st.cs i k + 1)) := by
  unfold scanBump
  split_ifs <;> rfl

theorem scanBump_cs_self (st : ScanState) (i k : Nat) :
    (scanBump st i k).cs i k = st.cs i k + 1 := by
  rw [scanBump_cs, Function.update_same, Function.update_same]

theorem scanBump_cs_row (st : ScanState) (i k i' : Nat) (h : i' ≠ i) :
    (scanBump st i k).cs i' = st.cs i' := by
  rw [scanBump_cs, Function.update_noteq h]

theorem scanBump_cs_cell (st : ScanState) (i k k' : Nat) (h : k' ≠ k) :
    (scanBump st i k).cs i k' = st.cs i k' := by
  rw [scanBump_cs, Function.update_same, Function.update_noteq h]

theorem scanBump_mcc_ge (st : ScanState) (i k : Nat) :
    ((st.cs i k + 1 : Nat) : ℤ) ≤ (scanBump st i k).mcc := by
  unfold scanBump
  split_ifs with h
  · exact le_rfl
  · push_neg at h
    exact h

/-- The tracked connectedness is either still the sentinel `-1` or the
summary entry of the tracked `(node, community)` pair. -/
def TrackAttains (st : ScanState) : Prop :=
  st.mcc = -1 ∨ st.mcc = ((st.cs st.mcn st.mck : Nat) : ℤ)

theorem scanBump_attains (st : ScanState) (i k : Nat) (h : TrackAttains st) :
    TrackAttains (scanBump st i k) := by
  unfold TrackAttains scanBump
  split_ifs with hlt
  · refine Or.inr ?_
    show ((st.cs i k + 1 : Nat) : ℤ) =
      ((Function.update st.cs i
        (Function.update (st.cs i) k (st.cs i k + 1)) i k : Nat) : ℤ)
    rw [Function.update_same, Function.update_same]
  · rcases h with h | h
    · exfalso
      rw [h] at hlt
      push_neg at hlt
      have h0 : (0 : ℤ) ≤ ((st.cs i k + 1 : Nat) : ℤ) := Int.natCast_nonneg _
      omega
    · refine Or.inr ?_
      show st.mcc = ((Function.update st.cs i
        (Function.update (st.cs i) k (st.cs i k + 1)) st.mcn st.mck : Nat) : ℤ)
      by_cases hi : st.mcn = i
      · subst hi
        rw [Function.update_same]
        by_cases hk : st.mck = k
        · subst hk
          exfalso
          push_neg at hlt
          rw [h] at hlt
          push_cast at hlt
          omega
        · rw [Function.update_noteq hk]
          exact h
      · rw [Function.update_noteq hi]
        exact h

theorem scanK_attains (coms : List (Finset Nat)) (i j : Nat)
    (L : List Nat) (st : ScanState) (h : TrackAttains st) :
    TrackAttains (L.foldl
      (fun st k => if j ∈ coms.getD k ∅ then scanBump st i k else st) st) := by
  refine foldl_pres_mem TrackAttains _ _ ?_ st h
  intro st k _ hP
  split_ifs with hc
  · exact scanBump_attains st i k hP
  · exact hP

theorem scanNode_attains (H : Graph) (coms : List (Finset Nat)) (i : Nat)
    (st : ScanState) (h : TrackAttains st) :
    TrackAttains (scanNode H coms st i) := by
  unfold scanNode
  refine foldl_pres_mem TrackAttains _ _ ?_ st h
  intro st j _ hP
  exact scanK_attains coms i j _ st hP

theorem scan_attains (H : Graph) (coms : List (Finset Nat)) (sep : List Nat)
    (st : ScanState) (h : TrackAttains st) :
    TrackAttains (scan H coms sep st) := by
  unfold scan
  refine foldl_pres_mem TrackAttains _ _ ?_ st h
  intro st i _ hP
  exact scanNode_attains H coms i st hP

theorem scanK_cs_notmem (coms : List (Finset Nat)) (i j c : Nat) :
    ∀ (L : List Nat), c ∉ L → ∀ st : ScanState,
      ((L.foldl
        (fun st k => if j ∈ coms.getD k ∅ then scanBump st i k else st)
        st).cs i c) = st.cs i c := by
  intro L
  induction L with
  | nil => intro _ st; rfl
  | cons k L ih =>
      intro hc st
      rw [List.foldl_cons]
      have hck : c ≠ k := fun h => hc (h ▸ List.mem_cons_self k L)
      have hcL : c ∉ L := fun h => hc (List.mem_cons_of_mem k h)
      rw [ih hcL]
      split_ifs with hj
      · exact scanBump_cs_cell st i k c hck
      · rfl

theorem scanK_cs_row (coms : List (Finset Nat)) (i j i' : Nat) (h : i' ≠ i) :
    ∀ (L : List Nat) (st : ScanState),
      ((L.foldl
        (fun st k => if j ∈ coms.getD k ∅ then scanBump st i k else st)
        st).cs i') = st.cs i' := by
  intro L
  induction L with
  | nil => intro st; rfl
  | cons k L ih =>
      intro st
      rw [List.foldl_cons, ih]
      split_ifs with hj
      · exact scanBump_cs_row st i k i' h
      · rfl

theorem scanK_cs_mem (coms : List (Finset Nat)) (i j c : Nat) :
    ∀ (L : List Nat), L.Nodup → c ∈ L → ∀ st : ScanState,
      ((L.foldl
        (fun st k => if j ∈ coms.getD k ∅ then scanBump st i k else st)
        st).cs i c)
      = st.cs i c + (if j ∈ coms.getD c ∅ then 1 else 0) := by
  intro L
  induction L with
  | nil => intro _ hc; exact absurd hc (List.not_mem_nil c)
  | cons k L ih =>
      intro hnd hc st
      have hkL : k ∉ L := (List.nodup_cons.mp hnd).1
      have hndL : L.Nodup := (List.nodup_cons.mp hnd).2
      rw [List.foldl_cons]
      by_cases hck : c = k
      · subst hck
        have hcL : c ∉ L := hkL
        rw [scanK_cs_notmem coms i j c L hcL]
        split_ifs with hj
        · exact scanBump_cs_self st i c
        · rfl
      · have hcL : c ∈ L := by
          rcases List.mem_cons.mp hc with h | h
          · exact absurd h hck
          · exact h
        rw [ih hndL hcL]
        have hstep : ((if j ∈ coms.getD k ∅ then scanBump st i k
            else st)).cs i c = st.cs i c := by
          split_ifs with hj
          · exact scanBump_cs_cell st i k c hck
          · rfl
        rw [hstep]

theorem nbrfold_cs_self (H : Graph) (coms : List (Finset Nat)) (i c : Nat)
    (hc : c < coms.length) :
    ∀ (N : List Nat) (st : ScanState),
      ((N.foldl (fun st j =>
        (List.range coms.length).foldl
          (fun st k => if j ∈ coms.getD k ∅ then scanBump st i k else st) st)
        st).cs i c)
      = st.cs i c
        + (N.filter (fun j => decide (j ∈ coms.getD c ∅))).length := by
  intro N
  induction N with
  | nil => intro st; simp
  | cons j N ih =>
      intro st
      rw [List.foldl_cons, ih]
      rw [scanK_cs_mem coms i j c (List.range coms.length)
        (List.nodup_range coms.length) (List.mem_range.mpr hc)]
      rw [List.filter_cons]
      by_cases hj : j ∈ coms.getD c ∅
      · rw [if_pos hj]
        simp only [hj, decide_True, if_true, List.length_cons]
        omega
      · rw [if_neg hj]
        rw [if_neg (by simpa using hj)]
        omega

theorem nbrfold_cs_row (H : Graph) (coms : List (Finset Nat)) (i i' : Nat)
    (h : i' ≠ i) :
    ∀ (N : List Nat) (st : ScanState),
      ((N.foldl (fun st j =>
        (List.range coms.length).foldl
          (fun st k => if j ∈ coms.getD k ∅ then scanBump st i k else st) st)
        st).cs i') = st.cs i' := by
  intro N
  induction N with
  | nil => intro st; rfl
  | cons j N ih =>
      intro st
      rw [List.foldl_cons, ih, scanK_cs_row coms i j i' h]

theorem scanNode_cs_self (H : Graph) (coms : List (Finset Nat)) (i c : Nat)
    (hc : c < coms.length) (st : ScanState) :
    (scanNode H coms st i).cs i c = st.cs i c + curCount H coms i c := by
  unfold scanNode curCount
  exact nbrfold_cs_self H coms i c hc (nbrsList H i) st

theorem scanNode_cs_row (H : Graph) (coms : List (Finset Nat)) (i i' : Nat)
    (h : i' ≠ i) (st : ScanState) :
    (scanNode H coms st i).cs i' = st.cs i' := by
  unfold scanNode
  exact nbrfold_cs_row H coms i i' h (nbrsList H i) st

theorem scan_cs_notmem (H : Graph) (coms : List (Finset Nat)) :
    ∀ (sep : List Nat) (i : Nat), i ∉ sep → ∀ st : ScanState,
      (scan H coms sep st).cs i = st.cs i := by
  intro sep
  induction sep with
  | nil => intro i _ st; rfl
  | cons i' sep ih =>
      intro i hi st
      have hii' : i ≠ i' := fun h => hi (h ▸ List.mem_cons_self i' sep)
      have hisep : i ∉ sep := fun h => hi (List.mem_cons_of_mem i' h)
      show (scan H coms sep (scanNode H coms st i')).cs i = st.cs i
      rw [ih i hisep, scanNode_cs_row H coms i' i hii']

theorem scan_cs_mem (H : Graph) (coms : List (Finset Nat)) :
    ∀ (sep : List Nat), sep.Nodup → ∀ (i : Nat), i ∈ sep →
      ∀ (c : Nat), c < coms.length → ∀ st : ScanState,
        (scan H coms sep st).cs i c = st.cs i c + curCount H coms i c := by
  intro sep
  induction sep with
  | nil => intro _ i hi; exact absurd hi (List.not_mem_nil i)
  | cons i' sep ih =>
      intro hnd i hi c hc st
      have hi'sep : i' ∉ sep := (List.nodup_cons.mp hnd).1
      have hndsep : sep.Nodup := (List.nodup_cons.mp hnd).2
      show (scan H coms sep (scanNode H coms st i')).cs i c = _
      by_cases hii' : i = i'
      · subst hii'
        have : i ∉ sep := hi'sep
        rw [congrFun (scan_cs_notmem H coms sep i this _) c]
        exact scanNode_cs_self H coms i c hc st
      · have hisep : i ∈ sep := by
          rcases List.mem_cons.mp hi with h | h
          · exact absurd h hii'
          · exact h
        rw [ih hndsep i hisep c hc]
        rw [congrFun (scanNode_cs_row H coms i' i hii' st) c]

theorem scanK_foldl_mono (coms : List (Finset Nat)) (i j : Nat)
    (L : List Nat) (st : ScanState) :
    st.mcc ≤ ((L.foldl
      (fun st k => if j ∈ coms.getD k ∅ then scanBump st i k else st)
        st).mcc) := by
  apply foldl_mcc_le
  intro st k
  split_ifs with h
  · exact scanBump_mcc_le st i k
  · exact le_rfl

theorem scanK_bound (coms : List (Finset Nat)) (i j c : Nat)
    (hj : j ∈ coms.getD c ∅) :
    ∀ (L : List Nat), L.Nodup → c ∈ L → ∀ st : ScanState,
      (((L.foldl
        (fun st k => if j ∈ coms.getD k ∅ then scanBump st i k else st)
        st).cs i c : Nat) : ℤ)
      ≤ (L.foldl
        (fun st k => if j ∈ coms.getD k ∅ then scanBump st i k else st)
        st).mcc := by
  intro L
  induction L with
  | nil => intro _ hc; exact absurd hc (List.not_mem_nil c)
  | cons k L ih =>
      intro hnd hc st
      have hkL : k ∉ L := (List.nodup_cons.mp hnd).1
      have hndL : L.Nodup := (List.nodup_cons.mp hnd).2
      rw [List.foldl_cons]
      by_cases hck : c = k
      · subst hck
        rw [if_pos hj]
        have hcs : ((L.foldl
            (fun st k => if j ∈ coms.getD k ∅ then scanBump st i k else st)
            (scanBump st i c)).cs i c) = st.cs i c + 1 := by
          rw [scanK_cs_notmem coms i j c L hkL, scanBump_cs_self]
        rw [hcs]
        calc ((st.cs i c + 1 : Nat) : ℤ)
            ≤ (scanBump st i c).mcc := scanBump_mcc_ge st i c
          _ ≤ _ := scanK_foldl_mono coms i j L (scanBump st i c)
      · have hcL : c ∈ L := by
          rcases List.mem_cons.mp hc with h | h
          · exact absurd h hck
          · exact h
        exact ih hndL hcL _

theorem nbrfold_bound (H : Graph) (coms : List (Finset Nat)) (i c : Nat)
    (hc : c < coms.length) :
    ∀ (N : List Nat), (∃ j ∈ N, j ∈ coms.getD c ∅) → ∀ st : ScanState,
      (((N.foldl (fun st j =>
        (List.range coms.length).foldl
          (fun st k => if j ∈ coms.getD k ∅ then scanBump st i k else st) st)
        st).cs i c : Nat) : ℤ)
      ≤ ((N.foldl (fun st j =>
        (List.range coms.length).foldl
          (fun st k => if j ∈ coms.getD k ∅ then scanBump st i k else st) st)
        st).mcc) := by
  intro N
  induction N with
  | nil =>
      rintro ⟨j, hj, _⟩
      exact absurd hj (List.not_mem_nil j)
  | cons j N ih =>
      rintro ⟨j', hj', hjc⟩ st
      rw [List.foldl_cons]
      by_cases hrest : ∃ j0 ∈ N, j0 ∈ coms.getD c ∅
      · exact ih hrest _
      · have hjj' : j' = j := by
          rcases List.mem_cons.mp hj' with h | h
          · exact h
          · exact absurd ⟨j', h, hjc⟩ hrest
        subst hjj'
        have hnone : ∀ j0 ∈ N, ¬(decide (j0 ∈ coms.getD c ∅)) = true := by
          intro j0 h0 hdec
          exact hrest ⟨j0, h0, by simpa using hdec⟩
        have hcs : ((N.foldl (fun st j =>
            (List.range coms.length).foldl
              (fun st k => if j ∈ coms.getD k ∅ then scanBump st i k else st)
              st) ((List.range coms.length).foldl
              (fun st k => if j' ∈ coms.getD k ∅ then scanBump st i k else st)
              st)).cs i c)
            = (((List.range coms.length).foldl
              (fun st k => if j' ∈ coms.getD k ∅ then scanBump st i k else st)
              st).cs i c) := by
          rw [nbrfold_cs_self H coms i c hc]
          have hfil : (N.filter (fun j => decide (j ∈ coms.getD c ∅))) = [] := by
            rw [List.filter_eq_nil]
            exact hnone
          rw [hfil]
          rfl
        rw [hcs]
        calc (((((List.range coms.length).foldl
              (fun st k => if j' ∈ coms.getD k ∅ then scanBump st i k else st)
              st).cs i c : Nat)) : ℤ)
            ≤ (((List.range coms.length).foldl
              (fun st k => if j' ∈ coms.getD k ∅ then scanBump st i k else st)
              st).mcc) := scanK_bound coms i j' c hjc (List.range coms.length)
                (List.nodup_range coms.length) (List.mem_range.mpr hc) st
          _ ≤ _ := by
              apply foldl_mcc_le
              intro st j0
              exact scanK_foldl_mono coms i j0 (List.range coms.length) st

theorem scanNode_bound (H : Graph) (coms : List (Finset Nat)) (i c : Nat)
    (hc : c < coms.length)
    (hex : ∃ j ∈ nbrsList H i, j ∈ coms.getD c ∅) (st : ScanState) :
    (((scanNode H coms st i).cs i c : Nat) : ℤ)
      ≤ (scanNode H coms st i).mcc := by
  unfold scanNode
  exact nbrfold_bound H coms i c hc (nbrsList H i) hex st

theorem scan_bound (H : Graph) (coms : List (Finset Nat)) (i c : Nat)
    (hc : c < coms.length)
    (hex : ∃ j ∈ nbrsList H i, j ∈ coms.getD c ∅) :
    ∀ (sep : List Nat), sep.Nodup → i ∈ sep → ∀ st : ScanState,
      (((scan H coms sep st).cs i c : Nat) : ℤ) ≤ (scan H coms sep st).mcc := by
  intro sep
  induction sep with
  | nil => intro _ hi; exact absurd hi (List.not_mem_nil i)
  | cons i' sep ih =>
      intro hnd hi st
      have hi'sep : i' ∉ sep := (List.nodup_cons.mp hnd).1
      have hndsep : sep.Nodup := (List.nodup_cons.mp hnd).2
      show (((scan H coms sep (scanNode H coms st i')).cs i c : Nat) : ℤ)
        ≤ (scan H coms sep (scanNode H coms st i')).mcc
      by_cases hii' : i = i'
      · subst hii'
        rw [congrFun (scan_cs_notmem H coms sep i hi'sep _) c]
        calc (((scanNode H coms st i).cs i c : Nat) : ℤ)
            ≤ (scanNode H coms st i).mcc := scanNode_bound H coms i c hc hex st
          _ ≤ _ := scan_mono H coms sep _
      · have hisep : i ∈ sep := by
          rcases List.mem_cons.mp hi with h | h
          · exact absurd h hii'
          · exact h
        exact ih hndsep hisep _

/-- After a full scan of the separator list, every summary entry of an
unassigned node and an existing community is at most the tracked
connectedness — provided entries positive before the scan are still backed
by current neighbours (the accumulated-history invariant) and the scan sees
at least one boundary incidence. -/
theorem scan_cells_below (H : Graph) (coms : List (Finset Nat))
    (sep : List Nat) (st : ScanState) (hnd : sep.Nodup)
    (hhist : ∀ i ∈ sep, ∀ c, c < coms.length → 0 < st.cs i c →
      0 < curCount H coms i c)
    (htrig : ∃ i ∈ sep, ∃ j ∈ nbrsList H i,
      ∃ k, k < coms.length ∧ j ∈ coms.getD k ∅) :
    ∀ i ∈ sep, ∀ c, c < coms.length →
      (((scan H coms sep st).cs i c : Nat) : ℤ) ≤ (scan H coms sep st).mcc := by
  intro i hi c hc
  by_cases hw : 0 < curCount H coms i c
  · have hex : ∃ j ∈ nbrsList H i, j ∈ coms.getD c ∅ := by
      unfold curCount at hw
      rcases List.exists_mem_of_length_pos hw with ⟨j, hj⟩
      rcases List.mem_filter.mp hj with ⟨hjn, hjc⟩
      exact ⟨j, hjn, by simpa using hjc⟩
    exact scan_bound H coms i c hc hex sep hnd hi st
  · have hcs0 : st.cs i c = 0 := by
      by_contra hpos
      exact hw (hhist i hi c hc (Nat.pos_of_ne_zero hpos))
    have hfin : (scan H coms sep st).cs i c = 0 := by
      rw [scan_cs_mem H coms sep hnd i hi c hc, hcs0]
      omega
    rw [hfin]
    exact scan_progress H coms sep st htrig

theorem length_filter_mono {p q : Nat → Bool} :
    ∀ (L : List Nat), (∀ a, p a = true → q a = true) →
      (L.filter p).length ≤ (L.filter q).length := by
  intro L
  induction L with
  | nil => intro _; exact le_rfl
  | cons a L ih =>
      intro h
      rw [List.filter_cons, List.filter_cons]
      by_cases hp : p a = true
      · rw [if_pos hp, if_pos (h a hp)]
        simpa using ih h
      · rw [if_neg hp]
        split_ifs with hq
        · calc (L.filter p).length ≤ (L.filter q).length := ih h
            _ ≤ (a :: L.filter q).length := by simp
        · exact ih h

theorem getD_set_superset (coms : List (Finset Nat)) (kk : Nat)
    (a : Finset Nat) (ha : coms.getD kk ∅ ⊆ a) (c : Nat) :
    coms.getD c ∅ ⊆ (coms.set kk a).getD c ∅ := by
  by_cases hc : c < coms.length
  · have hc1 : c < (coms.set kk a).length := by
      rw [List.length_set]
      exact hc
    rw [List.getD_eq_getElem _ ∅ hc1, List.getD_eq_getElem _ ∅ hc]
    by_cases hkc : kk = c
    · subst hkc
      have h1 : (coms.set kk a)[kk] = a := by simp [List.getElem_set]
      rw [h1]
      rw [List.getD_eq_getElem _ ∅ hc] at ha
      exact ha
    · have h1 : (coms.set kk a)[c] = coms[c] := by
        simp [List.getElem_set, hkc]
      rw [h1]
  · push_neg at hc
    have h1 : (coms.set kk a).getD c ∅ = ∅ :=
      List.getD_eq_default _ ∅ (by simpa [List.length_set] using hc)
    have h2 : coms.getD c ∅ = ∅ := List.getD_eq_default _ ∅ hc
    rw [h1, h2]

theorem curCount_le_set (H : Graph) (coms : List (Finset Nat)) (kk : Nat)
    (a : Finset Nat) (ha : coms.getD kk ∅ ⊆ a) (i c : Nat) :
    curCount H coms i c ≤ curCount H (coms.set kk a) i c := by
  unfold curCount
  apply length_filter_mono
  intro j hj
  rw [decide_eq_true_eq] at hj ⊢
  exact getD_set_superset coms kk a ha c hj

theorem mem_set_self (coms : List (Finset Nat)) (k : Nat) (a : Finset Nat)
    (hk : k < coms.length) : a ∈ coms.set k a := by
  have hk1 : k < (coms.set k a).length := by
    rw [List.length_set]
    exact hk
  have h : (coms.set k a)[k] = a := by simp [List.getElem_set]
  have hm := List.getElem_mem hk1
  rwa [h] at hm

theorem communities_union_nonempty (H : Graph) (x : Nat → Nat)
    (hedge : ∃ u v, H.adj u v = true ∧ x u = 1 ∧ x v = 1) :
    ((communitiesList H x).foldr (· ∪ ·) ∅).Nonempty := by
  obtain ⟨u, v, hadj, hu, hv⟩ := hedge
  refine ⟨u, ?_⟩
  rw [communitiesList_union]
  refine Finset.mem_filter.mpr
    ⟨Finset.mem_range.mpr (H.adj_lt u v hadj).1, ?_⟩
  have hiso : u ∉ isolatedNodes H x := by
    intro hmem
    rw [isolatedNodes, Finset.mem_filter] at hmem
    have hvmem : v ∈ (nbrs H u).filter (fun j => x j = 1) :=
      Finset.mem_filter.mpr ⟨(mem_nbrs H u v).mpr hadj, hv⟩
    have hne : ((nbrs H u).filter (fun j => x j = 1)).card ≠ 0 :=
      Finset.card_ne_zero_of_mem hvmem
    exact hne hmem.2.2
  unfold keepG greedyReclassified
  rw [if_neg hiso, hu]
  rfl

/-- Invariant of the greedy trajectory: the partition invariant, the tracked
pair attaining its own summary entry, positive accumulated entries backed by
current neighbours, and — while separator nodes remain — the tracked pair
being valid and globally maximal in the accumulated summary. -/
theorem greedyStates_inv (H : Graph) (x : Nat → Nat)
    (hconn : ConnectedGraph H)
    (hbin : ∀ i, i < H.n → x i ≤ 1)
    (hedge : ∃ u v, H.adj u v = true ∧ x u = 1 ∧ x v = 1) :
    ∀ (k : Nat) (coms : List (Finset Nat)) (sep : List Nat) (st : ScanState),
      greedyStates H x k = some (coms, sep, st) →
      GInv H (communitiesList H x).length coms sep ∧
      TrackAttains st ∧
      (∀ i ∈ sep, ∀ c, c < coms.length → 0 < st.cs i c →
        0 < curCount H coms i c) ∧
      (sep ≠ [] → 0 ≤ st.mcc ∧ st.mcn ∈ sep ∧ st.mck < coms.length ∧
        ∀ i ∈ sep, ∀ c, c < coms.length →
          ((st.cs i c : Nat) : ℤ) ≤ st.mcc) := by
  intro k
  induction k with
  | zero =>
      intro coms sep st hstate
      rw [greedyStates, Option.some_inj, Prod.mk.injEq, Prod.mk.injEq]
        at hstate
      obtain ⟨h1, h2, h3⟩ := hstate
      subst h1
      subst h2
      subst h3
      have hinv0 := greedy_init_inv H x hbin
      refine ⟨hinv0, scan_attains _ _ _ _ (Or.inl rfl), ?_, ?_⟩
      · intro i hi c hc hpos
        rw [scan_cs_mem H _ _ (sepList_nodup H x) i hi c hc] at hpos
        have h0 : greedyInitState.cs i c = 0 := rfl
        rw [h0] at hpos
        omega
      · intro hne
        have htrig := greedy_trigger H hconn _ _ _ hinv0
          (communities_union_nonempty H x hedge) hne
        have hprog := scan_progress H _ _ greedyInitState htrig
        have hval := scan_valid H (communitiesList H x) (sepList H x)
          greedyInitState (Or.inl rfl)
        rcases hval with h | h
        · rw [h] at hprog
          omega
        · refine ⟨hprog, h.2.1, h.2.2, ?_⟩
          apply scan_cells_below H _ _ greedyInitState (sepList_nodup H x)
            ?_ htrig
          intro i _ c _ hpos
          have h0 : greedyInitState.cs i c = 0 := rfl
          rw [h0] at hpos
          omega
  | succ k ih =>
      intro coms' sep' st' hstate
      rw [greedyStates] at hstate
      cases hmatch : greedyStates H x k with
      | none =>
          rw [hmatch] at hstate
          cases hstate
      | some s =>
          obtain ⟨coms, sep, st⟩ := s
          rw [hmatch] at hstate
          obtain ⟨hinv, -, hhist, -⟩ := ih coms sep st hmatch
          have hstate2 : greedyIter H (coms, sep, st)
              = some (coms', sep', st') := hstate
          unfold greedyIter at hstate2
          split_ifs at hstate2 with hcond
          · obtain ⟨hk, hmem⟩ := hcond
            rw [Option.some_inj, Prod.mk.injEq, Prod.mk.injEq] at hstate2
            obtain ⟨h1, h2, h3⟩ := hstate2
            subst h1
            subst h2
            subst h3
            obtain ⟨-, hinv1, -, -⟩ :=
              greedyIter_spec H hconn _ coms sep st hinv hmem hk
            have hsub : coms.getD st.mck ∅ ⊆
                insert st.mcn (coms.getD st.mck ∅) :=
              Finset.subset_insert _ _
            have hhist1 : ∀ i ∈ sep.erase st.mcn, ∀ c,
                c < (coms.set st.mck
                  (insert st.mcn (coms.getD st.mck ∅))).length →
                0 < st.cs i c →
                0 < curCount H (coms.set st.mck
                  (insert st.mcn (coms.getD st.mck ∅))) i c := by
              intro i hi c hc hpos
              have hc' : c < coms.length := by
                rw [List.length_set] at hc
                exact hc
              have h0 := hhist i (List.mem_of_mem_erase hi) c hc' hpos
              calc 0 < curCount H coms i c := h0
                _ ≤ _ := curCount_le_set H coms st.mck _ hsub i c
            refine ⟨hinv1, scan_attains _ _ _ _ (Or.inl rfl), ?_, ?_⟩
            · intro i hi c hc hpos
              rw [scan_cs_mem H _ _ hinv1.sep_nodup i hi c hc] at hpos
              have hst : ({ st with mcc := -1 } : ScanState).cs = st.cs := rfl
              rw [hst] at hpos
              by_cases hcs : 0 < st.cs i c
              · exact hhist1 i hi c hc hcs
              · omega
            · intro hne
              have hA1 : ((coms.set st.mck
                  (insert st.mcn (coms.getD st.mck ∅))).foldr
                    (· ∪ ·) ∅).Nonempty := by
                refine ⟨st.mcn, (mem_foldr_union _ st.mcn).mpr
                  ⟨insert st.mcn (coms.getD st.mck ∅),
                    mem_set_self coms st.mck _ hk,
                    Finset.mem_insert_self _ _⟩⟩
              have htrig := greedy_trigger H hconn _ _ _ hinv1 hA1 hne
              have hprog := scan_progress H _ _ { st with mcc := -1 } htrig
              have hval := scan_valid H
                (coms.set st.mck (insert st.mcn (coms.getD st.mck ∅)))
                (sep.erase st.mcn)
                ({ st with mcc := -1 } : ScanState) (Or.inl rfl)
              rcases hval with h | h
              · rw [h] at hprog
                omega
              · refine ⟨hprog, h.2.1, h.2.2, ?_⟩
                apply scan_cells_below H _ _
                  ({ st with mcc := -1 } : ScanState)
                  hinv1.sep_nodup ?_ htrig
                intro i hi c hc hpos
                have hst : ({ st with mcc := -1 } : ScanState).cs = st.cs :=
                  rfl
                rw [hst] at hpos
                exact hhist1 i hi c hc hpos

/-- **C6, counterexample.** Running the greedy assigner on `cumGraph` with
community block `{0, 1}` and separator nodes `2, 3, 4, 5`: the state
entering the third assignment step tracks the pair (node 4, community 0) —
which the step then assigns — although the still-unassigned separator node
5 has two of its neighbours currently inside community 0 while node 4 has
only one.  The assigned pair maximises the accumulated `connection_summary`
(never reset at line 303), not the current neighbour counts claimed. -/
theorem greedy_pick_not_current_max :
    (greedyStates cumGraph (fun i => if i < 2 then 1 else 0) 2).map
        (fun s => (s.2.2.mcn, s.2.2.mck, decide (5 ∈ s.2.1),
          curCount cumGraph s.1 4 0, curCount cumGraph s.1 5 0))
      = some (4, 0, true, 1, 2) ∧
    (greedyStates cumGraph (fun i => if i < 2 then 1 else 0) 3).map
        (fun s => decide (4 ∈ s.1.getD 0 ∅)) = some true := by
  decide

/-- **C6, amended.**  On a connected graph with a 0/1 classification that
leaves an edge inside the classified-1 block, every assignment step picks a
pair that is maximal in the ACCUMULATED connection summary: whenever the
trajectory reaches a state with separator nodes left, the tracked node is
one of them, the tracked community exists, the tracked connectedness equals
the tracked pair's accumulated summary entry, and no unassigned node has a
larger accumulated entry for any community. -/
theorem greedy_pick_maximizes_accumulated (H : Graph) (x : Nat → Nat)
    (hconn : ConnectedGraph H)
    (hbin : ∀ i, i < H.n → x i ≤ 1)
    (hedge : ∃ u v, H.adj u v = true ∧ x u = 1 ∧ x v = 1)
    (k : Nat) (coms : List (Finset Nat)) (sep : List Nat) (st : ScanState)
    (hstate : greedyStates H x k = some (coms, sep, st)) (hne : sep ≠ []) :
    st.mcn ∈ sep ∧ st.mck < coms.length ∧
    st.mcc = ((st.cs st.mcn st.mck : Nat) : ℤ) ∧
    ∀ i ∈ sep, ∀ c, c < coms.length → ((st.cs i c : Nat) : ℤ) ≤ st.mcc := by
  obtain ⟨-, hatt, -, hval⟩ :=
    greedyStates_inv H x hconn hbin hedge k coms sep st hstate
  obtain ⟨hpos, hmem, hk, hmax⟩ := hval hne
  refine ⟨hmem, hk, ?_, hmax⟩
  rcases hatt with h | h
  · rw [h] at hpos
    omega
  · exact h

theorem greedy_pick_maximizes_accumulated_witness :
    (scan greedyPathGraph
        (communitiesList greedyPathGraph (fun i => if i < 2 then 1 else 0))
        (sepList greedyPathGraph (fun i => if i < 2 then 1 else 0))
        greedyInitState).mcn
      ∈ sepList greedyPathGraph (fun i => if i < 2 then 1 else 0) ∧
    (scan greedyPathGraph
        (communitiesList greedyPathGraph (fun i => if i < 2 then 1 else 0))
        (sepList greedyPathGraph (fun i => if i < 2 then 1 else 0))
        greedyInitState).mck
      < (communitiesList greedyPathGraph
          (fun i => if i < 2 then 1 else 0)).length ∧
    (scan greedyPathGraph
        (communitiesList greedyPathGraph (fun i => if i < 2 then 1 else 0))
        (sepList greedyPathGraph (fun i => if i < 2 then 1 else 0))
        greedyInitState).mcc
      = (((scan greedyPathGraph
          (communitiesList greedyPathGraph (fun i => if i < 2 then 1 else 0))
          (sepList greedyPathGraph (fun i => if i < 2 then 1 else 0))
          greedyInitState).cs
        (scan greedyPathGraph
          (communitiesList greedyPathGraph (fun i => if i < 2 then 1 else 0))
          (sepList greedyPathGraph (fun i => if i < 2 then 1 else 0))
          greedyInitState).mcn
        (scan greedyPathGraph
          (communitiesList greedyPathGraph (fun i => if i < 2 then 1 else 0))
          (sepList greedyPathGraph (fun i => if i < 2 then 1 else 0))
          greedyInitState).mck : Nat) : ℤ) ∧
    (((scan greedyPathGraph
        (communitiesList greedyPathGraph (fun i => if i < 2 then 1 else 0))
        (sepList greedyPathGraph (fun i => if i < 2 then 1 else 0))
        greedyInitState).cs 2 0 : Nat) : ℤ)
      ≤ (scan greedyPathGraph
        (communitiesList greedyPathGraph (fun i => if i < 2 then 1 else 0))
        (sepList greedyPathGraph (fun i => if i < 2 then 1 else 0))
        greedyInitState).mcc := by
  have h := greedy_pick_maximizes_accumulated greedyPathGraph
    (fun i => if i < 2 then 1 else 0) (by decide)
    (fun i _ => by beta_reduce; split_ifs <;> decide)
    ⟨0, 1, by decide, rfl, rfl⟩ 0
    (communitiesList greedyPathGraph (fun i => if i < 2 then 1 else 0))
    (sepList greedyPathGraph (fun i => if i < 2 then 1 else 0))
    (scan greedyPathGraph
      (communitiesList greedyPathGraph (fun i => if i < 2 then 1 else 0))
      (sepList greedyPathGraph (fun i => if i < 2 then 1 else 0))
      greedyInitState)
    rfl (by decide)
  exact ⟨h.1, h.2.1, h.2.2.1, h.2.2.2 2 (by decide) 0 (by decide)⟩

end QCD
